import Mathlib

set_option maxRecDepth 10000

/-!
Verification of the Archiver compression core (LZ77 + Huffman) against its
natural-language specification.  The Rust sources are shallowly embedded:
machine integers become Nat (the source works with u32/usize values that are
kept below 2^31 by the chunking bounds, so Nat arithmetic is exact), mutable
vectors become lists with explicit set/get, loops become fuel-indexed
structural recursions (the fuel is always sufficient on the call paths used,
which the lemmas prove), and code that can panic returns Option.
-/

namespace Archiver

/-! ### Numeric helpers: floor log2 and bit strings -/

/-- Fuel-indexed floor of log2, mirroring repeated halving.  With fuel at
least n this computes the floor of log2 n (and 0 at n = 0). -/
def flog2 : Nat → Nat → Nat
  | 0, _ => 0
  | fuel + 1, n => if n ≥ 2 then flog2 fuel (n / 2) + 1 else 0

/-- Floor of log2 on Nat, kernel-computable.  For d with 1 <= d < 2^32 this
equals the source expression 31 - leading_zero_count_32 d. -/
def log2m (n : Nat) : Nat := flog2 n n

/-- The source expression 32 - leading_zero_count_32 d, i.e. the number of
bits needed to write d (0 for d = 0). -/
def bits32 (d : Nat) : Nat := if d = 0 then 0 else log2m d + 1

/-- Low k bits of v, least significant bit first: the bit order used by
BitBuffer writes (write_bits). -/
def toBits : Nat → Nat → List Bool
  | 0, _ => []
  | k + 1, v => (v % 2 = 1) :: toBits k (v / 2)

/-- Read k bits least-significant-first from the front of a bit stream,
returning the value and the remaining stream; none when fewer than k bits
remain (BitBuffer read_bits). -/
def readBits : Nat → List Bool → Option (Nat × List Bool)
  | 0, bs => some (0, bs)
  | _ + 1, [] => none
  | k + 1, b :: bs =>
      (readBits k bs).map (fun r => ((if b then 1 else 0) + 2 * r.1, r.2))

/-- Value of u32::MAX. -/
def u32max : Nat := 2 ^ 32 - 1

/-! ### Chunking -/

/-- Split a list into consecutive chunks of the given size (the final chunk
may be shorter); mirrors Rust slice::chunks, which is only called with a
positive size.  Fuel-indexed on the list length. -/
def chunksOfAux (size : Nat) : Nat → List α → List (List α)
  | 0, _ => []
  | _ + 1, [] => []
  | fuel + 1, l@(_ :: _) => l.take size :: chunksOfAux size fuel (l.drop size)

def chunksOf (size : Nat) (l : List α) : List (List α) :=
  chunksOfAux size l.length l

/-- Concatenate the chunk results of a data-parallel map in order; a single
failed chunk fails the whole operation (the source panics inside the worker
closure). -/
def seqChunks : List (Option (List Nat)) → Option (List Nat)
  | [] => some []
  | o :: os =>
      match o, seqChunks os with
      | some a, some b => some (a ++ b)
      | _, _ => none

namespace LZ77

/-! ### LZ77: longest-previous-common helper and factoriser pieces,
translated from src/src/lz_77.rs -/

/-- Position of the first mismatch of two streams, none if the zipped
overlap agrees everywhere: models iter().zip(...).position(a != b). -/
def mismatch : List Nat → List Nat → Option Nat
  | a :: as_, b :: bs => if a ≠ b then some 0 else (mismatch as_ bs).map (· + 1)
  | _, _ => none

/-- LZ77::lpc from src/src/lz_77.rs lines 21-28: the position of the first
mismatching byte of the suffixes at i and j, with unwrap_or(0) when the
zipped overlap has no mismatch. -/
def lpc (input : List Nat) (i j : Nat) : Nat :=
  (mismatch (input.drop i) (input.drop j)).getD 0

/-- The exact longest-common-prefix length of two streams, as the claim and
the specification describe it (naive byte comparison).  Used only to compare
lpc against the specified behaviour. -/
def lcpLen : List Nat → List Nat → Nat
  | a :: as_, b :: bs => if a = b then lcpLen as_ bs + 1 else 0
  | _, _ => 0

/-- The exact LCP of the suffixes of input at i and j (specified behaviour
of lpc). -/
def lcpSpec (input : List Nat) (i j : Nat) : Nat :=
  lcpLen (input.drop i) (input.drop j)

/-- LZ77::lenght_size from src/src/lz_77.rs lines 146-149:
(bits / 2).min(8).max(1). -/
def lenght_size (bits : Nat) : Nat := max (min (bits / 2) 8) 1

/-- The length-field width formula exactly as the claim (and the spec)
states it: clamp(floor((31 - leading_zero_count_32 D) / 3), 1, 8).  Used
only to compare against the implemented width. -/
def spec_length_bits (d : Nat) : Nat := max (min (log2m d / 3) 8) 1

/-- LZ77::encode chunking, src/src/lz_77.rs lines 178-194: chunk size is
2^bits - 2, the i-th chunk is input[i*cs .. min((i+1)*cs, n)]. -/
def encodeChunks (input : List Nat) (bits : Nat) : List (List Nat) :=
  let n := input.length
  let chunk_size := 2 ^ bits - 2
  let num_chunks := n / chunk_size + if n % chunk_size = 0 then 0 else 1
  (List.range num_chunks).map (fun i =>
    (input.take (min ((i + 1) * chunk_size) n)).drop (i * chunk_size))

end LZ77

namespace ParrallelHuffman

/-- ParrallelHuffman::encrypt chunking, src/huffman.rs lines 24-33:
input.chunks(2^bits - 1). -/
def encryptChunks (input : List Nat) (bits : Nat) : List (List Nat) :=
  chunksOf (2 ^ bits - 1) input

end ParrallelHuffman

/-- Three-way comparison on Int, mirroring Rust Ord::cmp. -/
def cmpInt (a b : Int) : Ordering :=
  if a < b then .lt else if b < a then .gt else .eq

namespace SuffixArray

/-! ### Suffix array construction, translated from src/src/suffix_array.rs -/

/-- compare_node from src/src/suffix_array.rs lines 9-17: compare suffixes
i and j by (rank[i], rank[i+k]) with out-of-range second components treated
as -1. -/
def compare_node (i j k : Nat) (rank : List Int) : Ordering :=
  if rank.getD i 0 ≠ rank.getD j 0 then
    cmpInt (rank.getD i 0) (rank.getD j 0)
  else
    let ri : Int := if i + k < rank.length then rank.getD (i + k) 0 else -1
    let rj : Int := if j + k < rank.length then rank.getD (j + k) 0 else -1
    cmpInt ri rj

/-- The second comparison component of compare_node: rank at i + k, or -1
out of range. -/
def extRank (k : Nat) (rank : List Int) (i : Nat) : Int :=
  if i + k < rank.length then rank.getD (i + k) 0 else -1

/-- The comparator handed to sort_by, as a less-or-equal relation.  The
source uses a stable comparison sort; the model uses insertion sort, which
produces a sorted permutation for the same comparator (the ranks derived
from the sorted array do not depend on the order of tied elements). -/
def nodeLe (k : Nat) (rank : List Int) (a b : Nat) : Prop :=
  compare_node a b k rank ≠ Ordering.gt

instance nodeLeDec (k : Nat) (rank : List Int) : DecidableRel (nodeLe k rank) :=
  fun a b => instDecidableNot

/-- The dense re-ranking pass over the sorted array (lines 35-43):
tmp[array[i]] = tmp[array[i-1]] + (1 if array[i-1] compares strictly below
array[i] else 0). -/
def rerankAux (k : Nat) (rank : List Int) : List Nat → Nat → Int → List Int → List Int
  | [], _, _, tmp => tmp
  | a :: rest, prev, pv, tmp =>
      let v := pv + (if compare_node prev a k rank = Ordering.lt then 1 else 0)
      rerankAux k rank rest a v (tmp.set a v)

/-- The re-ranking pass of SuffixArray::new.  The source reuses a scratch
vector whose entries are all overwritten (the sorted array covers every
index 0..n); the model starts each round from a fresh zero vector of the
same length n+1. -/
def rerank (arr : List Nat) (k : Nat) (rank : List Int) (n : Nat) : List Int :=
  match arr with
  | [] => List.replicate (n + 1) 0
  | a0 :: rest => rerankAux k rank rest a0 0 ((List.replicate (n + 1) 0).set a0 0)

/-- The doubling loop of SuffixArray::new (lines 31-46): while k <= n, sort
by compare_node, re-rank densely, double k.  Fuel-indexed; fuel n+1 always
suffices because k at least doubles each round. -/
def rounds (n : Nat) : Nat → Nat → List Nat → List Int → List Nat
  | 0, _, arr, _ => arr
  | fuel + 1, k, arr, rank =>
      if k ≤ n then
        let arr2 := List.insertionSort (nodeLe k rank) arr
        let rank2 := rerank arr2 k rank n
        rounds n fuel (k * 2) arr2 rank2
      else arr

/-- SuffixArray::new (lines 19-53): initial array is the identity, initial
rank of i is s[i] (and -1 for the empty suffix at n); then the doubling
rounds.  Returns the suffix array entries. -/
def new (s : List Nat) : List Nat :=
  let n := s.length
  let rank0 := (List.range (n + 1)).map (fun i => if i < n then (s.getD i 0 : Int) else -1)
  rounds n (n + 1) 1 (List.range (n + 1)) rank0

end SuffixArray

namespace LZ77

/-! ### PSV/NSV sweep, factor loop and guard pass of LZ77::fast_encode -/

/-- The inner while of the PSV/NSV sweep (lines 52-56): walk the psv chain
from j, fixing nsv of every popped entry to i; returns the surviving j and
the updated nsv vector.  Fuel-indexed; fuel i suffices since the chain
positions decrease strictly from i-1. -/
def chainWalk (sa : List Nat) (i : Nat) : Nat → Nat → List Nat → List Nat → Nat × List Nat
  | 0, j, _, nsv => (j, nsv)
  | fuel + 1, j, psvArr, nsv =>
      if psvArr.getD j 0 ≠ u32max ∧ sa.getD i 0 < sa.getD j 0 then
        chainWalk sa i fuel (psvArr.getD j 0) psvArr (nsv.set j i)
      else (j, nsv)

/-- The outer loop of the PSV/NSV sweep (for i in 1..n, lines 51-58). -/
def sweep (sa : List Nat) (n : Nat) : Nat → Nat → List Nat → List Nat → List Nat × List Nat
  | 0, _, psvArr, nsv => (psvArr, nsv)
  | fuel + 1, i, psvArr, nsv =>
      if i < n then
        let w := chainWalk sa i i (i - 1) psvArr nsv
        sweep sa n fuel (i + 1) (psvArr.set i w.1) w.2
      else (psvArr, nsv)

/-- The PSV/NSV computation of fast_encode (lines 47-60): psv starts all
u32::MAX, nsv all 0; for i in 1..n the chain walk pops entries whose nsv is
fixed to i and the survivor becomes psv[i]; finally the u32::MAX sentinel
is folded to 0. -/
def psv_nsv (sa : List Nat) (n : Nat) : List Nat × List Nat :=
  let r := sweep sa n n 1 (List.replicate (n + 1) u32max) (List.replicate (n + 1) 0)
  (r.1.map (fun x => if x = u32max then 0 else x), r.2)

/-- The inverse suffix array (lines 41-44): isa[sa[i]] = i. -/
def inverseOf (sa : List Nat) (n : Nat) : List Nat :=
  sa.enum.foldl (fun acc p => acc.set p.2 p.1) (List.replicate (n + 1) 0)

/-- LZ77::lz_factor (lines 163-176). -/
def lz_factor (i psvC nsvC : Nat) (x : List Nat) : Nat × Nat × Nat × Nat :=
  let v1 := lpc x i psvC
  let v2 := lpc x i nsvC
  let pl := if v1 > v2 then (psvC, v1) else (nsvC, v2)
  match x.get? (i + pl.2) with
  | some e => (pl.1, pl.2, e, i + max pl.2 1)
  | none => (pl.1, pl.2, 0, i + pl.2)

/-- The greedy factor loop of fast_encode (lines 63-71).  Fuel-indexed;
fuel n - k suffices since each factor advances k by at least 1. -/
def factorLoop (x sa isa psvF nsvF : List Nat) (n : Nat) : Nat → Nat → List (Nat × Nat × Nat)
  | 0, _ => []
  | fuel + 1, k =>
      if k < n then
        let pc := sa.getD (psvF.getD (isa.getD k 0) 0) 0
        let nc := sa.getD (nsvF.getD (isa.getD k 0) 0) 0
        let r := lz_factor k pc nc x
        (r.1, r.2.1, r.2.2.1) :: factorLoop x sa isa psvF nsvF n fuel r.2.2.2
      else []

/-- The guard pass against tiny references (the scan in lines 73-88): count
accumulates the decoded position after each factor; short references whose
offsets have become expensive are replaced by the literals they copy. -/
def guardSmall (x : List Nat) : Nat → List (Nat × Nat × Nat) → List (Nat × Nat × Nat)
  | _, [] => []
  | count, (p, l, c) :: rest =>
      let count2 := count + max l 1
      (if l = 1 ∧ 128 ≤ count2 then [(0, 0, x.getD p 0)]
       else if l = 2 ∧ 32768 ≤ count2 then [(0, 0, x.getD p 0), (0, 0, x.getD (p + 1) 0)]
       else if l = 3 ∧ 8388608 ≤ count2 then
         [(0, 0, x.getD p 0), (0, 0, x.getD (p + 1) 0), (0, 0, x.getD (p + 2) 0)]
       else [(p, l, c)]) ++ guardSmall x count2 rest

/-- The complete factoriser front end of fast_encode: suffix array,
inverse, PSV/NSV vectors, greedy factor loop, then the guard pass. -/
def factorsOf (input : List Nat) : List (Nat × Nat × Nat) :=
  let n := input.length
  let sa := SuffixArray.new input
  let isa := inverseOf sa n
  let pn := psv_nsv sa n
  guardSmall input 0 (factorLoop input sa isa pn.1 pn.2 n n 0)

/-- The factor list before the guard pass (the output of the loop in lines
63-71), used by the claims about the factoriser itself. -/
def rawFactorsOf (input : List Nat) : List (Nat × Nat × Nat) :=
  let n := input.length
  let sa := SuffixArray.new input
  let isa := inverseOf sa n
  let pn := psv_nsv sa n
  factorLoop input sa isa pn.1 pn.2 n n 0

/-! ### The adaptive bit packer (lines 90-144) and its decoder -/

/-- The packer and decoder state: current_char_index, lenght_size and
max_lenght (the decoder does not keep max_lenght). -/
structure PackSt where
  d : Nat
  ls : Nat
  ml : Nat
deriving DecidableEq

/-- The state update performed after every write: current_char_index grows
by the decoded bytes, lenght_size is recomputed from
31 - leading_zeros(current_char_index) (equal to log2m at the nonzero call
sites), max_lenght = 2^lenght_size - 1. -/
def bump (st : PackSt) (dlt : Nat) : PackSt :=
  let d2 := st.d + dlt
  ⟨d2, lenght_size (log2m d2), 2 ^ lenght_size (log2m d2) - 1⟩

/-- Packing one back reference, including the run-splitting while loop
(lines 119-131): while l exceeds max_lenght, write an all-ones length
(u32::MAX truncated to lenght_size bits) and the current offset, advance p
and the position by max_lenght; finally write the remaining length and
offset (lines 132-137).  Fuel-indexed; fuel l suffices. -/
def packRef (flag : Bool) : Nat → PackSt → Nat → Nat → List Bool × PackSt
  | 0, st, _, _ => ([], st)
  | fuel + 1, st, p, l =>
      if st.ml < l then
        let piece := (if flag then [true] else []) ++
          toBits st.ls u32max ++ toBits (bits32 st.d) p
        let r := packRef flag fuel (bump st st.ml) (p + st.ml) (l - st.ml)
        (piece ++ r.1, r.2)
      else
        ((if flag then [true] else []) ++ toBits st.ls l ++ toBits (bits32 st.d) p,
         bump st l)

/-- Packing one factor (the fold body, lines 106-143): a literal writes the
flag (or a zero length) and 8 bits of the byte; a reference goes through
packRef. -/
def packOne (flag : Bool) (st : PackSt) : Nat × Nat × Nat → List Bool × PackSt
  | (p, l, c) =>
      if l = 0 then
        ((if flag then [false] else toBits st.ls 0) ++ toBits 8 c, bump st 1)
      else packRef flag l st p l

def packAll (flag : Bool) (st : PackSt) : List (Nat × Nat × Nat) → List Bool × PackSt
  | [] => ([], st)
  | f :: fs =>
      let r := packOne flag st f
      let rest := packAll flag r.2 fs
      (r.1 ++ rest.1, rest.2)

/-- fast_encode with the chunk flag mode supplied externally; the leading
bit records the mode, then the factors are bit packed from the initial
state (current_char_index 0, lenght_size 1, max_lenght 1). -/
def fast_encodeWith (flag_mode : Bool) (input : List Nat) : List Bool :=
  flag_mode :: (packAll flag_mode ⟨0, 1, 1⟩ (factorsOf input)).1

/-- The flag mode selection of fast_encode (lines 95-104): true when the
fraction of literal factors exceeds 0.25.  The source computes the fraction
in f32; the model decides the same comparison exactly. -/
def chooseFlag (input : List Nat) : Bool :=
  let fs := factorsOf input
  decide (fs.length < 4 * (fs.filter (fun f => f.2.1 = 0)).length)

/-- LZ77::fast_encode (lines 30-144). -/
def fast_encode (input : List Nat) : List Bool :=
  fast_encodeWith (chooseFlag input) input

/-! ### Chunk decoding (lines 151-161 and 203-243) -/

/-- The copy loop of decode_chunk: push l bytes starting at index p; the
accumulator grows while copying, so overlapping references resolve
byte-by-byte.  An out-of-range index panics in the source: none. -/
def decode_chunkCopy : Nat → Nat → List Nat → Option (List Nat)
  | _, 0, acc => some acc
  | p, l + 1, acc =>
      match acc.get? p with
      | some b => decode_chunkCopy (p + 1) l (acc ++ [b])
      | none => none

def decode_chunkAux : List (Nat × Nat × Nat) → List Nat → Option (List Nat)
  | [], acc => some acc
  | (p, l, c) :: fs, acc =>
      match l with
      | 0 => decode_chunkAux fs (acc ++ [c])
      | _ =>
          match decode_chunkCopy p l acc with
          | some acc2 => decode_chunkAux fs acc2
          | none => none

/-- LZ77::decode_chunk (lines 151-161). -/
def decode_chunk (factors : List (Nat × Nat × Nat)) : Option (List Nat) :=
  decode_chunkAux factors []

/-- The decoder state mirrors the packer state without max_lenght. -/
structure DecSt where
  d : Nat
  ls : Nat
deriving DecidableEq

def decBump (st : DecSt) (dlt : Nat) : DecSt :=
  let d2 := st.d + dlt
  ⟨d2, lenght_size (log2m d2)⟩

/-- The factor-reading loop of decode for flag_mode = true (lines 211-226):
a 0 tag bit announces a literal byte, a 1 tag bit a length and offset read
with the current adaptive widths.  Mid-factor reads unwrap panics: none.
Fuel-indexed; bits.length + 1 suffices since every factor consumes at least
the tag bit. -/
def decodeFlagT : Nat → DecSt → List Bool → Option (List (Nat × Nat × Nat))
  | 0, _, _ => none
  | _ + 1, _, [] => some []
  | fuel + 1, st, bflag :: bs =>
      if bflag then
        match readBits st.ls bs with
        | none => none
        | some (l, bs2) =>
            match readBits (bits32 st.d) bs2 with
            | none => none
            | some (p, bs3) =>
                (decodeFlagT fuel (decBump st l) bs3).map (fun fs => (p, l, 0) :: fs)
      else
        match readBits 8 bs with
        | none => none
        | some (c, bs2) =>
            (decodeFlagT fuel (decBump st 1) bs2).map (fun fs => (0, 0, c) :: fs)

/-- The factor-reading loop of decode for flag_mode = false (lines
228-239): read lenght_size bits; 0 announces a literal byte, anything else
is the length followed by the offset.  The loop ends when no full length
field remains. -/
def decodeFlagF : Nat → DecSt → List Bool → Option (List (Nat × Nat × Nat))
  | 0, _, _ => none
  | fuel + 1, st, bs =>
      match readBits st.ls bs with
      | none => some []
      | some (l, bs2) =>
          if l = 0 then
            match readBits 8 bs2 with
            | none => none
            | some (c, bs3) =>
                (decodeFlagF fuel (decBump st 1) bs3).map (fun fs => (0, 0, c) :: fs)
          else
            match readBits (bits32 st.d) bs2 with
            | none => none
            | some (p, bs3) =>
                (decodeFlagF fuel (decBump st l) bs3).map (fun fs => (p, l, 0) :: fs)

/-- Decoding one LZ77 chunk bit stream back to bytes (the closure body of
LZ77::decode): read the flag-mode bit, decode factors with the
position-adaptive widths, then decode_chunk.  Reading the flag bit from an
empty buffer unwraps a panic: none. -/
def decodeChunkBits (bits : List Bool) : Option (List Nat) :=
  match bits with
  | [] => none
  | m :: rest =>
      match (if m then decodeFlagT (rest.length + 1) ⟨0, 1⟩ rest
             else decodeFlagF (rest.length + 1) ⟨0, 1⟩ rest) with
      | none => none
      | some fs => decode_chunk fs

/-- LZ77::encode with the per-chunk flag mode given by an oracle; the
actual encode instantiates the oracle with chooseFlag on each chunk. -/
def encodeWith (mode : List Nat → Bool) (input : List Nat) (bits : Nat) : List (List Bool) :=
  (encodeChunks input bits).map (fun c => fast_encodeWith (mode c) c)

/-- LZ77::encode (lines 178-201). -/
def encode (input : List Nat) (bits : Nat) : List (List Bool) :=
  encodeWith chooseFlag input bits

/-- LZ77::decode (lines 203-243): decode every chunk and concatenate in
order. -/
def decode (buffers : List (List Bool)) : Option (List Nat) :=
  seqChunks (buffers.map decodeChunkBits)

end LZ77

/-! ### Huffman coder, translated from src/huffman.rs -/

/-- HuffmanTree (src/huffman.rs lines 102-106): every node constructed by
the source (from_counts merges, deserialisation) is either a leaf carrying
one byte or an internal node with exactly two ordered children; the
inductive type captures these two shapes. -/
inductive HuffmanTree where
  | leaf (c : Nat) : HuffmanTree
  | node (l r : HuffmanTree) : HuffmanTree
deriving DecidableEq

namespace HuffmanTree

/-- build_map (lines 193-211): the code of each leaf is its root-to-leaf
bit path (left = false, right = true), listed in leaf order. -/
def paths : HuffmanTree → List Bool → List (Nat × List Bool)
  | .leaf c, cur => [(c, cur)]
  | .node l r, cur => paths l (cur ++ [false]) ++ paths r (cur ++ [true])

/-- The 256-entry lookup vector that build_map fills in. -/
def build_map (t : HuffmanTree) : List (List Bool) :=
  (paths t []).foldl (fun m p => m.set p.1 p.2) (List.replicate 256 [])

/-- Pop the minimum-priority element of the queue model: the first element
holding the least count.  The priority_queue crate leaves the order of
equal priorities unspecified; the model fixes first-in-first-out among
ties, and the round-trip theorems do not depend on the choice. -/
def popMin : List (HuffmanTree × Nat) → Option ((HuffmanTree × Nat) × List (HuffmanTree × Nat))
  | [] => none
  | a :: rest =>
      match popMin rest with
      | none => some (a, [])
      | some (m, rest2) => if a.2 ≤ m.2 then some (a, rest) else some (m, a :: rest2)

/-- The merge loop of from_counts (lines 158-166): while more than one
node remains, pop the two lowest-count nodes and push their merge keyed by
the summed count.  Fuel-indexed on the queue length. -/
def mergeRounds : Nat → List (HuffmanTree × Nat) → HuffmanTree
  | 0, q =>
      match q with
      | (t, _) :: _ => t
      | [] => .leaf 0
  | fuel + 1, q =>
      match popMin q with
      | none => .leaf 0
      | some (a, q1) =>
          match popMin q1 with
          | none => a.1
          | some (b, q2) => mergeRounds fuel (q2 ++ [(.node a.1 b.1, a.2 + b.2)])

/-- HuffmanTree::from_counts (lines 151-167): seed one leaf per character
0..255 keyed by its count, then merge. -/
def from_counts (counts : List Nat) : HuffmanTree :=
  let q := counts.enum.map (fun p => (HuffmanTree.leaf p.1, p.2))
  mergeRounds q.length q

/-- HuffmanTree::build_tree (lines 169-177). -/
def build_tree (input : List Nat) : HuffmanTree :=
  from_counts ((List.range 256).map (fun b => input.count b))

/-- beter_serialize_rec (lines 115-127): pre-order bits, leaf = 1 followed
by 8 bits of the byte, internal = 0 followed by both subtrees. -/
def serBits : HuffmanTree → List Bool
  | .leaf c => true :: toBits 8 c
  | .node l r => false :: (serBits l ++ serBits r)

/-- better_deserialize_rec (lines 134-149), fuel-indexed; the source
recurses blindly, so a malformed stream panics or overflows: none. -/
def deserBits : Nat → List Bool → Option (HuffmanTree × List Bool)
  | 0, _ => none
  | _ + 1, [] => none
  | fuel + 1, b :: bs =>
      if b then
        match readBits 8 bs with
        | some (c, rest) => some (.leaf c, rest)
        | none => none
      else
        match deserBits fuel bs with
        | some (l, rest) =>
            match deserBits fuel rest with
            | some (r, rest2) => some (.node l r, rest2)
            | none => none
        | none => none

/-- The accumulator index of build_reverse_map and of the decrypt loop:
1 followed by the path bits, most significant first. -/
def pathIdx (path : List Bool) : Nat :=
  path.foldl (fun acc b => 2 * acc + (if b then 1 else 0)) 1

/-- build_reverse_map (lines 179-191): dense table of size
2^(max_code_length + 1) indexed by pathIdx. -/
def build_reverse_map (t : HuffmanTree) : List (Option Nat) :=
  let map := build_map t
  let max_len := (map.map List.length).max?.getD 0
  map.enum.foldl (fun res p => res.set (pathIdx p.2) (some p.1))
    (List.replicate (2 ^ (max_len + 1)) none)

/-- The multiset of leaf labels of a tree, in left-to-right order. -/
def keys : HuffmanTree → List Nat
  | .leaf c => [c]
  | .node l r => keys l ++ keys r

/-- All leaf labels lie below m (the source stores them in one byte). -/
def leafLt (m : Nat) : HuffmanTree → Prop
  | .leaf c => c < m
  | .node l r => leafLt m l ∧ leafLt m r

/-- The tree is an internal node (every code is nonempty). -/
def isNode : HuffmanTree → Prop
  | .leaf _ => False
  | .node _ _ => True

end HuffmanTree

/-- The value of a bit string read least-significant-bit first. -/
def ofBitsLSB (bs : List Bool) : Nat :=
  bs.foldr (fun b acc => 2 * acc + (if b then 1 else 0)) 0

/-- Pack a bit stream into bytes, bit i into byte i/8 at position i mod 8
from the least significant bit: the fold of Huffman::encrypt lines 60-70
and the physical layout the spec gives for BitBuffer. -/
def bytesOfBits (bs : List Bool) : List Nat :=
  (chunksOf 8 bs).map ofBitsLSB

/-- Unpack bytes into their 8-bit little-endian bit streams. -/
def bitsOfBytes (bs : List Nat) : List Bool :=
  (bs.map (toBits 8)).flatten

/-- Modelled from the spec: the serialised form of a BitBuffer.  The
bitbuffer module is declared in main.rs but its source file is not in the
repository; the spec requires the serialised form to record the byte
payload and enough information to recover the exact bit count.  The model
keeps the packed bytes together with the bit count, and deserialisation
recovers exactly the original bits. -/
structure BitBufferBytes where
  bytes : List Nat
  bitLen : Nat
deriving DecidableEq

/-- Modelled from the spec: BitBuffer serialisation (payload bytes plus
exact bit count). -/
def bbSerialize (bits : List Bool) : BitBufferBytes :=
  ⟨bytesOfBits bits, bits.length⟩

/-- Modelled from the spec: BitBuffer deserialisation, the inverse of
bbSerialize. -/
def bbDeserialize (b : BitBufferBytes) : List Bool :=
  (bitsOfBytes b.bytes).take b.bitLen

/-- The Huffman chunk record (src/huffman.rs lines 44-49). -/
structure Huffman where
  tree : BitBufferBytes
  unused_bits : Nat
  data : List Nat
deriving DecidableEq

namespace Huffman

/-- Huffman::encrypt (lines 52-80): build the tree from byte counts, look
up the code of every input byte, pack the concatenated code bits LSB-first
into bytes and record the unused bits of the final byte. -/
def encrypt (input : List Nat) : Huffman :=
  let tree := HuffmanTree.build_tree input
  let lookup := HuffmanTree.build_map tree
  let bits := (input.map (fun c => lookup.getD c [])).flatten
  { tree := bbSerialize (HuffmanTree.serBits tree)
    unused_bits := match bits.length % 8 with
      | 0 => 0
      | n => 8 - n
    data := bytesOfBits bits }

/-- The decode loop of Huffman::decrypt (lines 89-97): push each payload
bit, index the table with 1 followed by the accumulated bits, emit the
byte and reset on a hit.  An index beyond the table length panics in the
source: none. -/
def decLoop (table : List (Option Nat)) : List Bool → List Bool → Option (List Nat)
  | [], _ => some []
  | b :: bs, cur =>
      let cur2 := cur ++ [b]
      if HuffmanTree.pathIdx cur2 < table.length then
        match table.getD (HuffmanTree.pathIdx cur2) none with
        | some c => (decLoop table bs []).map (fun r => c :: r)
        | none => decLoop table bs cur2
      else none

/-- Huffman::decrypt (lines 82-99): rebuild the tree from its serialised
bits, build the reverse table, then decode 8 * data.len() - unused_bits
payload bits.  The usize subtraction panics on underflow: none. -/
def decrypt (h : Huffman) : Option (List Nat) :=
  let treeBits := bbDeserialize h.tree
  match HuffmanTree.deserBits (treeBits.length + 1) treeBits with
  | none => none
  | some (tree, _) =>
      let map := HuffmanTree.build_reverse_map tree
      if h.data.length * 8 < h.unused_bits then none
      else decLoop map ((bitsOfBytes h.data).take (h.data.length * 8 - h.unused_bits)) []

end Huffman

namespace ParrallelHuffman

/-- ParrallelHuffman::encrypt (lines 24-33). -/
def encrypt (input : List Nat) (bits : Nat) : List Huffman :=
  (encryptChunks input bits).map Huffman.encrypt

/-- ParrallelHuffman::decrypt (lines 35-41). -/
def decrypt (chunks : List Huffman) : Option (List Nat) :=
  seqChunks (chunks.map Huffman.decrypt)

end ParrallelHuffman

/-- The decoded start position of the factor at index i in a factor list:
the sum of the decoded lengths of the earlier factors (1 for a literal,
l for a back reference). -/
def startPos (fs : List (Nat × Nat × Nat)) (i : Nat) : Nat :=
  ((fs.take i).map (fun f => max f.2.1 1)).sum

/-- The width invariant the packer and decoder maintain: the stored
lenght_size equals the one recomputed from the current decoded position
(with 31 - leading_zeros d = log2m d at every nonzero d, and the initial
width 1 matching the formula at d = 0). -/
def widthOk (d ls : Nat) : Prop :=
  ls = LZ77.lenght_size (log2m d)

/-- Validity of a factor list for the chunk x when decoding starts at
position k: literals carry the byte at the current position; back
references start strictly before the current position, stay inside the
chunk, and copy bytes equal to the ones at the current position.  The
factor loop of fast_encode establishes this and decode_chunk consumes
it. -/
def Good (x : List Nat) : Nat → List (Nat × Nat × Nat) → Prop
  | k, [] => k = x.length
  | k, (p, l, c) :: fs =>
      if l = 0 then c = x.getD k 0 ∧ k < x.length ∧ Good x (k + 1) fs
      else p < k ∧ k + l ≤ x.length ∧
        (∀ t, t < l → x.getD (p + t) 0 = x.getD (k + t) 0) ∧ Good x (k + l) fs

/-- The shape invariant the bit packer needs of a factor stream relative
to the running decoded position d: literal bytes fit in 8 bits and back
references are nonempty and strictly backward. -/
def PackGood : Nat → List (Nat × Nat × Nat) → Prop
  | _, [] => True
  | d, (p, l, c) :: fs =>
      if l = 0 then c < 256 ∧ PackGood (d + 1) fs
      else 1 ≤ l ∧ p < d ∧ PackGood (d + l) fs

/-- The state invariant of the packer: the stored width matches the
decoded position and max_lenght matches the width. -/
def StOK (st : LZ77.PackSt) : Prop :=
  st.ls = LZ77.lenght_size (log2m st.d) ∧ st.ml = 2 ^ st.ls - 1

namespace LZ77

/-- The fragment sequence the run-splitting loop of packRef encodes, with
the final packer state: the decoder reproduces exactly these factors. -/
def refFragsSt : Nat → PackSt → Nat → Nat → List (Nat × Nat × Nat) × PackSt
  | 0, st, _, _ => ([], st)
  | fuel + 1, st, p, l =>
      if st.ml < l then
        let r := refFragsSt fuel (bump st st.ml) (p + st.ml) (l - st.ml)
        ((p, st.ml, 0) :: r.1, r.2)
      else ([(p, l, 0)], bump st l)

/-- The factor fragments one packed factor decodes back to. -/
def fragsOne (st : PackSt) : Nat × Nat × Nat → List (Nat × Nat × Nat) × PackSt
  | (p, l, c) => if l = 0 then ([(0, 0, c)], bump st 1) else refFragsSt l st p l

/-- The factor fragments a packed factor stream decodes back to. -/
def fragsAll (st : PackSt) : List (Nat × Nat × Nat) → List (Nat × Nat × Nat) × PackSt
  | [] => ([], st)
  | f :: fs =>
      let r := fragsOne st f
      let r2 := fragsAll r.2 fs
      (r.1 ++ r2.1, r2.2)

end LZ77

/-- The padded character of the chunk x at position t: the byte for
t < n and the rank of the virtual sentinel (smaller than any byte) from
position n on. -/
def sentChar (x : List Nat) (t : Nat) : Int :=
  if t < x.length then (x.getD t 0 : Int) else -1

/-- Lexicographically strict order of the suffixes of x starting at i and
j, under the sentinel rule: some position m has all earlier characters
equal and the character of suffix i smaller. -/
def suffixLt (x : List Nat) (i j : Nat) : Prop :=
  ∃ m, (∀ t, t < m → sentChar x (i + t) = sentChar x (j + t)) ∧
    sentChar x (i + m) < sentChar x (j + m)

/-- Strict lexicographic order of the length-k padded prefixes of the
suffixes at i and j. -/
def prefLt (k : Nat) (x : List Nat) (i j : Nat) : Prop :=
  ∃ m, m < k ∧ (∀ t, t < m → sentChar x (i + t) = sentChar x (j + t)) ∧
    sentChar x (i + m) < sentChar x (j + m)

/-- Equality of the length-k padded prefixes of the suffixes at i and j. -/
def prefEq (k : Nat) (x : List Nat) (i j : Nat) : Prop :=
  ∀ t, t < k → sentChar x (i + t) = sentChar x (j + t)

/-- Weak lexicographic order of the length-k padded prefixes. -/
def prefLe (k : Nat) (x : List Nat) (i j : Nat) : Prop :=
  prefLt k x i j ∨ prefEq k x i j

/-- The rank vector realises the order and the equality of the length-k
padded prefixes at the pair of positions i and j. -/
def rankIso (x : List Nat) (k : Nat) (rank : List Int) (i j : Nat) : Prop :=
  (rank.getD i 0 < rank.getD j 0 ↔ prefLt k x i j) ∧
  (rank.getD i 0 = rank.getD j 0 ↔ prefEq k x i j)

/-- Invariant of the doubling loop of SuffixArray::new: the rank vector has
length n+1 and realises the length-k prefix order at every pair of
positions. -/
def RankOK (x : List Nat) (k : Nat) (rank : List Int) : Prop :=
  rank.length = x.length + 1 ∧
  ∀ i j, i ≤ x.length → j ≤ x.length → rankIso x k rank i j

/-! ## Chunking lemmas -/

theorem chunksOfAux_nil {α : Type} (size fuel : Nat) :
    chunksOfAux size fuel ([] : List α) = [] := by
  cases fuel <;> rfl

theorem chunksOfAux_flatten {α : Type} (size : Nat) (hs : 1 ≤ size) :
    ∀ (fuel : Nat) (l : List α), l.length ≤ fuel → (chunksOfAux size fuel l).flatten = l := by
  intro fuel
  induction fuel with
  | zero =>
      intro l hl
      have : l = [] := List.eq_nil_of_length_eq_zero (Nat.le_zero.mp hl)
      subst this; rfl
  | succ fuel ih =>
      intro l hl
      cases l with
      | nil => rfl
      | cons a as =>
          simp only [chunksOfAux, List.flatten_cons]
          rw [ih ((a :: as).drop size) (by simp at hl ⊢; omega)]
          exact List.take_append_drop size (a :: as)

theorem chunksOf_flatten {α : Type} (size : Nat) (hs : 1 ≤ size) (l : List α) :
    (chunksOf size l).flatten = l :=
  chunksOfAux_flatten size hs l.length l le_rfl

theorem chunksOfAux_mem {α : Type} (size : Nat) (hs : 1 ≤ size) :
    ∀ (fuel : Nat) (l c : List α), c ∈ chunksOfAux size fuel l →
      c.length ≤ size ∧ c ≠ [] := by
  intro fuel
  induction fuel with
  | zero => intro l c hc; simp [chunksOfAux] at hc
  | succ fuel ih =>
      intro l c hc
      cases l with
      | nil => simp [chunksOfAux] at hc
      | cons a as =>
          simp only [chunksOfAux, List.mem_cons] at hc
          rcases hc with h | h
          · subst h
            refine ⟨by simp, ?_⟩
            cases size with
            | zero => omega
            | succ s => simp
          · exact ih _ _ h

theorem chunksOfAux_getD {α : Type} (size : Nat) :
    ∀ (fuel : Nat) (l : List α) (i : Nat),
      i + 1 < (chunksOfAux size fuel l).length →
      ((chunksOfAux size fuel l).getD i []).length = size := by
  intro fuel
  induction fuel with
  | zero => intro l i h; simp [chunksOfAux] at h
  | succ fuel ih =>
      intro l i h
      cases l with
      | nil => simp [chunksOfAux] at h
      | cons a as =>
          cases i with
          | zero =>
              simp only [chunksOfAux, List.length_cons] at h
              have hr : chunksOfAux size fuel ((a :: as).drop size) ≠ [] := by
                intro he; rw [he] at h; simp at h
              have hd : (a :: as).drop size ≠ [] := by
                intro he; rw [he, chunksOfAux_nil] at hr; exact hr rfl
              have hlen : size < (a :: as).length := by
                by_contra hle
                push_neg at hle
                exact hd (List.drop_eq_nil_of_le hle)
              simp only [chunksOfAux, List.getD_cons_zero, List.length_take]
              omega
          | succ i =>
              simp only [chunksOfAux, List.length_cons] at h
              simp only [chunksOfAux, List.getD_cons_succ]
              exact ih ((a :: as).drop size) i (by omega)

theorem chunksOfAux_fuel {α : Type} (size : Nat) (hs : 1 ≤ size) :
    ∀ (f1 f2 : Nat) (l : List α), l.length ≤ f1 → l.length ≤ f2 →
      chunksOfAux size f1 l = chunksOfAux size f2 l := by
  intro f1
  induction f1 with
  | zero =>
      intro f2 l h1 h2
      have : l = [] := List.eq_nil_of_length_eq_zero (Nat.le_zero.mp h1)
      subst this; rw [chunksOfAux_nil, chunksOfAux_nil]
  | succ f1 ih =>
      intro f2 l h1 h2
      cases l with
      | nil => rw [chunksOfAux_nil, chunksOfAux_nil]
      | cons a as =>
          cases f2 with
          | zero => simp at h2
          | succ f2 =>
              simp only [chunksOfAux]
              rw [ih f2 ((a :: as).drop size) (by simp at h1 ⊢; omega) (by simp at h2 ⊢; omega)]

theorem slice_shift {α : Type} (l : List α) (s i : Nat) :
    (l.take (min ((i + 1 + 1) * s) l.length)).drop ((i + 1) * s) =
    ((l.drop s).take (min ((i + 1) * s) (l.drop s).length)).drop (i * s) := by
  have e1 : (i + 1) * s = i * s + s := by ring
  have e2 : (i + 1 + 1) * s = i * s + s + s := by ring
  rw [List.drop_take, List.drop_take, List.drop_drop, List.length_drop, e2, e1]
  congr 1
  · omega
  · congr 1
    omega

theorem sliceChunks_eq {α : Type} (size : Nat) (hs : 1 ≤ size) (l : List α) :
    (List.range (l.length / size + if l.length % size = 0 then 0 else 1)).map
      (fun i => (l.take (min ((i + 1) * size) l.length)).drop (i * size)) =
    chunksOf size l := by
  suffices h : ∀ (n : Nat) (l : List α), l.length ≤ n →
      (List.range (l.length / size + if l.length % size = 0 then 0 else 1)).map
        (fun i => (l.take (min ((i + 1) * size) l.length)).drop (i * size)) =
      chunksOf size l from h l.length l le_rfl
  intro n
  induction n with
  | zero =>
      intro l hl
      have : l = [] := List.eq_nil_of_length_eq_zero (Nat.le_zero.mp hl)
      subst this
      simp [chunksOf, chunksOfAux_nil]
  | succ n ih =>
      intro l hl
      cases l with
      | nil => simp [chunksOf, chunksOfAux_nil]
      | cons a as =>
          by_cases hsmall : (a :: as).length ≤ size
          · have hone : (a :: as).length / size + (if (a :: as).length % size = 0 then 0 else 1) = 1 := by
              rcases Nat.lt_or_ge (a :: as).length size with hlt | hge
              · have h0 : (a :: as).length ≠ 0 := by simp
                rw [Nat.div_eq_of_lt hlt, Nat.mod_eq_of_lt hlt, if_neg h0]
              · have heq : (a :: as).length = size := le_antisymm hsmall hge
                rw [heq, Nat.div_self (by omega), Nat.mod_self, if_pos rfl]
            rw [hone]
            have htake : ((a :: as).take (min ((0 + 1) * size) (a :: as).length)).drop
                (0 * size) = a :: as := by
              rw [Nat.zero_mul, List.drop_zero, Nat.zero_add, one_mul, min_comm,
                min_eq_left hsmall, List.take_length]
            have hchunk : chunksOf size (a :: as) = [(a :: as).take size] := by
              show chunksOfAux size (a :: as).length (a :: as) = _
              rw [(Nat.succ_pred_eq_of_pos (by simp : 0 < (a :: as).length)).symm]
              simp only [chunksOfAux]
              rw [List.drop_eq_nil_of_le hsmall, chunksOfAux_nil]
            have hr1 : List.range 1 = [0] := rfl
            rw [hchunk, List.take_of_length_le hsmall, hr1]
            simp only [List.map_cons, List.map_nil]
            rw [htake]
          · push_neg at hsmall
            have hcount : (a :: as).length / size + (if (a :: as).length % size = 0 then 0 else 1) =
                (((a :: as).drop size).length / size +
                  (if ((a :: as).drop size).length % size = 0 then 0 else 1)) + 1 := by
              rw [List.length_drop]
              rw [Nat.div_eq_sub_div (by omega) (le_of_lt hsmall)]
              rw [Nat.mod_eq_sub_mod (le_of_lt hsmall)]
              omega
            rw [hcount, List.range_succ_eq_map, List.map_cons, List.map_map]
            have hf0 : ((a :: as).take (min ((0 + 1) * size) (a :: as).length)).drop (0 * size) =
                (a :: as).take size := by
              rw [Nat.zero_mul, List.drop_zero, Nat.zero_add, one_mul,
                min_eq_left (le_of_lt hsmall)]
            have hrec := ih ((a :: as).drop size) (by simp at hl ⊢; omega)
            have hmap : ((List.range (((a :: as).drop size).length / size +
                  (if ((a :: as).drop size).length % size = 0 then 0 else 1))).map
                ((fun i => ((a :: as).take (min ((i + 1) * size) (a :: as).length)).drop
                    (i * size)) ∘ Nat.succ)) =
                (List.range (((a :: as).drop size).length / size +
                  (if ((a :: as).drop size).length % size = 0 then 0 else 1))).map
                (fun i => (((a :: as).drop size).take
                    (min ((i + 1) * size) ((a :: as).drop size).length)).drop (i * size)) := by
              apply List.map_congr_left
              intro i _
              exact slice_shift (a :: as) size i
            rw [hf0, hmap, hrec]
            have hchunk : chunksOf size (a :: as) =
                (a :: as).take size :: chunksOf size ((a :: as).drop size) := by
              show chunksOfAux size (a :: as).length (a :: as) = _
              rw [(Nat.succ_pred_eq_of_pos (by simp : 0 < (a :: as).length)).symm]
              simp only [chunksOfAux]
              congr 1
              exact chunksOfAux_fuel size hs _ _ _ (by simp; omega) le_rfl
            rw [hchunk]

theorem lz_chunks_eq (input : List Nat) (bits : Nat) (h : 1 ≤ 2 ^ bits - 2) :
    LZ77.encodeChunks input bits = chunksOf (2 ^ bits - 2) input := by
  simp only [LZ77.encodeChunks]
  exact sliceChunks_eq (2 ^ bits - 2) h input

theorem pow_bits_big (bits : Nat) (h8 : 8 ≤ bits) : 256 ≤ 2 ^ bits := by
  calc (256 : Nat) = 2 ^ 8 := by norm_num
  _ ≤ 2 ^ bits := Nat.pow_le_pow_right (by norm_num) h8

/-! ## Claim C9: chunk sizes of the two parallel drivers -/

/-- Claim C9 as stated is false: with bits = 8, both drivers should cut
chunks of 2^8 - 1 = 255 bytes, so a 255-byte input would be a single full
chunk; the LZ driver instead cuts 2^8 - 2 = 254 bytes and produces two
chunks of lengths 254 and 1. -/
theorem c9_counterexample :
    ((LZ77.encodeChunks (List.replicate 255 0) 8).map List.length = [254, 1]) ∧
    ((LZ77.encodeChunks (List.replicate 255 0) 8).map List.length ≠ [2 ^ 8 - 1]) := by
  constructor
  · decide
  · decide

/-- Claim C9, amended: the LZ driver cuts chunks of exactly 2^bits - 2
bytes and the Huffman driver chunks of exactly 2^bits - 1 bytes (in both
cases only the final chunk may be shorter, chunks are never empty, and the
chunks concatenate back to the input). -/
theorem c9_amended (input : List Nat) (bits : Nat) (h8 : 8 ≤ bits) (h31 : bits ≤ 31) :
    ((LZ77.encodeChunks input bits).flatten = input ∧
     (∀ i, i + 1 < (LZ77.encodeChunks input bits).length →
        ((LZ77.encodeChunks input bits).getD i []).length = 2 ^ bits - 2) ∧
     (∀ c ∈ LZ77.encodeChunks input bits, c.length ≤ 2 ^ bits - 2 ∧ c ≠ [])) ∧
    ((ParrallelHuffman.encryptChunks input bits).flatten = input ∧
     (∀ i, i + 1 < (ParrallelHuffman.encryptChunks input bits).length →
        ((ParrallelHuffman.encryptChunks input bits).getD i []).length = 2 ^ bits - 1) ∧
     (∀ c ∈ ParrallelHuffman.encryptChunks input bits, c.length ≤ 2 ^ bits - 1 ∧ c ≠ [])) := by
  have hbig := pow_bits_big bits h8
  have h2 : 1 ≤ 2 ^ bits - 2 := by omega
  have h1 : 1 ≤ 2 ^ bits - 1 := by omega
  rw [lz_chunks_eq input bits h2]
  refine ⟨⟨chunksOf_flatten _ h2 _, ?_, ?_⟩, ⟨chunksOf_flatten _ h1 _, ?_, ?_⟩⟩
  · intro i hi; exact chunksOfAux_getD _ _ _ i hi
  · intro c hc; exact chunksOfAux_mem _ h2 _ _ _ hc
  · intro i hi; exact chunksOfAux_getD _ _ _ i hi
  · intro c hc; exact chunksOfAux_mem _ h1 _ _ _ hc

theorem c9_witness : (LZ77.encodeChunks [1, 2, 3] 8).flatten = [1, 2, 3] :=
  (c9_amended [1, 2, 3] 8 (by norm_num) (by norm_num)).1.1

/-! ## Claim C5: lpc versus the exact longest common prefix -/

/-- Claim C5 evaluation at the failing input: for the input [1, 1] the
suffix at 1 and the suffix at 0 have exact longest common prefix 1, but
lpc returns 0 because position() finds no mismatch inside the zipped
overlap and unwrap_or(0) discards the matched length. -/
theorem c5_lpc_not_exact_lcp :
    LZ77.lpc [1, 1] 1 0 = 0 ∧ LZ77.lcpSpec [1, 1] 1 0 = 1 := by
  constructor
  · decide
  · decide

/-! ## Claim C6: back references of the factoriser can overlap -/

/-- Claim C6 as stated is false: on the chunk [0, 0, 0, 1] the factoriser
emits the back reference (p, l) = (0, 2) starting at decoded position 1,
and 0 + 2 > 1, so the reference reaches beyond its own start (the parse is
overlapping). -/
theorem c6_counterexample :
    LZ77.rawFactorsOf [0, 0, 0, 1] = [(4, 0, 0), (0, 2, 1), (4, 0, 1)] ∧
    startPos (LZ77.rawFactorsOf [0, 0, 0, 1]) 1 = 1 ∧
    ¬ ((LZ77.rawFactorsOf [0, 0, 0, 1]).getD 1 (0, 0, 0)).1 +
        ((LZ77.rawFactorsOf [0, 0, 0, 1]).getD 1 (0, 0, 0)).2.1 ≤
        startPos (LZ77.rawFactorsOf [0, 0, 0, 1]) 1 := by
  refine ⟨by decide, by decide, by decide⟩

/-! ## Claim C8: which references are fatal during chunk decoding -/

/-- Claim C8 as stated is false: the factor (0, 2, 0) applied at decoded
length 1 has p + l = 2 > 1, yet decode_chunk happily produces output
[7, 7, 7] by copying byte-by-byte from the growing buffer instead of
failing. -/
theorem c8_counterexample :
    LZ77.decode_chunk [(0, 0, 7), (0, 2, 0)] = some [7, 7, 7] ∧
    startPos [(0, 0, 7), (0, 2, 0)] 1 = 1 ∧ 0 + 2 > 1 := by
  refine ⟨by decide, by decide, by decide⟩

theorem startPos_zero (fs : List (Nat × Nat × Nat)) : startPos fs 0 = 0 := rfl

theorem startPos_cons_lit (p c : Nat) (fs : List (Nat × Nat × Nat)) (i : Nat) :
    startPos ((p, 0, c) :: fs) (i + 1) = 1 + startPos fs i := by
  simp [startPos]

theorem startPos_cons_ref (p l c : Nat) (hl : 1 ≤ l) (fs : List (Nat × Nat × Nat)) (i : Nat) :
    startPos ((p, l, c) :: fs) (i + 1) = l + startPos fs i := by
  simp only [startPos, List.take_succ_cons, List.map_cons, List.sum_cons]
  have : max l 1 = l := by omega
  rw [this]

theorem decode_chunkCopy_lt :
    ∀ (l p : Nat) (acc : List Nat), p < acc.length →
      ∃ acc2, LZ77.decode_chunkCopy p l acc = some acc2 ∧ acc2.length = acc.length + l := by
  intro l
  induction l with
  | zero => intro p acc _; exact ⟨acc, rfl, by simp⟩
  | succ l ih =>
      intro p acc hp
      have hg : acc.get? p = some (acc.get ⟨p, hp⟩) := List.get?_eq_get hp
      simp only [LZ77.decode_chunkCopy, hg]
      obtain ⟨acc2, he, hl⟩ := ih (p + 1) (acc ++ [acc.get ⟨p, hp⟩]) (by simp; omega)
      exact ⟨acc2, he, by simp at hl; omega⟩

theorem decode_chunkCopy_ge (p l : Nat) (acc : List Nat) (hl : 1 ≤ l)
    (hp : acc.length ≤ p) : LZ77.decode_chunkCopy p l acc = none := by
  cases l with
  | zero => omega
  | succ l =>
      have hg : acc[p]? = none := by
        rw [← List.get?_eq_getElem?]
        exact List.get?_eq_none.mpr hp
      simp [LZ77.decode_chunkCopy, hg]

theorem decode_chunkAux_none_iff :
    ∀ (fs : List (Nat × Nat × Nat)) (acc : List Nat),
      (LZ77.decode_chunkAux fs acc = none ↔
        ∃ i, i < fs.length ∧ 1 ≤ ((fs.getD i (0, 0, 0)).2.1 : Nat) ∧
          acc.length + startPos fs i ≤ (fs.getD i (0, 0, 0)).1) := by
  intro fs
  induction fs with
  | nil => intro acc; simp [LZ77.decode_chunkAux]
  | cons f fs ih =>
      intro acc
      obtain ⟨p, l, c⟩ := f
      cases l with
      | zero =>
          show LZ77.decode_chunkAux fs (acc ++ [c]) = none ↔ _
          rw [ih (acc ++ [c])]
          constructor
          · rintro ⟨i, hi, hl, hp⟩
            refine ⟨i + 1, ?_, ?_, ?_⟩
            · simp only [List.length_cons]; omega
            · rw [List.getD_cons_succ]; exact hl
            · rw [List.getD_cons_succ, startPos_cons_lit]
              simp only [List.length_append, List.length_cons, List.length_nil] at hp
              omega
          · rintro ⟨i, hi, hl, hp⟩
            cases i with
            | zero => rw [List.getD_cons_zero] at hl; exact absurd hl (by norm_num)
            | succ i =>
                rw [List.getD_cons_succ] at hl hp
                rw [startPos_cons_lit] at hp
                refine ⟨i, ?_, hl, ?_⟩
                · simp only [List.length_cons] at hi; omega
                · simp only [List.length_append, List.length_cons, List.length_nil]
                  omega
      | succ l =>
          show (match LZ77.decode_chunkCopy p (l + 1) acc with
                | some acc2 => LZ77.decode_chunkAux fs acc2
                | none => none) = none ↔ _
          by_cases hp : p < acc.length
          · obtain ⟨acc2, he, hlen⟩ := decode_chunkCopy_lt (l + 1) p acc hp
            rw [he]
            show LZ77.decode_chunkAux fs acc2 = none ↔ _
            rw [ih acc2]
            constructor
            · rintro ⟨i, hi, hl2, hp2⟩
              refine ⟨i + 1, ?_, ?_, ?_⟩
              · simp only [List.length_cons]; omega
              · rw [List.getD_cons_succ]; exact hl2
              · rw [List.getD_cons_succ, startPos_cons_ref p (l + 1) c (by omega)]
                rw [hlen] at hp2
                omega
            · rintro ⟨i, hi, hl2, hp2⟩
              cases i with
              | zero =>
                  rw [List.getD_cons_zero, startPos_zero] at hp2
                  simp only [List.getD_cons_zero] at hp2
                  omega
              | succ i =>
                  rw [List.getD_cons_succ] at hl2 hp2
                  rw [startPos_cons_ref p (l + 1) c (by omega)] at hp2
                  refine ⟨i, ?_, hl2, ?_⟩
                  · simp only [List.length_cons] at hi; omega
                  · rw [hlen]
                    omega
          · push_neg at hp
            rw [decode_chunkCopy_ge p (l + 1) acc (by omega) hp]
            constructor
            · intro _
              exact ⟨0, by simp, by simp, by rw [startPos_zero]; simpa using hp⟩
            · intro _; rfl

theorem c8_amended (fs : List (Nat × Nat × Nat)) :
    LZ77.decode_chunk fs = none ↔
      ∃ i, i < fs.length ∧ 1 ≤ ((fs.getD i (0, 0, 0)).2.1 : Nat) ∧
        startPos fs i ≤ (fs.getD i (0, 0, 0)).1 := by
  have h := decode_chunkAux_none_iff fs []
  simpa using h

/-! ## Claim C7: the adaptive length-field width -/

/-- Claim C7 as stated is false: after packing 64 literals the packer
state holds decoded position 64 and uses length-field width 3 =
clamp(floor(log2 64 / 2), 1, 8) for the next factor, while the claimed
formula clamp(floor((31 - leading_zeros 64) / 3), 1, 8) gives 2. -/
theorem c7_counterexample :
    (LZ77.packAll true ⟨0, 1, 1⟩ (List.replicate 64 (0, 0, 0))).2.d = 64 ∧
    (LZ77.packAll true ⟨0, 1, 1⟩ (List.replicate 64 (0, 0, 0))).2.ls = 3 ∧
    LZ77.spec_length_bits 64 = 2 ∧ (3 : Nat) ≠ 2 := by
  refine ⟨by decide, by decide, by decide, by decide⟩

theorem widthOk_bump (st : LZ77.PackSt) (dlt : Nat) :
    widthOk (LZ77.bump st dlt).d (LZ77.bump st dlt).ls := rfl

theorem widthOk_decBump (st : LZ77.DecSt) (dlt : Nat) :
    widthOk (LZ77.decBump st dlt).d (LZ77.decBump st dlt).ls := rfl

theorem widthOk_packRef (flag : Bool) :
    ∀ (fuel : Nat) (st : LZ77.PackSt) (p l : Nat), widthOk st.d st.ls →
      widthOk (LZ77.packRef flag fuel st p l).2.d (LZ77.packRef flag fuel st p l).2.ls := by
  intro fuel
  induction fuel with
  | zero => intro st p l h; exact h
  | succ fuel ih =>
      intro st p l h
      simp only [LZ77.packRef]
      by_cases hml : st.ml < l
      · simp only [if_pos hml]
        exact ih _ _ _ (widthOk_bump st st.ml)
      · simp only [if_neg hml]
        exact widthOk_bump st l

theorem widthOk_packOne (flag : Bool) (st : LZ77.PackSt) (f : Nat × Nat × Nat)
    (h : widthOk st.d st.ls) :
    widthOk (LZ77.packOne flag st f).2.d (LZ77.packOne flag st f).2.ls := by
  obtain ⟨p, l, c⟩ := f
  simp only [LZ77.packOne]
  by_cases hl : l = 0
  · simp only [if_pos hl]; exact widthOk_bump st 1
  · simp only [if_neg hl]; exact widthOk_packRef flag l st p l h

/-- Claim C7, amended: the divisor in the width formula is 2, not 3.  At
every point during packing and unpacking the length-field width used for
the next factor equals clamp(floor((31 - leading_zeros D) / 2), 1, 8)
evaluated at the current decoded position D (value 1 at D = 0, matching
the initial width): the initial states of the packer and of both decoder
loops satisfy the invariant, every state update of either side
re-establishes it, and the packer state after processing any prefix of the
factor stream satisfies it. -/
theorem c7_amended :
    widthOk 0 1 ∧
    (∀ (st : LZ77.PackSt) (dlt : Nat),
      widthOk (LZ77.bump st dlt).d (LZ77.bump st dlt).ls) ∧
    (∀ (st : LZ77.DecSt) (dlt : Nat),
      widthOk (LZ77.decBump st dlt).d (LZ77.decBump st dlt).ls) ∧
    (∀ (flag : Bool) (st : LZ77.PackSt) (fs : List (Nat × Nat × Nat)),
      widthOk st.d st.ls →
      widthOk (LZ77.packAll flag st fs).2.d (LZ77.packAll flag st fs).2.ls) := by
  refine ⟨rfl, widthOk_bump, widthOk_decBump, ?_⟩
  intro flag st fs
  induction fs generalizing st with
  | nil => intro h; exact h
  | cons f fs ih =>
      intro h
      simp only [LZ77.packAll]
      exact ih _ (widthOk_packOne flag st f h)

theorem c7_witness :
    widthOk (LZ77.packAll true ⟨0, 1, 1⟩ [(0, 0, 5), (0, 3, 0)]).2.d
      (LZ77.packAll true ⟨0, 1, 1⟩ [(0, 0, 5), (0, 3, 0)]).2.ls :=
  c7_amended.2.2.2 true ⟨0, 1, 1⟩ [(0, 0, 5), (0, 3, 0)] rfl

/-! ## Arithmetic on the fuel-indexed log2 -/

theorem flog2_spec :
    ∀ (fuel n : Nat), 1 ≤ n → n ≤ fuel →
      2 ^ flog2 fuel n ≤ n ∧ n < 2 ^ (flog2 fuel n + 1) := by
  intro fuel
  induction fuel with
  | zero => intro n h1 h2; omega
  | succ fuel ih =>
      intro n h1 h2
      by_cases h : n ≥ 2
      · simp only [flog2, if_pos h]
        have hrec := ih (n / 2) (by omega) (by omega)
        rw [pow_succ, pow_succ]
        rw [pow_succ] at hrec
        omega
      · simp only [flog2, if_neg h]
        have : n = 1 := by omega
        subst this
        norm_num

theorem log2m_spec (n : Nat) (h : 1 ≤ n) :
    2 ^ log2m n ≤ n ∧ n < 2 ^ (log2m n + 1) :=
  flog2_spec n n h le_rfl

theorem bits32_lt (d : Nat) : d < 2 ^ bits32 d := by
  by_cases h : d = 0
  · subst h; simp [bits32]
  · simp only [bits32, if_neg h]
    exact (log2m_spec d (by omega)).2

theorem lenght_size_pos (b : Nat) : 1 ≤ LZ77.lenght_size b := by
  simp only [LZ77.lenght_size]; omega

theorem lenght_size_le8 (b : Nat) : LZ77.lenght_size b ≤ 8 := by
  simp only [LZ77.lenght_size]; omega

/-! ## Bit strings: toBits and readBits -/

theorem length_toBits : ∀ (k v : Nat), (toBits k v).length = k := by
  intro k
  induction k with
  | zero => intro v; rfl
  | succ k ih => intro v; simp [toBits, ih]

theorem readBits_toBits :
    ∀ (k v : Nat) (rest : List Bool),
      readBits k (toBits k v ++ rest) = some (v % 2 ^ k, rest) := by
  intro k
  induction k with
  | zero => intro v rest; simp [toBits, readBits, Nat.mod_one]
  | succ k ih =>
      intro v rest
      simp only [toBits, List.cons_append, readBits, ih (v / 2) rest, Option.map_some]
      have hb : (if (decide (v % 2 = 1) : Bool) = true then (1 : Nat) else 0) = v % 2 := by
        rcases Nat.mod_two_eq_zero_or_one v with h | h <;> simp [h]
      have hsplit : v % 2 ^ (k + 1) = v % 2 + 2 * (v / 2 % 2 ^ k) := by
        have h1 : v % (2 * 2 ^ k) / 2 = v / 2 % 2 ^ k :=
          Nat.mod_mul_right_div_self v 2 (2 ^ k)
        have h2 : v % (2 * 2 ^ k) % 2 = v % 2 := Nat.mod_mul_right_mod v 2 (2 ^ k)
        have h3 : 2 ^ (k + 1) = 2 * 2 ^ k := by rw [pow_succ, mul_comm]
        rw [h3]
        omega
      rw [hsplit, hb]
      have happ : (toBits k (v / 2)).append rest = toBits k (v / 2) ++ rest := rfl
      rw [happ, ih (v / 2) rest]
      rfl

theorem readBits_toBits_lt (k v : Nat) (rest : List Bool) (h : v < 2 ^ k) :
    readBits k (toBits k v ++ rest) = some (v, rest) := by
  rw [readBits_toBits, Nat.mod_eq_of_lt h]

theorem readBits_length :
    ∀ (k : Nat) (bits : List Bool) (v : Nat) (rest : List Bool),
      readBits k bits = some (v, rest) → rest.length + k = bits.length := by
  intro k
  induction k with
  | zero =>
      intro bits v rest h
      simp only [readBits, Option.some.injEq, Prod.mk.injEq] at h
      rw [h.2]
      omega
  | succ k ih =>
      intro bits v rest h
      cases bits with
      | nil => exact Option.noConfusion h
      | cons b bs =>
          simp only [readBits] at h
          cases hr : readBits k bs with
          | none => rw [hr] at h; simp at h
          | some r =>
              rw [hr] at h
              simp only [Option.map_some', Option.some.injEq, Prod.mk.injEq] at h
              have := ih bs r.1 r.2 (by rw [hr])
              rw [h.2] at this
              simp only [List.length_cons]
              omega

theorem readBits_nil (k : Nat) (h : 1 ≤ k) : readBits k [] = none := by
  cases k with
  | zero => omega
  | succ k => rfl

theorem cmpInt_lt_iff (a b : Int) : cmpInt a b = .lt ↔ a < b := by
  unfold cmpInt
  split_ifs with h1 h2 <;> simp_all <;> omega

theorem cmpInt_gt_iff (a b : Int) : cmpInt a b = .gt ↔ b < a := by
  unfold cmpInt
  split_ifs with h1 h2 <;> simp_all <;> omega

theorem compare_node_unfold (i j k : Nat) (rank : List Int) :
    SuffixArray.compare_node i j k rank =
      if rank.getD i 0 ≠ rank.getD j 0 then cmpInt (rank.getD i 0) (rank.getD j 0)
      else cmpInt (SuffixArray.extRank k rank i) (SuffixArray.extRank k rank j) := rfl

theorem compare_node_lt_iff (i j k : Nat) (rank : List Int) :
    SuffixArray.compare_node i j k rank = .lt ↔
      (rank.getD i 0 < rank.getD j 0 ∨
        (rank.getD i 0 = rank.getD j 0 ∧
          SuffixArray.extRank k rank i < SuffixArray.extRank k rank j)) := by
  rw [compare_node_unfold]
  by_cases h : rank.getD i 0 = rank.getD j 0
  · rw [if_neg (by simpa using h)]
    rw [cmpInt_lt_iff]
    constructor
    · intro hlt; exact Or.inr ⟨h, hlt⟩
    · rintro (hlt | ⟨_, hlt⟩)
      · omega
      · exact hlt
  · rw [if_pos (by simpa using h)]
    rw [cmpInt_lt_iff]
    constructor
    · intro hlt; exact Or.inl hlt
    · rintro (hlt | ⟨he, _⟩)
      · exact hlt
      · exact absurd he h

theorem compare_node_gt_iff (i j k : Nat) (rank : List Int) :
    SuffixArray.compare_node i j k rank = .gt ↔
      (rank.getD j 0 < rank.getD i 0 ∨
        (rank.getD i 0 = rank.getD j 0 ∧
          SuffixArray.extRank k rank j < SuffixArray.extRank k rank i)) := by
  rw [compare_node_unfold]
  by_cases h : rank.getD i 0 = rank.getD j 0
  · rw [if_neg (by simpa using h)]
    rw [cmpInt_gt_iff]
    constructor
    · intro hlt; exact Or.inr ⟨h, hlt⟩
    · rintro (hlt | ⟨_, hlt⟩)
      · omega
      · exact hlt
  · rw [if_pos (by simpa using h)]
    rw [cmpInt_gt_iff]
    constructor
    · intro hlt; exact Or.inl hlt
    · rintro (hlt | ⟨he, _⟩)
      · exact hlt
      · exact absurd he h

theorem nodeLe_iff (k : Nat) (rank : List Int) (a b : Nat) :
    SuffixArray.nodeLe k rank a b ↔
      (rank.getD a 0 < rank.getD b 0 ∨
        (rank.getD a 0 = rank.getD b 0 ∧
          SuffixArray.extRank k rank a ≤ SuffixArray.extRank k rank b)) := by
  unfold SuffixArray.nodeLe
  rw [ne_eq, compare_node_gt_iff]
  constructor
  · intro h
    push_neg at h
    rcases h with ⟨h1, h2⟩
    rcases lt_trichotomy (rank.getD a 0) (rank.getD b 0) with hc | hc | hc
    · exact Or.inl hc
    · exact Or.inr ⟨hc, h2 hc⟩
    · exact absurd hc (not_lt.mpr h1)
  · intro h hgt
    rcases h with hlt | ⟨he, hle⟩ <;> rcases hgt with hgt | ⟨he2, hgt⟩ <;> omega

theorem nodeLe_total (k : Nat) (rank : List Int) (a b : Nat) :
    SuffixArray.nodeLe k rank a b ∨ SuffixArray.nodeLe k rank b a := by
  rw [nodeLe_iff, nodeLe_iff]
  rcases lt_trichotomy (rank.getD a 0) (rank.getD b 0) with hc | hc | hc
  · exact Or.inl (Or.inl hc)
  · rcases le_total (SuffixArray.extRank k rank a) (SuffixArray.extRank k rank b) with h | h
    · exact Or.inl (Or.inr ⟨hc, h⟩)
    · exact Or.inr (Or.inr ⟨hc.symm, h⟩)
  · exact Or.inr (Or.inl hc)

theorem nodeLe_trans (k : Nat) (rank : List Int) (a b c : Nat)
    (h1 : SuffixArray.nodeLe k rank a b) (h2 : SuffixArray.nodeLe k rank b c) :
    SuffixArray.nodeLe k rank a c := by
  rw [nodeLe_iff] at h1 h2 ⊢
  rcases h1 with h1 | ⟨e1, l1⟩ <;> rcases h2 with h2 | ⟨e2, l2⟩
  · exact Or.inl (h1.trans h2)
  · exact Or.inl (by omega)
  · exact Or.inl (by omega)
  · exact Or.inr ⟨e1.trans e2, l1.trans l2⟩

/-! ## Suffix array: permutation facts -/

theorem rounds_perm (n : Nat) :
    ∀ (fuel k : Nat) (arr : List Nat) (rank : List Int),
      List.Perm (SuffixArray.rounds n fuel k arr rank) arr := by
  intro fuel
  induction fuel with
  | zero => intro k arr rank; exact List.Perm.refl _
  | succ fuel ih =>
      intro k arr rank
      simp only [SuffixArray.rounds]
      by_cases h : k ≤ n
      · rw [if_pos h]
        exact (ih _ _ _).trans (List.perm_insertionSort _ arr)
      · rw [if_neg h]

theorem sa_perm (s : List Nat) :
    List.Perm (SuffixArray.new s) (List.range (s.length + 1)) := by
  simp only [SuffixArray.new]
  exact rounds_perm _ _ _ _ _

theorem sa_length (s : List Nat) : (SuffixArray.new s).length = s.length + 1 := by
  rw [(sa_perm s).length_eq, List.length_range]

theorem sa_nodup (s : List Nat) : (SuffixArray.new s).Nodup :=
  ((sa_perm s).nodup_iff).mpr (List.nodup_range _)

theorem sa_mem (s : List Nat) (v : Nat) : v ∈ SuffixArray.new s ↔ v < s.length + 1 := by
  rw [(sa_perm s).mem_iff, List.mem_range]

/-! ## List set and getD helpers -/

theorem getD_set_self {α : Type} (l : List α) (i : Nat) (v d : α) (h : i < l.length) :
    (l.set i v).getD i d = v := by
  rw [List.getD_eq_getElem?_getD, List.getElem?_set_self h]
  rfl

theorem getD_set_ne {α : Type} (l : List α) (i j : Nat) (v d : α) (h : i ≠ j) :
    (l.set i v).getD j d = l.getD j d := by
  rw [List.getD_eq_getElem?_getD, List.getElem?_set_ne h, ← List.getD_eq_getElem?_getD]

theorem getD_map_range {α : Type} (m i : Nat) (f : Nat → α) (d : α) (h : i < m) :
    ((List.range m).map f).getD i d = f i := by
  rw [List.getD_eq_getElem?_getD, List.getElem?_map, List.getElem?_range h]
  rfl

/-! ## Suffix array: the first entry is the sentinel suffix n -/

theorem head_of_sorted_unique_min (l : List Nat) (r : Nat → Nat → Prop)
    (hs : List.Pairwise r l) (n : Nat) (hmem : n ∈ l)
    (hmin : ∀ b ∈ l, b ≠ n → ¬ r b n) : l.getD 0 0 = n := by
  cases l with
  | nil => simp at hmem
  | cons a l2 =>
      by_cases ha : a = n
      · simpa using ha
      · have hn2 : n ∈ l2 := by
          rcases List.mem_cons.mp hmem with h | h
          · exact absurd h.symm ha
          · exact h
        have hr : r a n := (List.pairwise_cons.mp hs).1 n hn2
        exact absurd hr (hmin a (List.mem_cons_self a l2) ha)

theorem rerankAux_length (k : Nat) (rank : List Int) :
    ∀ (rest : List Nat) (prev : Nat) (pv : Int) (tmp : List Int),
      (SuffixArray.rerankAux k rank rest prev pv tmp).length = tmp.length := by
  intro rest
  induction rest with
  | nil => intro prev pv tmp; rfl
  | cons a rest2 ih =>
      intro prev pv tmp
      simp only [SuffixArray.rerankAux, ih, List.length_set]

theorem rerankAux_untouched (k : Nat) (rank : List Int) :
    ∀ (rest : List Nat) (prev : Nat) (pv : Int) (tmp : List Int) (j : Nat),
      j ∉ rest →
      (SuffixArray.rerankAux k rank rest prev pv tmp).getD j 0 = tmp.getD j 0 := by
  intro rest
  induction rest with
  | nil => intro prev pv tmp j _; rfl
  | cons a rest2 ih =>
      intro prev pv tmp j hj
      simp only [SuffixArray.rerankAux]
      rw [ih _ _ _ j (fun h => hj (List.mem_cons_of_mem a h))]
      exact getD_set_ne _ _ _ _ _ (fun h => hj (h ▸ List.mem_cons_self a rest2))

theorem rerankAux_ge (k : Nat) (rank : List Int) :
    ∀ (rest : List Nat) (prev : Nat) (pv : Int) (tmp : List Int) (j : Nat),
      rest.Nodup → j ∈ rest → j < tmp.length →
      pv ≤ (SuffixArray.rerankAux k rank rest prev pv tmp).getD j 0 := by
  intro rest
  induction rest with
  | nil => intro prev pv tmp j _ hj; simp at hj
  | cons a rest2 ih =>
      intro prev pv tmp j hnd hj hlen
      simp only [SuffixArray.rerankAux]
      have hd : (0 : Int) ≤ if SuffixArray.compare_node prev a k rank = .lt then 1 else 0 := by
        split_ifs <;> omega
      rcases List.mem_cons.mp hj with he | hm
      · subst he
        rw [rerankAux_untouched k rank rest2 _ _ _ j (List.nodup_cons.mp hnd).1]
        rw [getD_set_self _ _ _ _ hlen]
        omega
      · have := ih a (pv + if SuffixArray.compare_node prev a k rank = .lt then 1 else 0)
          (tmp.set a (pv + if SuffixArray.compare_node prev a k rank = .lt then 1 else 0)) j
          (List.nodup_cons.mp hnd).2 hm (by simpa using hlen)
        omega

theorem rerank_umin (n k : Nat) (rank : List Int) (arr : List Nat)
    (hperm : List.Perm arr (List.range (n + 1)))
    (hhead : arr.getD 0 0 = n)
    (hum : ∀ j, j < n + 1 → j ≠ n → rank.getD n 0 < rank.getD j 0) :
    ∀ j, j < n + 1 → j ≠ n →
      (SuffixArray.rerank arr k rank n).getD n 0 <
        (SuffixArray.rerank arr k rank n).getD j 0 := by
  intro j hj hjn
  have hlen : arr.length = n + 1 := by rw [hperm.length_eq, List.length_range]
  have hnd : arr.Nodup := hperm.nodup_iff.mpr (List.nodup_range _)
  cases arr with
  | nil => simp at hlen
  | cons a0 rest =>
      have ha0 : a0 = n := by simpa using hhead
      subst ha0
      have hn_rest : a0 ∉ rest := (List.nodup_cons.mp hnd).1
      have hjmem : j ∈ a0 :: rest := by
        rw [hperm.mem_iff, List.mem_range]
        omega
      have hjrest : j ∈ rest := by
        rcases List.mem_cons.mp hjmem with h | h
        · exact absurd h hjn
        · exact h
      simp only [SuffixArray.rerank]
      have hvn : (SuffixArray.rerankAux k rank rest a0 0
          ((List.replicate (a0 + 1) 0).set a0 0)).getD a0 0 = 0 := by
        rw [rerankAux_untouched k rank rest _ _ _ a0 hn_rest]
        exact getD_set_self _ _ _ _ (by simp)
      rw [hvn]
      cases rest with
      | nil => simp at hjrest
      | cons a1 rest2 =>
          have ha1n : a1 ≠ a0 := by
            intro h
            exact hn_rest (h ▸ List.mem_cons_self a1 rest2)
          have ha1lt : a1 < a0 + 1 := by
            have : a1 ∈ a0 :: a1 :: rest2 := List.mem_cons_of_mem _ (List.mem_cons_self _ _)
            rw [hperm.mem_iff, List.mem_range] at this
            exact this
          have hcmp : SuffixArray.compare_node a0 a1 k rank = .lt := by
            rw [compare_node_lt_iff]
            exact Or.inl (hum a1 ha1lt ha1n)
          have hv : (0 : Int) +
              (if SuffixArray.compare_node a0 a1 k rank = .lt then 1 else 0) = 1 := by
            rw [hcmp]
            norm_num
          simp only [SuffixArray.rerankAux, hv]
          have hnd2 : (a1 :: rest2).Nodup := (List.nodup_cons.mp hnd).2
          have htmp2len : j < ((((List.replicate (a0 + 1) (0 : Int)).set a0 0)).set a1 1).length := by
            simp
            omega
          rcases List.mem_cons.mp hjrest with he | hm
          · subst he
            rw [rerankAux_untouched k rank rest2 _ _ _ j (List.nodup_cons.mp hnd2).1]
            rw [getD_set_self _ _ _ _ (by simp; omega)]
            norm_num
          · have := rerankAux_ge k rank rest2 a1 1 _ j (List.nodup_cons.mp hnd2).2 hm htmp2len
            omega

theorem rounds_head (n : Nat) :
    ∀ (fuel k : Nat) (arr : List Nat) (rank : List Int),
      1 ≤ k → n < k + fuel →
      List.Perm arr (List.range (n + 1)) →
      (n < k → arr.getD 0 0 = n) →
      (∀ j, j < n + 1 → j ≠ n → rank.getD n 0 < rank.getD j 0) →
      (SuffixArray.rounds n fuel k arr rank).getD 0 0 = n := by
  intro fuel
  induction fuel with
  | zero =>
      intro k arr rank hk hfk hperm hhead hum
      exact hhead (by omega)
  | succ fuel ih =>
      intro k arr rank hk hfk hperm hhead hum
      simp only [SuffixArray.rounds]
      by_cases h : k ≤ n
      · rw [if_pos h]
        haveI ht : IsTotal Nat (SuffixArray.nodeLe k rank) := ⟨nodeLe_total k rank⟩
        haveI htr : IsTrans Nat (SuffixArray.nodeLe k rank) := ⟨nodeLe_trans k rank⟩
        have hsorted := List.sorted_insertionSort (SuffixArray.nodeLe k rank) arr
        have hperm2 : List.Perm (List.insertionSort (SuffixArray.nodeLe k rank) arr)
            (List.range (n + 1)) := (List.perm_insertionSort _ arr).trans hperm
        have hhead2 : (List.insertionSort (SuffixArray.nodeLe k rank) arr).getD 0 0 = n := by
          apply head_of_sorted_unique_min _ _ hsorted
          · rw [hperm2.mem_iff, List.mem_range]; omega
          · intro b hb hbn
            rw [hperm2.mem_iff, List.mem_range] at hb
            have hlt := hum b hb hbn
            rw [nodeLe_iff]
            intro hc
            rcases hc with hc | ⟨hc, _⟩ <;> omega
        apply ih (k * 2) _ _ (by omega) (by omega) hperm2 (fun _ => hhead2)
        exact rerank_umin n k rank _ hperm2 hhead2 hum
      · rw [if_neg h]
        exact hhead (by omega)

theorem sa_head (s : List Nat) : (SuffixArray.new s).getD 0 0 = s.length := by
  simp only [SuffixArray.new]
  apply rounds_head s.length (s.length + 1) 1 _ _ (by omega) (by omega) (List.Perm.refl _)
  · intro h
    have : s.length = 0 := by omega
    rw [this]
    rfl
  · intro j hj hjn
    rw [getD_map_range _ _ _ _ (by omega), getD_map_range _ _ _ _ hj]
    rw [if_neg (by omega), if_pos (by omega)]
    have : (0 : Int) ≤ (s.getD j 0 : Int) := Int.ofNat_nonneg _
    omega

theorem getD_eq_getElem {α : Type} (l : List α) (i : Nat) (d : α) (h : i < l.length) :
    l.getD i d = l[i] := by
  rw [List.getD_eq_getElem?_getD, List.getElem?_eq_getElem h]
  rfl

/-! ## The inverse suffix array -/

theorem invFold_untouched :
    ∀ (l : List Nat) (s : Nat) (acc : List Nat) (j : Nat), j ∉ l →
      ((l.enumFrom s).foldl (fun a p => a.set p.2 p.1) acc).getD j 0 = acc.getD j 0 := by
  intro l
  induction l with
  | nil => intro s acc j _; rfl
  | cons a as ih =>
      intro s acc j hj
      simp only [List.enumFrom, List.foldl_cons]
      rw [ih (s + 1) _ j (fun h => hj (List.mem_cons_of_mem a h))]
      exact getD_set_ne _ _ _ _ _ (fun h => hj (h ▸ List.mem_cons_self a as))

theorem invFold_length :
    ∀ (l : List Nat) (s : Nat) (acc : List Nat),
      ((l.enumFrom s).foldl (fun a p => a.set p.2 p.1) acc).length = acc.length := by
  intro l
  induction l with
  | nil => intro s acc; rfl
  | cons a as ih =>
      intro s acc
      simp only [List.enumFrom, List.foldl_cons, ih, List.length_set]

theorem invFold_get :
    ∀ (l : List Nat) (s : Nat) (acc : List Nat) (i : Nat), l.Nodup → i < l.length →
      l.getD i 0 < acc.length →
      ((l.enumFrom s).foldl (fun a p => a.set p.2 p.1) acc).getD (l.getD i 0) 0 = s + i := by
  intro l
  induction l with
  | nil => intro s acc i _ hi; simp at hi
  | cons a as ih =>
      intro s acc i hnd hi hlt
      simp only [List.enumFrom, List.foldl_cons]
      cases i with
      | zero =>
          simp only [List.getD_cons_zero] at hlt ⊢
          rw [invFold_untouched as (s + 1) _ a (List.nodup_cons.mp hnd).1]
          rw [getD_set_self _ _ _ _ hlt]
          omega
      | succ i =>
          simp only [List.getD_cons_succ] at hlt ⊢
          rw [ih (s + 1) _ i (List.nodup_cons.mp hnd).2 (by simpa using hi) (by simpa using hlt)]
          omega

theorem isa_spec (s : List Nat) (v : Nat) (hv : v < s.length + 1) :
    (LZ77.inverseOf (SuffixArray.new s) s.length).getD v 0 < s.length + 1 ∧
    (SuffixArray.new s).getD
      ((LZ77.inverseOf (SuffixArray.new s) s.length).getD v 0) 0 = v := by
  have hmem : v ∈ SuffixArray.new s := (sa_mem s v).mpr hv
  obtain ⟨⟨i, hi⟩, hget⟩ := List.get_of_mem hmem
  have hgetD : (SuffixArray.new s).getD i 0 = v := by
    rw [getD_eq_getElem _ _ _ hi]
    simpa using hget
  have hlen := sa_length s
  have hfold : (LZ77.inverseOf (SuffixArray.new s) s.length).getD v 0 = i := by
    show (((SuffixArray.new s).enumFrom 0).foldl (fun a p => a.set p.2 p.1)
        (List.replicate (s.length + 1) 0)).getD v 0 = i
    rw [← hgetD]
    rw [invFold_get (SuffixArray.new s) 0 _ i (sa_nodup s) hi (by rw [hgetD]; simpa using hv)]
    omega
  rw [hfold]
  exact ⟨by omega, hgetD⟩

/-! ## PSV/NSV sweep: the weak value facts -/

theorem chainWalk_spec (sa : List Nat) (n i : Nat) (hi : i < n) :
    ∀ (fuel j : Nat) (psvArr nsv : List Nat),
      j < fuel → j < i → j < n + 1 → n + 1 ≤ nsv.length →
      (∀ t, t < n + 1 → psvArr.getD t 0 ≠ u32max → psvArr.getD t 0 < t) →
      ((LZ77.chainWalk sa i fuel j psvArr nsv).1 ≤ j ∧
       (LZ77.chainWalk sa i fuel j psvArr nsv).1 < n + 1 ∧
       (psvArr.getD (LZ77.chainWalk sa i fuel j psvArr nsv).1 0 = u32max ∨
         ¬ sa.getD i 0 < sa.getD (LZ77.chainWalk sa i fuel j psvArr nsv).1 0) ∧
       (∀ t, t < n + 1 →
         (LZ77.chainWalk sa i fuel j psvArr nsv).2.getD t 0 = nsv.getD t 0 ∨
         ((LZ77.chainWalk sa i fuel j psvArr nsv).2.getD t 0 = i ∧
           sa.getD i 0 < sa.getD t 0)) ∧
       (LZ77.chainWalk sa i fuel j psvArr nsv).2.length = nsv.length) := by
  intro fuel
  induction fuel with
  | zero => intro j psvArr nsv hf; omega
  | succ fuel ih =>
      intro j psvArr nsv hf hj hjn hnl hchain
      simp only [LZ77.chainWalk]
      by_cases hg : psvArr.getD j 0 ≠ u32max ∧ sa.getD i 0 < sa.getD j 0
      · rw [if_pos hg]
        have hj2 : psvArr.getD j 0 < j := hchain j hjn hg.1
        obtain ⟨ha, hb, hc, hd, he⟩ :=
          ih (psvArr.getD j 0) psvArr (nsv.set j i) (by omega) (by omega) (by omega)
            (by simpa using hnl) hchain
        refine ⟨by omega, hb, hc, ?_, by simpa using he⟩
        intro t ht
        rcases hd t ht with h | h
        · by_cases hts : t = j
          · subst hts
            right
            rw [h, getD_set_self _ _ _ _ (by omega)]
            exact ⟨rfl, hg.2⟩
          · left
            rw [h, getD_set_ne _ _ _ _ _ (fun he => hts he.symm)]
        · exact Or.inr h
      · rw [if_neg hg]
        refine ⟨le_rfl, by omega, ?_, fun t _ => Or.inl rfl, rfl⟩
        by_cases hm : psvArr.getD j 0 = u32max
        · exact Or.inl hm
        · right
          intro hlt
          exact hg ⟨hm, hlt⟩

theorem sweep_spec (sa : List Nat) (n : Nat) (hn : n < u32max)
    (hsal : sa.length = n + 1) (hsand : sa.Nodup) :
    ∀ (fuel i : Nat) (psvArr nsv : List Nat),
      i + fuel = n + 1 → 1 ≤ i → psvArr.length = n + 1 → n + 1 ≤ nsv.length →
      (∀ t, 1 ≤ t → t < i → psvArr.getD t 0 ≠ u32max) →
      (∀ t, t < n + 1 → psvArr.getD t 0 ≠ u32max →
        (psvArr.getD t 0 < t ∧
          (psvArr.getD t 0 = 0 ∨ sa.getD (psvArr.getD t 0) 0 < sa.getD t 0))) →
      (∀ t, t < n + 1 →
        (nsv.getD t 0 = 0 ∨ (nsv.getD t 0 < n + 1 ∧ sa.getD (nsv.getD t 0) 0 < sa.getD t 0))) →
      (∀ t, t < n + 1 →
        ((LZ77.sweep sa n fuel i psvArr nsv).1.getD t 0 = u32max ∨
          ((LZ77.sweep sa n fuel i psvArr nsv).1.getD t 0 < n + 1 ∧
            ((LZ77.sweep sa n fuel i psvArr nsv).1.getD t 0 = 0 ∨
              sa.getD ((LZ77.sweep sa n fuel i psvArr nsv).1.getD t 0) 0 < sa.getD t 0))) ∧
        ((LZ77.sweep sa n fuel i psvArr nsv).2.getD t 0 = 0 ∨
          ((LZ77.sweep sa n fuel i psvArr nsv).2.getD t 0 < n + 1 ∧
            sa.getD ((LZ77.sweep sa n fuel i psvArr nsv).2.getD t 0) 0 < sa.getD t 0))) := by
  intro fuel
  induction fuel with
  | zero =>
      intro i psvArr nsv hif hi hpl hnl hset hval hnsv t ht
      simp only [LZ77.sweep]
      constructor
      · by_cases hm : psvArr.getD t 0 = u32max
        · exact Or.inl hm
        · right
          have := hval t ht hm
          exact ⟨by omega, this.2⟩
      · exact hnsv t ht
  | succ fuel ih =>
      intro i psvArr nsv hif hi hpl hnl hset hval hnsv t ht
      simp only [LZ77.sweep]
      by_cases hin : i < n
      · rw [if_pos hin]
        have hwalk := chainWalk_spec sa n i hin i (i - 1) psvArr nsv (by omega) (by omega)
          (by omega) hnl (fun t2 ht2 hm => (hval t2 ht2 hm).1)
        set w := LZ77.chainWalk sa i i (i - 1) psvArr nsv with hw
        obtain ⟨hwa, hwb, hwc, hwd, hwe⟩ := hwalk
        have hw1 : w.1 < i := by omega
        have hw1n : w.1 < n + 1 := hwb
        apply ih (i + 1) (psvArr.set i w.1) w.2 (by omega) (by omega) (by simpa using hpl)
          (by omega)
        · intro t2 h1 h2
          by_cases he : t2 = i
          · subst he
            rw [getD_set_self _ _ _ _ (by omega)]
            omega
          · rw [getD_set_ne _ _ _ _ _ (fun h => he h.symm)]
            exact hset t2 h1 (by omega)
        · intro t2 ht2 hm
          by_cases he : t2 = i
          · subst he
            rw [getD_set_self _ _ _ _ (by omega)] at hm ⊢
            refine ⟨by omega, ?_⟩
            rcases hwc with hcase | hcase
            · left
              by_cases hz : w.1 = 0
              · exact hz
              · exact absurd hcase (hset w.1 (by omega) (by omega))
            · right
              have hne : sa.getD w.1 0 ≠ sa.getD t2 0 := by
                rw [getD_eq_getElem _ _ _ (by omega), getD_eq_getElem _ _ _ (by omega)]
                intro he2
                have hinj := List.nodup_iff_injective_get.mp hsand
                have hx : sa.get ⟨w.1, by omega⟩ = sa.get ⟨t2, by omega⟩ := by
                  simp only [List.get_eq_getElem]
                  exact he2
                have hwi : w.1 = t2 := by
                  have := hinj hx
                  simpa using this
                omega
              omega
          · rw [getD_set_ne _ _ _ _ _ (fun h => he h.symm)] at hm ⊢
            exact hval t2 ht2 hm
        · intro t2 ht2
          rcases hwd t2 ht2 with hcase | hcase
          · rw [hcase]
            exact hnsv t2 ht2
          · refine Or.inr ⟨by omega, ?_⟩
            rw [hcase.1]
            exact hcase.2
        · exact ht
      · rw [if_neg hin]
        dsimp only
        constructor
        · by_cases hm : psvArr.getD t 0 = u32max
          · exact Or.inl hm
          · right
            have := hval t ht hm
            exact ⟨by omega, this.2⟩
        · exact hnsv t ht

theorem getD_replicate {α : Type} (m t : Nat) (a d : α) (ht : t < m) :
    (List.replicate m a).getD t d = a := by
  rw [List.getD_eq_getElem?_getD, List.getElem?_replicate, if_pos ht]
  rfl

theorem sweep_psv_length (sa : List Nat) (n : Nat) :
    ∀ (fuel i : Nat) (psvArr nsv : List Nat),
      (LZ77.sweep sa n fuel i psvArr nsv).1.length = psvArr.length := by
  intro fuel
  induction fuel with
  | zero => intro i psvArr nsv; rfl
  | succ fuel ih =>
      intro i psvArr nsv
      simp only [LZ77.sweep]
      by_cases hin : i < n
      · rw [if_pos hin]
        rw [ih]
        simp
      · rw [if_neg hin]

theorem psv_nsv_facts (sa : List Nat) (n : Nat) (hn : n < u32max)
    (hsal : sa.length = n + 1) (hsand : sa.Nodup) (t : Nat) (ht : t < n + 1) :
    ((LZ77.psv_nsv sa n).1.getD t 0 = 0 ∨
      ((LZ77.psv_nsv sa n).1.getD t 0 < n + 1 ∧
        sa.getD ((LZ77.psv_nsv sa n).1.getD t 0) 0 < sa.getD t 0)) ∧
    ((LZ77.psv_nsv sa n).2.getD t 0 = 0 ∨
      ((LZ77.psv_nsv sa n).2.getD t 0 < n + 1 ∧
        sa.getD ((LZ77.psv_nsv sa n).2.getD t 0) 0 < sa.getD t 0)) := by
  have hsw := sweep_spec sa n hn hsal hsand n 1 (List.replicate (n + 1) u32max)
    (List.replicate (n + 1) 0) (by omega) (by omega) (by simp) (by simp)
    (fun t2 h1 h2 => by omega)
    (fun t2 ht2 hm => absurd (getD_replicate (n + 1) t2 u32max 0 ht2) hm)
    (fun t2 ht2 => Or.inl (getD_replicate (n + 1) t2 0 0 ht2))
    t ht
  have hlen : (LZ77.sweep sa n n 1 (List.replicate (n + 1) u32max)
      (List.replicate (n + 1) 0)).1.length = n + 1 := by
    rw [sweep_psv_length]
    simp
  simp only [LZ77.psv_nsv]
  constructor
  · have hmap : ((LZ77.sweep sa n n 1 (List.replicate (n + 1) u32max)
        (List.replicate (n + 1) 0)).1.map
          (fun x => if x = u32max then 0 else x)).getD t 0 =
        (fun x => if x = u32max then 0 else x)
          ((LZ77.sweep sa n n 1 (List.replicate (n + 1) u32max)
            (List.replicate (n + 1) 0)).1.getD t 0) := by
      rw [List.getD_eq_getElem?_getD, List.getElem?_map,
        List.getElem?_eq_getElem (by omega), ← getD_eq_getElem _ _ 0 (by omega)]
      rfl
    rw [hmap]
    by_cases hm : (LZ77.sweep sa n n 1 (List.replicate (n + 1) u32max)
        (List.replicate (n + 1) 0)).1.getD t 0 = u32max
    · rw [hm]
      simp
    · simp only [if_neg hm]
      rcases hsw.1 with hc | hc
      · exact absurd hc hm
      · rcases hc.2 with hz | hsa
        · exact Or.inl hz
        · exact Or.inr ⟨hc.1, hsa⟩
  · exact hsw.2

/-! ## The lpc helper and the factor loop -/

theorem getD_drop {α : Type} (l : List α) (m t : Nat) (d : α) :
    (l.drop m).getD t d = l.getD (m + t) d := by
  rw [List.getD_eq_getElem?_getD, List.getElem?_drop, ← List.getD_eq_getElem?_getD]

theorem mismatch_none_right : ∀ (as : List Nat), LZ77.mismatch as [] = none := by
  intro as
  cases as <;> rfl

theorem mismatch_spec :
    ∀ (as bs : List Nat) (v : Nat), LZ77.mismatch as bs = some v →
      v < as.length ∧ v < bs.length ∧
      (∀ t, t < v → as.getD t 0 = bs.getD t 0) ∧ as.getD v 0 ≠ bs.getD v 0 := by
  intro as
  induction as with
  | nil => intro bs v h; exact Option.noConfusion h
  | cons a as2 ih =>
      intro bs v h
      cases bs with
      | nil => rw [mismatch_none_right] at h; exact Option.noConfusion h
      | cons b bs2 =>
          by_cases hab : a = b
          · rw [show LZ77.mismatch (a :: as2) (b :: bs2) =
                (LZ77.mismatch as2 bs2).map (· + 1) from by
              simp only [LZ77.mismatch]
              rw [if_neg (fun hne => hne hab)]] at h
            cases hm : LZ77.mismatch as2 bs2 with
            | none => rw [hm] at h; exact Option.noConfusion h
            | some v2 =>
                rw [hm] at h
                simp only [Option.map_some', Option.some.injEq] at h
                obtain ⟨h1, h2, h3, h4⟩ := ih bs2 v2 hm
                subst h
                refine ⟨by simpa using by omega, by simpa using by omega, ?_, by simpa using h4⟩
                intro t ht
                cases t with
                | zero => simpa using hab
                | succ t => simpa using h3 t (by omega)
          · rw [show LZ77.mismatch (a :: as2) (b :: bs2) = some 0 from by
              simp only [LZ77.mismatch, if_pos (by simpa using hab)]] at h
            have hv : v = 0 := by
              simpa using h.symm
            subst hv
            exact ⟨by simp, by simp, by omega, by simpa using hab⟩

theorem lpc_pos_spec (x : List Nat) (i j v : Nat) (h : LZ77.lpc x i j = v) (hv : 1 ≤ v) :
    i + v < x.length ∧ j + v < x.length ∧
    (∀ t, t < v → x.getD (i + t) 0 = x.getD (j + t) 0) := by
  have hm : LZ77.mismatch (x.drop i) (x.drop j) = some v := by
    cases hmm : LZ77.mismatch (x.drop i) (x.drop j) with
    | none =>
        exfalso
        unfold LZ77.lpc at h
        rw [hmm] at h
        simp at h
        omega
    | some v2 =>
        unfold LZ77.lpc at h
        rw [hmm] at h
        simp at h
        rw [h]
  obtain ⟨h1, h2, h3, _⟩ := mismatch_spec _ _ _ hm
  rw [List.length_drop] at h1 h2
  refine ⟨by omega, by omega, ?_⟩
  intro t ht
  have := h3 t ht
  rw [getD_drop, getD_drop] at this
  exact this

theorem lpc_sentinel (x : List Nat) (i : Nat) : LZ77.lpc x i x.length = 0 := by
  unfold LZ77.lpc
  rw [List.drop_length, mismatch_none_right]
  rfl

theorem lz_factor_spec (x : List Nat) (k pc nc : Nat) (hk : k < x.length)
    (hpc : pc = x.length ∨ pc < k) (hnc : nc = x.length ∨ nc < k) :
    ∃ p l, LZ77.lz_factor k pc nc x = (p, l, x.getD (k + l) 0, k + max l 1) ∧
      (l = 0 ∨ (p < k ∧ k + l < x.length ∧
        ∀ t, t < l → x.getD (p + t) 0 = x.getD (k + t) 0)) := by
  have key : ∀ p, (p = x.length ∨ p < k) → LZ77.lpc x k p = 0 ∨
      (p < k ∧ k + LZ77.lpc x k p < x.length ∧
        ∀ t, t < LZ77.lpc x k p → x.getD (p + t) 0 = x.getD (k + t) 0) := by
    intro p hp
    by_cases hz : LZ77.lpc x k p = 0
    · exact Or.inl hz
    · right
      have hple : p < k := by
        rcases hp with hp | hp
        · exfalso
          rw [hp, lpc_sentinel] at hz
          exact hz rfl
        · exact hp
      obtain ⟨h1, h2, h3⟩ := lpc_pos_spec x k p _ rfl (by omega)
      exact ⟨hple, h1, fun t ht => (h3 t ht).symm⟩
  have hget : ∀ l : Nat, k + l < x.length →
      x.get? (k + l) = some (x.getD (k + l) 0) := by
    intro l hl
    rw [List.get?_eq_getElem?, List.getElem?_eq_getElem hl, getD_eq_getElem x _ 0 hl]
  by_cases hgt : LZ77.lpc x k pc > LZ77.lpc x k nc
  · refine ⟨pc, LZ77.lpc x k pc, ?_, ?_⟩
    · have hsome : x.get? (k + LZ77.lpc x k pc) = some (x.getD (k + LZ77.lpc x k pc) 0) := by
        rcases key pc hpc with hz | ⟨_, hlt, _⟩
        · rw [hz]
          exact hget 0 (by omega)
        · exact hget _ hlt
      simp only [LZ77.lz_factor, if_pos hgt, hsome]
    · rcases key pc hpc with hz | hr
      · exact Or.inl hz
      · exact Or.inr hr
  · refine ⟨nc, LZ77.lpc x k nc, ?_, ?_⟩
    · have hsome : x.get? (k + LZ77.lpc x k nc) = some (x.getD (k + LZ77.lpc x k nc) 0) := by
        rcases key nc hnc with hz | ⟨_, hlt, _⟩
        · rw [hz]
          exact hget 0 (by omega)
        · exact hget _ hlt
      simp only [LZ77.lz_factor, if_neg hgt, hsome]
    · rcases key nc hnc with hz | hr
      · exact Or.inl hz
      · exact Or.inr hr

theorem Good_nil (x : List Nat) (k : Nat) : Good x k [] ↔ k = x.length := Iff.rfl

theorem Good_lit (x : List Nat) (k p c : Nat) (fs : List (Nat × Nat × Nat)) :
    Good x k ((p, 0, c) :: fs) ↔ c = x.getD k 0 ∧ k < x.length ∧ Good x (k + 1) fs :=
  Iff.rfl

theorem Good_ref (x : List Nat) (k p l c : Nat) (fs : List (Nat × Nat × Nat)) (hl : l ≠ 0) :
    Good x k ((p, l, c) :: fs) ↔
      p < k ∧ k + l ≤ x.length ∧
        (∀ t, t < l → x.getD (p + t) 0 = x.getD (k + t) 0) ∧ Good x (k + l) fs := by
  cases l with
  | zero => exact absurd rfl hl
  | succ l => exact Iff.rfl

theorem factorLoop_good (x : List Nat) (hn : x.length < u32max) :
    ∀ (fuel k : Nat), k ≤ x.length → x.length - k ≤ fuel →
      Good x k (LZ77.factorLoop x (SuffixArray.new x)
        (LZ77.inverseOf (SuffixArray.new x) x.length)
        (LZ77.psv_nsv (SuffixArray.new x) x.length).1
        (LZ77.psv_nsv (SuffixArray.new x) x.length).2 x.length fuel k) := by
  intro fuel
  induction fuel with
  | zero =>
      intro k hk hf
      have hke : k = x.length := by omega
      subst hke
      simp only [LZ77.factorLoop]
      exact (Good_nil x _).mpr rfl
  | succ fuel ih =>
      intro k hk hf
      by_cases hkn : k < x.length
      · have hisa := isa_spec x k (by omega)
        have hpf := psv_nsv_facts (SuffixArray.new x) x.length hn (sa_length x)
          (sa_nodup x) ((LZ77.inverseOf (SuffixArray.new x) x.length).getD k 0) hisa.1
        have hpcP : (SuffixArray.new x).getD
            ((LZ77.psv_nsv (SuffixArray.new x) x.length).1.getD
              ((LZ77.inverseOf (SuffixArray.new x) x.length).getD k 0) 0) 0 = x.length ∨
            (SuffixArray.new x).getD
            ((LZ77.psv_nsv (SuffixArray.new x) x.length).1.getD
              ((LZ77.inverseOf (SuffixArray.new x) x.length).getD k 0) 0) 0 < k := by
          rcases hpf.1 with hz | ⟨hlt, hsa2⟩
          · left
            rw [hz]
            exact sa_head x
          · right
            rw [hisa.2] at hsa2
            exact hsa2
        have hncP : (SuffixArray.new x).getD
            ((LZ77.psv_nsv (SuffixArray.new x) x.length).2.getD
              ((LZ77.inverseOf (SuffixArray.new x) x.length).getD k 0) 0) 0 = x.length ∨
            (SuffixArray.new x).getD
            ((LZ77.psv_nsv (SuffixArray.new x) x.length).2.getD
              ((LZ77.inverseOf (SuffixArray.new x) x.length).getD k 0) 0) 0 < k := by
          rcases hpf.2 with hz | ⟨hlt, hsa2⟩
          · left
            rw [hz]
            exact sa_head x
          · right
            rw [hisa.2] at hsa2
            exact hsa2
        obtain ⟨p, l, hre, hcase⟩ := lz_factor_spec x k _ _ hkn hpcP hncP
        simp only [LZ77.factorLoop]
        rw [if_pos hkn, hre]
        dsimp only
        by_cases hl0 : l = 0
        · subst hl0
          rw [Good_lit]
          refine ⟨by rw [Nat.add_zero], hkn, ?_⟩
          have := ih (k + 1) (by omega) (by omega)
          simpa using this
        · rcases hcase with hz | ⟨hplt, hkl, hagree⟩
          · exact absurd hz hl0
          · rw [Good_ref x k p l _ _ hl0]
            refine ⟨hplt, by omega, hagree, ?_⟩
            have := ih (k + l) (by omega) (by omega)
            have hmax : max l 1 = l := by omega
            rw [hmax]
            exact this
      · simp only [LZ77.factorLoop]
        rw [if_neg hkn]
        have hke : k = x.length := by omega
        exact (Good_nil x _).mpr hke

theorem rawFactors_good (x : List Nat) (hn : x.length < u32max) :
    Good x 0 (LZ77.rawFactorsOf x) := by
  simp only [LZ77.rawFactorsOf]
  exact factorLoop_good x hn x.length 0 (by omega) (by omega)

theorem guardSmall_good (x : List Nat) :
    ∀ (fs : List (Nat × Nat × Nat)) (k count : Nat),
      Good x k fs → Good x k (LZ77.guardSmall x count fs) := by
  intro fs
  induction fs with
  | nil => intro k count h; exact h
  | cons f fs ih =>
      intro k count h
      obtain ⟨p, l, c⟩ := f
      by_cases hl0 : l = 0
      · subst hl0
        rw [Good_lit] at h
        simp only [LZ77.guardSmall]
        rw [if_neg (by simp), if_neg (by simp), if_neg (by simp)]
        rw [List.singleton_append, Good_lit]
        exact ⟨h.1, h.2.1, ih _ _ h.2.2⟩
      · rw [Good_ref x k p l c fs hl0] at h
        obtain ⟨hp, hkl, hagree, hrest⟩ := h
        simp only [LZ77.guardSmall]
        by_cases c1 : l = 1 ∧ 128 ≤ count + max l 1
        · rw [if_pos c1, List.singleton_append, Good_lit]
          refine ⟨?_, by omega, ?_⟩
          · have := hagree 0 (by omega)
            simpa using this
          · have := ih (k + 1) (count + max l 1) (by rw [← c1.1]; exact hrest)
            exact this
        · rw [if_neg c1]
          by_cases c2 : l = 2 ∧ 32768 ≤ count + max l 1
          · rw [if_pos c2]
            rw [show ((0, 0, x.getD p 0) :: [(0, 0, x.getD (p + 1) 0)]) ++
                LZ77.guardSmall x (count + max l 1) fs =
                (0, 0, x.getD p 0) :: (0, 0, x.getD (p + 1) 0) ::
                LZ77.guardSmall x (count + max l 1) fs from rfl]
            rw [Good_lit]
            refine ⟨by simpa using hagree 0 (by omega), by omega, ?_⟩
            rw [Good_lit]
            refine ⟨by simpa using hagree 1 (by omega), by omega, ?_⟩
            have := ih (k + 2) (count + max l 1) (by rw [← c2.1]; exact hrest)
            simpa using this
          · rw [if_neg c2]
            by_cases c3 : l = 3 ∧ 8388608 ≤ count + max l 1
            · rw [if_pos c3]
              rw [show ((0, 0, x.getD p 0) :: (0, 0, x.getD (p + 1) 0) ::
                  [(0, 0, x.getD (p + 2) 0)]) ++
                  LZ77.guardSmall x (count + max l 1) fs =
                  (0, 0, x.getD p 0) :: (0, 0, x.getD (p + 1) 0) ::
                  (0, 0, x.getD (p + 2) 0) ::
                  LZ77.guardSmall x (count + max l 1) fs from rfl]
              rw [Good_lit]
              refine ⟨by simpa using hagree 0 (by omega), by omega, ?_⟩
              rw [Good_lit]
              refine ⟨by simpa using hagree 1 (by omega), by omega, ?_⟩
              rw [Good_lit]
              refine ⟨by simpa using hagree 2 (by omega), by omega, ?_⟩
              have := ih (k + 3) (count + max l 1) (by rw [← c3.1]; exact hrest)
              simpa using this
            · rw [if_neg c3, List.singleton_append, Good_ref x k p l c _ hl0]
              exact ⟨hp, hkl, hagree, ih _ _ hrest⟩

theorem factorsOf_good (x : List Nat) (hn : x.length < u32max) :
    Good x 0 (LZ77.factorsOf x) := by
  simp only [LZ77.factorsOf]
  exact guardSmall_good x _ 0 0 (factorLoop_good x hn x.length 0 (by omega) (by omega))

/-! ## decode_chunk recovers the chunk from a Good factor stream -/

theorem get?_some_getD (x : List Nat) (i d : Nat) (h : i < x.length) :
    x.get? i = some (x.getD i d) := by
  rw [getD_eq_getElem x i d h, List.get?_eq_getElem?, List.getElem?_eq_getElem h]

theorem copyRef_take (x : List Nat) :
    ∀ (l p k : Nat), p < k → k + l ≤ x.length →
      (∀ t, t < l → x.getD (p + t) 0 = x.getD (k + t) 0) →
      LZ77.decode_chunkCopy p l (x.take k) = some (x.take (k + l)) := by
  intro l
  induction l with
  | zero =>
      intro p k hp hkl hagree
      simp [LZ77.decode_chunkCopy]
  | succ l ih =>
      intro p k hp hkl hagree
      have hpn : p < x.length := by omega
      have hkn : k < x.length := by omega
      have hget : (x.take k).get? p = some (x.getD p 0) := by
        rw [List.get?_take hp]
        exact get?_some_getD x p 0 hpn
      simp only [LZ77.decode_chunkCopy, hget]
      have hpush : x.take k ++ [x.getD p 0] = x.take (k + 1) := by
        have h0 := hagree 0 (by omega)
        rw [Nat.add_zero, Nat.add_zero] at h0
        rw [h0, List.take_succ, List.getElem?_eq_getElem hkn, getD_eq_getElem x k 0 hkn]
        rfl
      rw [hpush]
      have := ih (p + 1) (k + 1) (by omega) (by omega)
        (fun t ht => by
          have := hagree (t + 1) (by omega)
          rw [show p + 1 + t = p + (t + 1) from by omega,
            show k + 1 + t = k + (t + 1) from by omega]
          exact this)
      rw [this]
      rw [show k + 1 + l = k + (l + 1) from by omega]

theorem decodeAux_good (x : List Nat) :
    ∀ (fs : List (Nat × Nat × Nat)) (k : Nat), Good x k fs →
      LZ77.decode_chunkAux fs (x.take k) = some x := by
  intro fs
  induction fs with
  | nil =>
      intro k h
      rw [Good_nil] at h
      subst h
      rw [List.take_length]
      rfl
  | cons f fs ih =>
      intro k h
      obtain ⟨p, l, c⟩ := f
      by_cases hl0 : l = 0
      · subst hl0
        rw [Good_lit] at h
        obtain ⟨hc, hkx, hrest⟩ := h
        subst hc
        show LZ77.decode_chunkAux fs (x.take k ++ [x.getD k 0]) = some x
        have hpush : x.take k ++ [x.getD k 0] = x.take (k + 1) := by
          rw [List.take_succ, List.getElem?_eq_getElem hkx, getD_eq_getElem x k 0 hkx]
          rfl
        rw [hpush]
        exact ih (k + 1) hrest
      · rw [Good_ref x k p l c fs hl0] at h
        obtain ⟨hp, hkl, hagree, hrest⟩ := h
        cases l with
        | zero => exact absurd rfl hl0
        | succ l =>
            show (match LZ77.decode_chunkCopy p (l + 1) (x.take k) with
              | some acc2 => LZ77.decode_chunkAux fs acc2
              | none => none) = some x
            rw [copyRef_take x (l + 1) p k hp hkl hagree]
            exact ih (k + (l + 1)) hrest

theorem decode_chunk_good (x : List Nat) (fs : List (Nat × Nat × Nat))
    (h : Good x 0 fs) : LZ77.decode_chunk fs = some x := by
  have := decodeAux_good x fs 0 h
  simpa [LZ77.decode_chunk] using this

theorem Good_ref_lt (x : List Nat) :
    ∀ (fs : List (Nat × Nat × Nat)) (k : Nat), Good x k fs →
      ∀ i, i < fs.length → 1 ≤ (fs.getD i (0, 0, 0)).2.1 →
        (fs.getD i (0, 0, 0)).1 < k + startPos fs i := by
  intro fs
  induction fs with
  | nil => intro k h i hi _; simp at hi
  | cons f fs ih =>
      intro k h i hi hl
      obtain ⟨p, l, c⟩ := f
      cases i with
      | zero =>
          rw [List.getD_cons_zero] at hl ⊢
          rw [startPos_zero]
          dsimp only at hl ⊢
          rw [Good_ref x k p l c fs (by omega)] at h
          simpa using h.1
      | succ i =>
          rw [List.getD_cons_succ] at hl ⊢
          by_cases hl0 : l = 0
          · subst hl0
            rw [startPos_cons_lit]
            rw [Good_lit] at h
            have := ih (k + 1) h.2.2 i (by simpa using hi) hl
            omega
          · rw [startPos_cons_ref p l c (by omega)]
            rw [Good_ref x k p l c fs hl0] at h
            have := ih (k + l) h.2.2.2 i (by simpa using hi) hl
            omega

/-- C6 amended: every back reference (one with length l at least 1) emitted by
the factoriser for a chunk points strictly before its own decoded start
position, p < startPos i; references may overrun their own start (overlap the
text they produce) but never begin at or after it. -/
theorem c6_amended (x : List Nat) (hn : x.length < u32max) (i : Nat)
    (hi : i < (LZ77.factorsOf x).length)
    (hl : 1 ≤ ((LZ77.factorsOf x).getD i (0, 0, 0)).2.1) :
    ((LZ77.factorsOf x).getD i (0, 0, 0)).1 < startPos (LZ77.factorsOf x) i := by
  have := Good_ref_lt x (LZ77.factorsOf x) 0 (factorsOf_good x hn) i hi hl
  simpa using this

/-- Witness for c6_amended at the chunk [0, 0, 0, 1] and factor index 1. -/
theorem c6_witness :
    ((LZ77.factorsOf [0, 0, 0, 1]).getD 1 (0, 0, 0)).1 <
      startPos (LZ77.factorsOf [0, 0, 0, 1]) 1 :=
  c6_amended [0, 0, 0, 1] (by decide) 1 (by decide) (by decide)

theorem u32max_mod (ls : Nat) (h : ls ≤ 32) : u32max % 2 ^ ls = 2 ^ ls - 1 := by
  have hsplit : u32max = 2 ^ ls * (2 ^ (32 - ls) - 1) + (2 ^ ls - 1) := by
    have hp : 2 ^ ls * 2 ^ (32 - ls) = 2 ^ 32 := by
      rw [← pow_add]
      congr 1
      omega
    have hpos : 1 ≤ 2 ^ ls := Nat.one_le_two_pow
    have hpos2 : 1 ≤ 2 ^ (32 - ls) := Nat.one_le_two_pow
    have hstep : 2 ^ ls * (2 ^ (32 - ls) - 1) + 2 ^ ls = 2 ^ ls * 2 ^ (32 - ls) := by
      rw [← Nat.mul_succ]
      congr 1
      omega
    simp only [u32max]
    omega
  rw [hsplit, Nat.mul_add_mod]
  exact Nat.mod_eq_of_lt (by have h1 : (1 : Nat) ≤ 2 ^ ls := Nat.one_le_two_pow; omega)

theorem readBits_lt :
    ∀ (k : Nat) (bs : List Bool) (v : Nat) (rest : List Bool),
      readBits k bs = some (v, rest) → v < 2 ^ k := by
  intro k
  induction k with
  | zero =>
      intro bs v rest h
      simp only [readBits, Option.some.injEq, Prod.mk.injEq] at h
      omega
  | succ k ih =>
      intro bs v rest h
      cases bs with
      | nil => simp [readBits] at h
      | cons b bs =>
          simp only [readBits] at h
          cases hr : readBits k bs with
          | none => rw [hr] at h; simp at h
          | some r =>
              rw [hr] at h
              simp only [Option.map_some', Option.some.injEq, Prod.mk.injEq] at h
              have hr1 : r.1 < 2 ^ k := ih bs r.1 r.2 (by rw [hr])
              have hpow : 2 ^ (k + 1) = 2 * 2 ^ k := by ring
              by_cases hb : b = true
              · rw [hb] at h; simp at h; omega
              · have hb2 : b = false := by cases b <;> simp_all
                rw [hb2] at h; simp at h; omega

theorem StOK_bump (st : LZ77.PackSt) (dlt : Nat) : StOK (LZ77.bump st dlt) :=
  ⟨rfl, rfl⟩

theorem bump_d (st : LZ77.PackSt) (dlt : Nat) : (LZ77.bump st dlt).d = st.d + dlt := rfl

theorem StOK_facts (st : LZ77.PackSt) (h : StOK st) :
    1 ≤ st.ml ∧ st.ml < 2 ^ st.ls ∧ 1 ≤ st.ls ∧ st.ls ≤ 8 := by
  obtain ⟨h1, h2⟩ := h
  have hls1 : 1 ≤ st.ls := h1 ▸ lenght_size_pos _
  have hls8 : st.ls ≤ 8 := h1 ▸ lenght_size_le8 _
  have hpow : 2 ≤ 2 ^ st.ls := by
    calc (2 : Nat) = 2 ^ 1 := by norm_num
    _ ≤ 2 ^ st.ls := Nat.pow_le_pow_right (by norm_num) hls1
  exact ⟨by omega, by omega, hls1, hls8⟩

theorem decBump_eq (st : LZ77.PackSt) (dlt : Nat) :
    LZ77.decBump ⟨st.d, st.ls⟩ dlt = ⟨(LZ77.bump st dlt).d, (LZ77.bump st dlt).ls⟩ := rfl

theorem refFragsSt_st :
    ∀ (fuel : Nat) (st : LZ77.PackSt) (p l : Nat), StOK st → 1 ≤ l → l ≤ fuel →
      (LZ77.refFragsSt fuel st p l).2.d = st.d + l ∧
        StOK (LZ77.refFragsSt fuel st p l).2 := by
  intro fuel
  induction fuel with
  | zero => intro st p l hst hl hfl; exact absurd (hl.trans hfl) (by norm_num)
  | succ fuel ih =>
      intro st p l hst hl hfl
      simp only [LZ77.refFragsSt]
      by_cases hml : st.ml < l
      · rw [if_pos hml]
        dsimp only
        have hml1 : 1 ≤ st.ml := (StOK_facts st hst).1
        have hrec := ih (LZ77.bump st st.ml) (p + st.ml) (l - st.ml)
          (StOK_bump st st.ml) (by omega) (by omega)
        rw [bump_d] at hrec
        exact ⟨by rw [hrec.1]; omega, hrec.2⟩
      · rw [if_neg hml]
        exact ⟨bump_d st l, StOK_bump st l⟩

theorem refFrags_good (x : List Nat) :
    ∀ (fuel : Nat) (st : LZ77.PackSt) (p l k : Nat) (C : List (Nat × Nat × Nat)),
      StOK st → st.d = k → 1 ≤ l → l ≤ fuel → p < k → k + l ≤ x.length →
      (∀ t, t < l → x.getD (p + t) 0 = x.getD (k + t) 0) →
      Good x (k + l) C →
      Good x k ((LZ77.refFragsSt fuel st p l).1 ++ C) := by
  intro fuel
  induction fuel with
  | zero => intro st p l k C hst hd hl hfl; exact absurd (hl.trans hfl) (by norm_num)
  | succ fuel ih =>
      intro st p l k C hst hd hl hfl hp hkl hagree hC
      simp only [LZ77.refFragsSt]
      by_cases hml : st.ml < l
      · rw [if_pos hml]
        dsimp only
        have hml1 : 1 ≤ st.ml := (StOK_facts st hst).1
        rw [List.cons_append, Good_ref x k p st.ml 0 _ (by omega)]
        refine ⟨hp, by omega, fun t ht => hagree t (by omega), ?_⟩
        have hrec := ih (LZ77.bump st st.ml) (p + st.ml) (l - st.ml) (k + st.ml) C
          (StOK_bump st st.ml) (by rw [bump_d]; omega) (by omega) (by omega)
          (by omega) (by omega)
          (fun t ht => by
            have := hagree (st.ml + t) (by omega)
            rw [show p + st.ml + t = p + (st.ml + t) from by omega,
              show k + st.ml + t = k + (st.ml + t) from by omega]
            exact this)
          (by rw [show k + st.ml + (l - st.ml) = k + l from by omega]; exact hC)
        exact hrec
      · rw [if_neg hml]
        rw [List.singleton_append, Good_ref x k p l 0 C (by omega)]
        exact ⟨hp, hkl, hagree, hC⟩

theorem fragsOne_st (st : LZ77.PackSt) (p l c : Nat) (hst : StOK st) :
    (LZ77.fragsOne st (p, l, c)).2.d = st.d + max l 1 ∧
      StOK (LZ77.fragsOne st (p, l, c)).2 := by
  simp only [LZ77.fragsOne]
  by_cases hl : l = 0
  · subst hl
    rw [if_pos rfl]
    exact ⟨bump_d st 1, StOK_bump st 1⟩
  · rw [if_neg hl]
    have := refFragsSt_st l st p l hst (by omega) le_rfl
    exact ⟨by rw [this.1]; omega, this.2⟩

theorem fragsAll_good (x : List Nat) :
    ∀ (fs : List (Nat × Nat × Nat)) (st : LZ77.PackSt) (k : Nat),
      StOK st → st.d = k → Good x k fs → Good x k (LZ77.fragsAll st fs).1 := by
  intro fs
  induction fs with
  | nil => intro st k hst hd h; exact h
  | cons f fs ih =>
      intro st k hst hd h
      obtain ⟨p, l, c⟩ := f
      simp only [LZ77.fragsAll]
      by_cases hl : l = 0
      · subst hl
        rw [Good_lit] at h
        simp only [LZ77.fragsOne]
        rw [if_true]
        rw [List.singleton_append, Good_lit]
        refine ⟨h.1, h.2.1, ?_⟩
        exact ih (LZ77.bump st 1) (k + 1) (StOK_bump st 1) (by rw [bump_d]; omega) h.2.2
      · rw [Good_ref x k p l c fs hl] at h
        obtain ⟨hp, hkl, hagree, hrest⟩ := h
        simp only [LZ77.fragsOne, if_neg hl]
        have hst2 := refFragsSt_st l st p l hst (by omega) le_rfl
        refine refFrags_good x l st p l k _ hst hd (by omega) le_rfl hp hkl hagree ?_
        exact ih (LZ77.refFragsSt l st p l).2 (k + l) hst2.2 (by rw [hst2.1]; omega) hrest

theorem PackGood_nil (d : Nat) : PackGood d [] := trivial

theorem PackGood_lit (d p c : Nat) (fs : List (Nat × Nat × Nat)) :
    PackGood d ((p, 0, c) :: fs) ↔ c < 256 ∧ PackGood (d + 1) fs := Iff.rfl

theorem PackGood_ref (d p l c : Nat) (fs : List (Nat × Nat × Nat)) (hl : l ≠ 0) :
    PackGood d ((p, l, c) :: fs) ↔ 1 ≤ l ∧ p < d ∧ PackGood (d + l) fs := by
  cases l with
  | zero => exact absurd rfl hl
  | succ l => exact Iff.rfl

theorem Good_to_PackGood (x : List Nat) (hx : ∀ b ∈ x, b < 256) :
    ∀ (fs : List (Nat × Nat × Nat)) (k : Nat), Good x k fs → PackGood k fs := by
  intro fs
  induction fs with
  | nil => intro k _; exact trivial
  | cons f fs ih =>
      intro k h
      obtain ⟨p, l, c⟩ := f
      by_cases hl : l = 0
      · subst hl
        rw [Good_lit] at h
        rw [PackGood_lit]
        refine ⟨?_, ih (k + 1) h.2.2⟩
        rw [h.1, getD_eq_getElem x k 0 h.2.1]
        exact hx _ (List.getElem_mem h.2.1)
      · rw [Good_ref x k p l c fs hl] at h
        rw [PackGood_ref k p l c fs hl]
        exact ⟨by omega, h.1, ih (k + l) h.2.2.2⟩

theorem decodeFlagT_fuelEq :
    ∀ (n : Nat) (bs : List Bool), bs.length ≤ n →
      ∀ (fuel fuel2 : Nat) (st : LZ77.DecSt), bs.length < fuel → bs.length < fuel2 →
        LZ77.decodeFlagT fuel st bs = LZ77.decodeFlagT fuel2 st bs := by
  intro n
  induction n with
  | zero =>
      intro bs hbs fuel fuel2 st h1 h2
      have hnil : bs = [] := List.length_eq_zero.mp (by omega)
      subst hnil
      cases fuel with
      | zero => exact absurd h1 (by omega)
      | succ f =>
          cases fuel2 with
          | zero => exact absurd h2 (by omega)
          | succ f2 => rfl
  | succ n ih =>
      intro bs hbs fuel fuel2 st h1 h2
      cases bs with
      | nil =>
          cases fuel with
          | zero => exact absurd h1 (by omega)
          | succ f =>
              cases fuel2 with
              | zero => exact absurd h2 (by omega)
              | succ f2 => rfl
      | cons b bs1 =>
          cases fuel with
          | zero => exact absurd h1 (by omega)
          | succ f =>
          cases fuel2 with
          | zero => exact absurd h2 (by omega)
          | succ f2 =>
          simp only [LZ77.decodeFlagT]
          simp only [List.length_cons] at hbs h1 h2
          by_cases hb : b = true
          · simp only [if_pos hb]
            cases hr : readBits st.ls bs1 with
            | none => rfl
            | some r =>
                obtain ⟨l, bs2⟩ := r
                have hlen1 := readBits_length st.ls bs1 l bs2 hr
                dsimp only
                cases hr2 : readBits (bits32 st.d) bs2 with
                | none => rfl
                | some r2 =>
                    obtain ⟨p, bs3⟩ := r2
                    have hlen2 := readBits_length (bits32 st.d) bs2 p bs3 hr2
                    dsimp only
                    rw [ih bs3 (by omega) f f2 (LZ77.decBump st l) (by omega) (by omega)]
          · simp only [if_neg hb]
            cases hr : readBits 8 bs1 with
            | none => rfl
            | some r =>
                obtain ⟨c, bs2⟩ := r
                have hlen1 := readBits_length 8 bs1 c bs2 hr
                dsimp only
                rw [ih bs2 (by omega) f f2 (LZ77.decBump st 1) (by omega) (by omega)]

theorem decodeFlagF_fuelEq :
    ∀ (n : Nat) (bs : List Bool), bs.length ≤ n →
      ∀ (fuel fuel2 : Nat) (st : LZ77.DecSt), bs.length < fuel → bs.length < fuel2 →
        LZ77.decodeFlagF fuel st bs = LZ77.decodeFlagF fuel2 st bs := by
  intro n
  induction n with
  | zero =>
      intro bs hbs fuel fuel2 st h1 h2
      have hnil : bs = [] := List.length_eq_zero.mp (by omega)
      subst hnil
      cases fuel with
      | zero => exact absurd h1 (by omega)
      | succ f =>
          cases fuel2 with
          | zero => exact absurd h2 (by omega)
          | succ f2 =>
              simp only [LZ77.decodeFlagF]
              cases hr : readBits st.ls ([] : List Bool) with
              | none => rfl
              | some r =>
                  obtain ⟨l, bs2⟩ := r
                  have hlen1 := readBits_length st.ls [] l bs2 hr
                  simp only [List.length_nil] at hlen1
                  have hls0 : st.ls = 0 := by omega
                  have hl0 : l = 0 := by
                    have := readBits_lt st.ls [] l bs2 hr
                    rw [hls0] at this
                    simpa using this
                  dsimp only
                  rw [if_pos hl0]
                  have hb2 : bs2 = [] := List.length_eq_zero.mp (by omega)
                  subst hb2
                  rw [readBits_nil 8 (by omega), if_pos hl0]
  | succ n ih =>
      intro bs hbs fuel fuel2 st h1 h2
      cases fuel with
      | zero => exact absurd h1 (by omega)
      | succ f =>
      cases fuel2 with
      | zero => exact absurd h2 (by omega)
      | succ f2 =>
      simp only [LZ77.decodeFlagF]
      cases hr : readBits st.ls bs with
      | none => rfl
      | some r =>
          obtain ⟨l, bs2⟩ := r
          have hlen1 := readBits_length st.ls bs l bs2 hr
          dsimp only
          by_cases hl : l = 0
          · rw [if_pos hl, if_pos hl]
            cases hr2 : readBits 8 bs2 with
            | none => rfl
            | some r2 =>
                obtain ⟨c, bs3⟩ := r2
                have hlen2 := readBits_length 8 bs2 c bs3 hr2
                dsimp only
                rw [ih bs3 (by omega) f f2 (LZ77.decBump st 1) (by omega) (by omega)]
          · rw [if_neg hl, if_neg hl]
            have hls1 : 1 ≤ st.ls := by
              by_contra hc
              have hls0 : st.ls = 0 := by omega
              have := readBits_lt st.ls bs l bs2 hr
              rw [hls0] at this
              exact hl (by simpa using this)
            cases hr2 : readBits (bits32 st.d) bs2 with
            | none => rfl
            | some r2 =>
                obtain ⟨p, bs3⟩ := r2
                have hlen2 := readBits_length (bits32 st.d) bs2 p bs3 hr2
                dsimp only
                rw [ih bs3 (by omega) f f2 (LZ77.decBump st l) (by omega) (by omega)]

theorem packRef_st_eq (flag : Bool) :
    ∀ (fuel : Nat) (st : LZ77.PackSt) (p l : Nat),
      (LZ77.packRef flag fuel st p l).2 = (LZ77.refFragsSt fuel st p l).2 := by
  intro fuel
  induction fuel with
  | zero => intro st p l; rfl
  | succ fuel ih =>
      intro st p l
      simp only [LZ77.packRef, LZ77.refFragsSt]
      by_cases hml : st.ml < l
      · rw [if_pos hml, if_pos hml]
        exact ih _ _ _
      · rw [if_neg hml, if_neg hml]

theorem packOne_st_eq (flag : Bool) (st : LZ77.PackSt) (f : Nat × Nat × Nat) :
    (LZ77.packOne flag st f).2 = (LZ77.fragsOne st f).2 := by
  obtain ⟨p, l, c⟩ := f
  by_cases hl : l = 0
  · subst hl; rfl
  · simp only [LZ77.packOne, LZ77.fragsOne]
    rw [if_neg hl, if_neg hl]
    exact packRef_st_eq flag l st p l

theorem fragsAll_st :
    ∀ (fs : List (Nat × Nat × Nat)) (st : LZ77.PackSt), StOK st →
      StOK (LZ77.fragsAll st fs).2 := by
  intro fs
  induction fs with
  | nil => intro st hst; exact hst
  | cons f fs ih =>
      intro st hst
      obtain ⟨p, l, c⟩ := f
      simp only [LZ77.fragsAll]
      exact ih _ (fragsOne_st st p l c hst).2

theorem decodeT_packRef :
    ∀ (fuel : Nat) (st : LZ77.PackSt) (p l : Nat) (tail : List Bool) (dfuel : Nat),
      StOK st → 1 ≤ l → l ≤ fuel → p < st.d →
      LZ77.decodeFlagT ((LZ77.refFragsSt fuel st p l).1.length + dfuel) ⟨st.d, st.ls⟩
          ((LZ77.packRef true fuel st p l).1 ++ tail) =
        (LZ77.decodeFlagT dfuel ⟨(LZ77.refFragsSt fuel st p l).2.d,
            (LZ77.refFragsSt fuel st p l).2.ls⟩ tail).map
          (fun fs => (LZ77.refFragsSt fuel st p l).1 ++ fs) := by
  intro fuel
  induction fuel with
  | zero =>
      intro st p l tail dfuel hst hl hfl hp
      exact absurd (hl.trans hfl) (by norm_num)
  | succ fuel ih =>
      intro st p l tail dfuel hst hl hfl hp
      obtain ⟨hml1, hmlt, hls1, hls8⟩ := StOK_facts st hst
      by_cases hml : st.ml < l
      · have hrf : LZ77.refFragsSt (fuel + 1) st p l =
            ((p, st.ml, 0) ::
              (LZ77.refFragsSt fuel (LZ77.bump st st.ml) (p + st.ml) (l - st.ml)).1,
             (LZ77.refFragsSt fuel (LZ77.bump st st.ml) (p + st.ml) (l - st.ml)).2) := by
          simp only [LZ77.refFragsSt]
          rw [if_pos hml]
        have hpk : (LZ77.packRef true (fuel + 1) st p l).1 =
            true :: (toBits st.ls u32max ++ (toBits (bits32 st.d) p ++
              (LZ77.packRef true fuel (LZ77.bump st st.ml) (p + st.ml) (l - st.ml)).1)) := by
          simp only [LZ77.packRef]
          rw [if_pos hml]
          simp
        rw [hrf, hpk]
        dsimp only
        simp only [List.length_cons, List.cons_append, List.append_assoc]
        rw [Nat.add_right_comm _ 1 dfuel]
        simp only [LZ77.decodeFlagT]
        first
        | rw [if_true]
        | rw [if_pos rfl]
        rw [readBits_toBits]
        have hval : u32max % 2 ^ st.ls = st.ml := by
          rw [u32max_mod st.ls (by omega)]
          exact hst.2.symm
        rw [hval]
        dsimp only
        rw [readBits_toBits_lt (bits32 st.d) p _ (hp.trans (bits32_lt st.d))]
        dsimp only
        rw [decBump_eq st st.ml]
        rw [ih (LZ77.bump st st.ml) (p + st.ml) (l - st.ml) tail dfuel
          (StOK_bump st st.ml) (by omega) (by omega) (by rw [bump_d]; omega)]
        cases hdec : LZ77.decodeFlagT dfuel
            ⟨(LZ77.refFragsSt fuel (LZ77.bump st st.ml) (p + st.ml) (l - st.ml)).2.d,
             (LZ77.refFragsSt fuel (LZ77.bump st st.ml) (p + st.ml) (l - st.ml)).2.ls⟩
            tail <;> simp
      · have hrf : LZ77.refFragsSt (fuel + 1) st p l = ([(p, l, 0)], LZ77.bump st l) := by
          simp only [LZ77.refFragsSt]
          rw [if_neg hml]
        have hpk : (LZ77.packRef true (fuel + 1) st p l).1 =
            true :: (toBits st.ls l ++ toBits (bits32 st.d) p) := by
          simp only [LZ77.packRef]
          rw [if_neg hml]
          simp
        rw [hrf, hpk]
        dsimp only
        simp only [List.length_singleton, List.cons_append, List.append_assoc]
        rw [Nat.add_comm 1 dfuel]
        simp only [LZ77.decodeFlagT]
        first
        | rw [if_true]
        | rw [if_pos rfl]
        rw [readBits_toBits_lt st.ls l _ (by omega)]
        dsimp only
        rw [readBits_toBits_lt (bits32 st.d) p _ (hp.trans (bits32_lt st.d))]
        dsimp only
        rw [decBump_eq st l]
        cases hdec : LZ77.decodeFlagT dfuel
            ⟨(LZ77.bump st l).d, (LZ77.bump st l).ls⟩ tail <;> simp

theorem decodeT_packOne (st : LZ77.PackSt) (p l c : Nat) (tail : List Bool) (dfuel : Nat)
    (hst : StOK st) (hlit : l = 0 → c < 256) (href : l ≠ 0 → p < st.d) :
    LZ77.decodeFlagT ((LZ77.fragsOne st (p, l, c)).1.length + dfuel) ⟨st.d, st.ls⟩
        ((LZ77.packOne true st (p, l, c)).1 ++ tail) =
      (LZ77.decodeFlagT dfuel ⟨(LZ77.fragsOne st (p, l, c)).2.d,
          (LZ77.fragsOne st (p, l, c)).2.ls⟩ tail).map
        (fun fs => (LZ77.fragsOne st (p, l, c)).1 ++ fs) := by
  by_cases hl : l = 0
  · subst hl
    have h1 : LZ77.fragsOne st (p, 0, c) = ([(0, 0, c)], LZ77.bump st 1) := rfl
    have h2 : (LZ77.packOne true st (p, 0, c)).1 = false :: toBits 8 c := rfl
    rw [h1, h2]
    dsimp only
    simp only [List.length_singleton, List.cons_append]
    rw [Nat.add_comm 1 dfuel]
    simp only [LZ77.decodeFlagT]
    first
    | rw [if_false]
    | rw [if_neg (by simp)]
    rw [readBits_toBits_lt 8 c _ (lt_of_lt_of_le (hlit rfl) (by norm_num))]
    dsimp only
    rw [decBump_eq st 1]
    cases hdec : LZ77.decodeFlagT dfuel
        ⟨(LZ77.bump st 1).d, (LZ77.bump st 1).ls⟩ tail <;> simp
  · have h1 : LZ77.fragsOne st (p, l, c) = LZ77.refFragsSt l st p l := by
      simp only [LZ77.fragsOne]
      rw [if_neg hl]
    have h2 : LZ77.packOne true st (p, l, c) = LZ77.packRef true l st p l := by
      simp only [LZ77.packOne]
      rw [if_neg hl]
    rw [h1, h2]
    exact decodeT_packRef l st p l tail dfuel hst (by omega) le_rfl (href hl)

theorem decodeT_packAll :
    ∀ (fs : List (Nat × Nat × Nat)) (st : LZ77.PackSt) (tail : List Bool) (dfuel : Nat),
      StOK st → PackGood st.d fs →
      LZ77.decodeFlagT ((LZ77.fragsAll st fs).1.length + dfuel) ⟨st.d, st.ls⟩
          ((LZ77.packAll true st fs).1 ++ tail) =
        (LZ77.decodeFlagT dfuel ⟨(LZ77.fragsAll st fs).2.d,
            (LZ77.fragsAll st fs).2.ls⟩ tail).map
          (fun fs2 => (LZ77.fragsAll st fs).1 ++ fs2) := by
  intro fs
  induction fs with
  | nil =>
      intro st tail dfuel hst hpg
      simp only [LZ77.fragsAll, LZ77.packAll]
      simp only [List.length_nil, List.nil_append, Nat.zero_add]
      cases hdec : LZ77.decodeFlagT dfuel ⟨st.d, st.ls⟩ tail <;> simp
  | cons f fs ih =>
      intro st tail dfuel hst hpg
      obtain ⟨p, l, c⟩ := f
      have hlit : l = 0 → c < 256 := by
        intro h0
        subst h0
        exact ((PackGood_lit st.d p c fs).mp hpg).1
      have href : l ≠ 0 → p < st.d := by
        intro hne
        exact ((PackGood_ref st.d p l c fs hne).mp hpg).2.1
      have hpg2 : PackGood (st.d + max l 1) fs := by
        by_cases h0 : l = 0
        · subst h0
          have := ((PackGood_lit st.d p c fs).mp hpg).2
          simpa using this
        · have hme := (PackGood_ref st.d p l c fs h0).mp hpg
          rw [show max l 1 = l from by omega]
          exact hme.2.2
      simp only [LZ77.fragsAll, LZ77.packAll]
      simp only [List.length_append, List.append_assoc, Nat.add_assoc]
      rw [decodeT_packOne st p l c _ _ hst hlit href]
      rw [packOne_st_eq true st (p, l, c)]
      have hstI := (fragsOne_st st p l c hst).2
      have hdI := (fragsOne_st st p l c hst).1
      rw [ih (LZ77.fragsOne st (p, l, c)).2 tail dfuel hstI (by rw [hdI]; exact hpg2)]
      cases hdec : LZ77.decodeFlagT dfuel
          ⟨(LZ77.fragsAll (LZ77.fragsOne st (p, l, c)).2 fs).2.d,
           (LZ77.fragsAll (LZ77.fragsOne st (p, l, c)).2 fs).2.ls⟩ tail <;> simp

theorem decodeF_packRef :
    ∀ (fuel : Nat) (st : LZ77.PackSt) (p l : Nat) (tail : List Bool) (dfuel : Nat),
      StOK st → 1 ≤ l → l ≤ fuel → p < st.d →
      LZ77.decodeFlagF ((LZ77.refFragsSt fuel st p l).1.length + dfuel) ⟨st.d, st.ls⟩
          ((LZ77.packRef false fuel st p l).1 ++ tail) =
        (LZ77.decodeFlagF dfuel ⟨(LZ77.refFragsSt fuel st p l).2.d,
            (LZ77.refFragsSt fuel st p l).2.ls⟩ tail).map
          (fun fs => (LZ77.refFragsSt fuel st p l).1 ++ fs) := by
  intro fuel
  induction fuel with
  | zero =>
      intro st p l tail dfuel hst hl hfl hp
      exact absurd (hl.trans hfl) (by norm_num)
  | succ fuel ih =>
      intro st p l tail dfuel hst hl hfl hp
      obtain ⟨hml1, hmlt, hls1, hls8⟩ := StOK_facts st hst
      by_cases hml : st.ml < l
      · have hrf : LZ77.refFragsSt (fuel + 1) st p l =
            ((p, st.ml, 0) ::
              (LZ77.refFragsSt fuel (LZ77.bump st st.ml) (p + st.ml) (l - st.ml)).1,
             (LZ77.refFragsSt fuel (LZ77.bump st st.ml) (p + st.ml) (l - st.ml)).2) := by
          simp only [LZ77.refFragsSt]
          rw [if_pos hml]
        have hpk : (LZ77.packRef false (fuel + 1) st p l).1 =
            toBits st.ls u32max ++ (toBits (bits32 st.d) p ++
              (LZ77.packRef false fuel (LZ77.bump st st.ml) (p + st.ml) (l - st.ml)).1) := by
          simp only [LZ77.packRef]
          rw [if_pos hml]
          simp
        rw [hrf, hpk]
        dsimp only
        simp only [List.length_cons, List.append_assoc]
        rw [Nat.add_right_comm _ 1 dfuel]
        simp only [LZ77.decodeFlagF]
        rw [readBits_toBits]
        have hval : u32max % 2 ^ st.ls = st.ml := by
          rw [u32max_mod st.ls (by omega)]
          exact hst.2.symm
        rw [hval]
        dsimp only
        rw [if_neg (by omega)]
        rw [readBits_toBits_lt (bits32 st.d) p _ (hp.trans (bits32_lt st.d))]
        dsimp only
        rw [decBump_eq st st.ml]
        rw [ih (LZ77.bump st st.ml) (p + st.ml) (l - st.ml) tail dfuel
          (StOK_bump st st.ml) (by omega) (by omega) (by rw [bump_d]; omega)]
        cases hdec : LZ77.decodeFlagF dfuel
            ⟨(LZ77.refFragsSt fuel (LZ77.bump st st.ml) (p + st.ml) (l - st.ml)).2.d,
             (LZ77.refFragsSt fuel (LZ77.bump st st.ml) (p + st.ml) (l - st.ml)).2.ls⟩
            tail <;> simp
      · have hrf : LZ77.refFragsSt (fuel + 1) st p l = ([(p, l, 0)], LZ77.bump st l) := by
          simp only [LZ77.refFragsSt]
          rw [if_neg hml]
        have hpk : (LZ77.packRef false (fuel + 1) st p l).1 =
            toBits st.ls l ++ toBits (bits32 st.d) p := by
          simp only [LZ77.packRef]
          rw [if_neg hml]
          simp
        rw [hrf, hpk]
        dsimp only
        simp only [List.length_singleton, List.append_assoc]
        rw [Nat.add_comm 1 dfuel]
        simp only [LZ77.decodeFlagF]
        rw [readBits_toBits_lt st.ls l _ (by omega)]
        dsimp only
        rw [if_neg (by omega)]
        rw [readBits_toBits_lt (bits32 st.d) p _ (hp.trans (bits32_lt st.d))]
        dsimp only
        rw [decBump_eq st l]
        cases hdec : LZ77.decodeFlagF dfuel
            ⟨(LZ77.bump st l).d, (LZ77.bump st l).ls⟩ tail <;> simp

theorem decodeF_packOne (st : LZ77.PackSt) (p l c : Nat) (tail : List Bool) (dfuel : Nat)
    (hst : StOK st) (hlit : l = 0 → c < 256) (href : l ≠ 0 → p < st.d) :
    LZ77.decodeFlagF ((LZ77.fragsOne st (p, l, c)).1.length + dfuel) ⟨st.d, st.ls⟩
        ((LZ77.packOne false st (p, l, c)).1 ++ tail) =
      (LZ77.decodeFlagF dfuel ⟨(LZ77.fragsOne st (p, l, c)).2.d,
          (LZ77.fragsOne st (p, l, c)).2.ls⟩ tail).map
        (fun fs => (LZ77.fragsOne st (p, l, c)).1 ++ fs) := by
  by_cases hl : l = 0
  · subst hl
    have h1 : LZ77.fragsOne st (p, 0, c) = ([(0, 0, c)], LZ77.bump st 1) := rfl
    have h2 : (LZ77.packOne false st (p, 0, c)).1 = toBits st.ls 0 ++ toBits 8 c := rfl
    rw [h1, h2]
    dsimp only
    simp only [List.length_singleton, List.append_assoc]
    rw [Nat.add_comm 1 dfuel]
    simp only [LZ77.decodeFlagF]
    rw [readBits_toBits_lt st.ls 0 _ (by positivity)]
    dsimp only
    first
    | rw [if_true]
    | rw [if_pos rfl]
    rw [readBits_toBits_lt 8 c _ (lt_of_lt_of_le (hlit rfl) (by norm_num))]
    dsimp only
    rw [decBump_eq st 1]
    cases hdec : LZ77.decodeFlagF dfuel
        ⟨(LZ77.bump st 1).d, (LZ77.bump st 1).ls⟩ tail <;> simp
  · have h1 : LZ77.fragsOne st (p, l, c) = LZ77.refFragsSt l st p l := by
      simp only [LZ77.fragsOne]
      rw [if_neg hl]
    have h2 : LZ77.packOne false st (p, l, c) = LZ77.packRef false l st p l := by
      simp only [LZ77.packOne]
      rw [if_neg hl]
    rw [h1, h2]
    exact decodeF_packRef l st p l tail dfuel hst (by omega) le_rfl (href hl)

theorem decodeF_packAll :
    ∀ (fs : List (Nat × Nat × Nat)) (st : LZ77.PackSt) (tail : List Bool) (dfuel : Nat),
      StOK st → PackGood st.d fs →
      LZ77.decodeFlagF ((LZ77.fragsAll st fs).1.length + dfuel) ⟨st.d, st.ls⟩
          ((LZ77.packAll false st fs).1 ++ tail) =
        (LZ77.decodeFlagF dfuel ⟨(LZ77.fragsAll st fs).2.d,
            (LZ77.fragsAll st fs).2.ls⟩ tail).map
          (fun fs2 => (LZ77.fragsAll st fs).1 ++ fs2) := by
  intro fs
  induction fs with
  | nil =>
      intro st tail dfuel hst hpg
      simp only [LZ77.fragsAll, LZ77.packAll]
      simp only [List.length_nil, List.nil_append, Nat.zero_add]
      cases hdec : LZ77.decodeFlagF dfuel ⟨st.d, st.ls⟩ tail <;> simp
  | cons f fs ih =>
      intro st tail dfuel hst hpg
      obtain ⟨p, l, c⟩ := f
      have hlit : l = 0 → c < 256 := by
        intro h0
        subst h0
        exact ((PackGood_lit st.d p c fs).mp hpg).1
      have href : l ≠ 0 → p < st.d := by
        intro hne
        exact ((PackGood_ref st.d p l c fs hne).mp hpg).2.1
      have hpg2 : PackGood (st.d + max l 1) fs := by
        by_cases h0 : l = 0
        · subst h0
          have := ((PackGood_lit st.d p c fs).mp hpg).2
          simpa using this
        · have hme := (PackGood_ref st.d p l c fs h0).mp hpg
          rw [show max l 1 = l from by omega]
          exact hme.2.2
      simp only [LZ77.fragsAll, LZ77.packAll]
      simp only [List.length_append, List.append_assoc, Nat.add_assoc]
      rw [decodeF_packOne st p l c _ _ hst hlit href]
      rw [packOne_st_eq false st (p, l, c)]
      have hstI := (fragsOne_st st p l c hst).2
      have hdI := (fragsOne_st st p l c hst).1
      rw [ih (LZ77.fragsOne st (p, l, c)).2 tail dfuel hstI (by rw [hdI]; exact hpg2)]
      cases hdec : LZ77.decodeFlagF dfuel
          ⟨(LZ77.fragsAll (LZ77.fragsOne st (p, l, c)).2 fs).2.d,
           (LZ77.fragsAll (LZ77.fragsOne st (p, l, c)).2 fs).2.ls⟩ tail <;> simp

theorem decodeChunkBits_fast_encodeWith (x : List Nat) (hn : x.length < u32max)
    (hx : ∀ b ∈ x, b < 256) (flag : Bool) :
    LZ77.decodeChunkBits (LZ77.fast_encodeWith flag x) = some x := by
  have hstI : StOK ⟨0, 1, 1⟩ := ⟨rfl, rfl⟩
  have hgood := factorsOf_good x hn
  have hpg : PackGood ((⟨0, 1, 1⟩ : LZ77.PackSt).d) (LZ77.factorsOf x) :=
    Good_to_PackGood x hx (LZ77.factorsOf x) 0 hgood
  have hfr := fragsAll_good x (LZ77.factorsOf x) ⟨0, 1, 1⟩ 0 hstI rfl hgood
  have hdc : LZ77.decode_chunk (LZ77.fragsAll ⟨0, 1, 1⟩ (LZ77.factorsOf x)).1 = some x :=
    decode_chunk_good x _ hfr
  have hst2 := fragsAll_st (LZ77.factorsOf x) ⟨0, 1, 1⟩ hstI
  have hstate : (⟨(⟨0, 1, 1⟩ : LZ77.PackSt).d, (⟨0, 1, 1⟩ : LZ77.PackSt).ls⟩ : LZ77.DecSt) =
      ⟨0, 1⟩ := rfl
  cases flag with
  | true =>
      show LZ77.decodeChunkBits
        (true :: (LZ77.packAll true ⟨0, 1, 1⟩ (LZ77.factorsOf x)).1) = some x
      simp only [LZ77.decodeChunkBits]
      have hmain := decodeT_packAll (LZ77.factorsOf x) ⟨0, 1, 1⟩ []
        ((LZ77.packAll true ⟨0, 1, 1⟩ (LZ77.factorsOf x)).1.length + 1) hstI hpg
      rw [List.append_nil, hstate] at hmain
      have hend : LZ77.decodeFlagT
          ((LZ77.packAll true ⟨0, 1, 1⟩ (LZ77.factorsOf x)).1.length + 1)
          ⟨(LZ77.fragsAll ⟨0, 1, 1⟩ (LZ77.factorsOf x)).2.d,
           (LZ77.fragsAll ⟨0, 1, 1⟩ (LZ77.factorsOf x)).2.ls⟩ [] = some [] := rfl
      rw [hend] at hmain
      have hfuel := decodeFlagT_fuelEq
        (LZ77.packAll true ⟨0, 1, 1⟩ (LZ77.factorsOf x)).1.length
        (LZ77.packAll true ⟨0, 1, 1⟩ (LZ77.factorsOf x)).1 le_rfl
        ((LZ77.packAll true ⟨0, 1, 1⟩ (LZ77.factorsOf x)).1.length + 1)
        ((LZ77.fragsAll ⟨0, 1, 1⟩ (LZ77.factorsOf x)).1.length +
          ((LZ77.packAll true ⟨0, 1, 1⟩ (LZ77.factorsOf x)).1.length + 1))
        ⟨0, 1⟩ (by omega) (by omega)
      first
      | rw [if_true]
      | rw [if_pos rfl]
      rw [hfuel, hmain]
      simp only [Option.map_some', List.append_nil]
      exact hdc
  | false =>
      show LZ77.decodeChunkBits
        (false :: (LZ77.packAll false ⟨0, 1, 1⟩ (LZ77.factorsOf x)).1) = some x
      simp only [LZ77.decodeChunkBits]
      have hmain := decodeF_packAll (LZ77.factorsOf x) ⟨0, 1, 1⟩ []
        ((LZ77.packAll false ⟨0, 1, 1⟩ (LZ77.factorsOf x)).1.length + 1) hstI hpg
      rw [List.append_nil, hstate] at hmain
      have hls2 : 1 ≤ (LZ77.fragsAll ⟨0, 1, 1⟩ (LZ77.factorsOf x)).2.ls :=
        (StOK_facts _ hst2).2.2.1
      have hend : LZ77.decodeFlagF
          ((LZ77.packAll false ⟨0, 1, 1⟩ (LZ77.factorsOf x)).1.length + 1)
          ⟨(LZ77.fragsAll ⟨0, 1, 1⟩ (LZ77.factorsOf x)).2.d,
           (LZ77.fragsAll ⟨0, 1, 1⟩ (LZ77.factorsOf x)).2.ls⟩ [] = some [] := by
        simp only [LZ77.decodeFlagF]
        rw [readBits_nil _ hls2]
      rw [hend] at hmain
      have hfuel := decodeFlagF_fuelEq
        (LZ77.packAll false ⟨0, 1, 1⟩ (LZ77.factorsOf x)).1.length
        (LZ77.packAll false ⟨0, 1, 1⟩ (LZ77.factorsOf x)).1 le_rfl
        ((LZ77.packAll false ⟨0, 1, 1⟩ (LZ77.factorsOf x)).1.length + 1)
        ((LZ77.fragsAll ⟨0, 1, 1⟩ (LZ77.factorsOf x)).1.length +
          ((LZ77.packAll false ⟨0, 1, 1⟩ (LZ77.factorsOf x)).1.length + 1))
        ⟨0, 1⟩ (by omega) (by omega)
      first
      | rw [if_false]
      | rw [if_neg (by simp)]
      rw [hfuel, hmain]
      simp only [Option.map_some', List.append_nil]
      exact hdc

theorem seqChunks_cons (o : Option (List Nat)) (os : List (Option (List Nat))) :
    seqChunks (o :: os) = match o, seqChunks os with
      | some a, some b => some (a ++ b)
      | _, _ => none := rfl

theorem seqChunks_map (f : List Nat → Option (List Nat)) :
    ∀ (cs : List (List Nat)), (∀ c ∈ cs, f c = some c) →
      seqChunks (cs.map f) = some cs.flatten := by
  intro cs
  induction cs with
  | nil => intro h; rfl
  | cons c cs ih =>
      intro h
      simp only [List.map_cons]
      rw [seqChunks_cons, h c (by simp), ih (fun d hd => h d (by simp [hd]))]
      rfl

theorem lz_roundtrip_with (mode : List Nat → Bool) (input : List Nat) (bits : Nat)
    (h8 : 8 ≤ bits) (h31 : bits ≤ 31) (hb : ∀ b ∈ input, b < 256) :
    LZ77.decode (LZ77.encodeWith mode input bits) = some input := by
  have hsz : 1 ≤ 2 ^ bits - 2 := by
    have := pow_bits_big bits h8
    omega
  have hchunks := lz_chunks_eq input bits hsz
  simp only [LZ77.decode, LZ77.encodeWith, hchunks, List.map_map]
  have hsize31 : 2 ^ bits - 2 < u32max := by
    have hble : 2 ^ bits ≤ 2 ^ 31 := Nat.pow_le_pow_right (by norm_num) h31
    have h31lt : (2 : Nat) ^ 31 < 2 ^ 32 - 1 := by norm_num
    simp only [u32max]
    omega
  have hmem : ∀ c ∈ chunksOf (2 ^ bits - 2) input,
      (LZ77.decodeChunkBits ∘ fun c => LZ77.fast_encodeWith (mode c) c) c = some c := by
    intro c hc
    have hlen := (chunksOfAux_mem (2 ^ bits - 2) hsz input.length input c hc).1
    have hcb : ∀ b ∈ c, b < 256 := by
      intro b hbmem
      refine hb b ?_
      rw [← chunksOf_flatten (2 ^ bits - 2) hsz input]
      exact List.mem_flatten.mpr ⟨c, hc, hbmem⟩
    exact decodeChunkBits_fast_encodeWith c (by omega) hcb (mode c)
  rw [seqChunks_map (LZ77.decodeChunkBits ∘ fun c => LZ77.fast_encodeWith (mode c) c)
    (chunksOf (2 ^ bits - 2) input) hmem,
    chunksOf_flatten (2 ^ bits - 2) hsz input]

/-- C1: for every byte sequence and every chunk-size exponent bits in [8, 31],
LZ77 decode of LZ77 encode returns exactly the input, under any per-chunk flag
mode (both the literal-heavy and reference-heavy layouts) and in particular for
the actual mode chooser of fast_encode. -/
theorem c1_roundtrip (mode : List Nat → Bool) (input : List Nat) (bits : Nat)
    (h8 : 8 ≤ bits) (h31 : bits ≤ 31) (hb : ∀ b ∈ input, b < 256) :
    LZ77.decode (LZ77.encodeWith mode input bits) = some input ∧
    LZ77.decode (LZ77.encode input bits) = some input :=
  ⟨lz_roundtrip_with mode input bits h8 h31 hb,
   lz_roundtrip_with LZ77.chooseFlag input bits h8 h31 hb⟩

/-- Witness for c1_roundtrip: the input [10, 20, 10, 20] at bits = 8 with the
always-reference-heavy flag mode. -/
theorem c1_witness :
    LZ77.decode (LZ77.encodeWith (fun _ => false) [10, 20, 10, 20] 8) =
        some [10, 20, 10, 20] ∧
      LZ77.decode (LZ77.encode [10, 20, 10, 20] 8) = some [10, 20, 10, 20] :=
  c1_roundtrip (fun _ => false) [10, 20, 10, 20] 8 (by decide) (by decide) (by decide)

theorem chunksOf_length {α : Type} (size : Nat) (hs : 1 ≤ size) (l : List α) :
    (chunksOf size l).length =
      l.length / size + (if l.length % size = 0 then 0 else 1) := by
  rw [← sliceChunks_eq size hs l, List.length_map, List.length_range]

/-- C10: every Huffman record produced by encrypt is well formed: unused_bits
lies in [0, 7], unused_bits is 0 when the payload is empty, the total number
of code bits written plus unused_bits is exactly 8 times the payload byte
count, and therefore the bit-count subtraction of decrypt never
underflows. -/
theorem c10_wellformed (input : List Nat) :
    (Huffman.encrypt input).unused_bits ≤ 7 ∧
    ((Huffman.encrypt input).data = [] → (Huffman.encrypt input).unused_bits = 0) ∧
    ((input.map (fun c =>
        (HuffmanTree.build_map (HuffmanTree.build_tree input)).getD c [])).flatten).length +
      (Huffman.encrypt input).unused_bits = 8 * (Huffman.encrypt input).data.length ∧
    (Huffman.encrypt input).unused_bits ≤ 8 * (Huffman.encrypt input).data.length := by
  simp only [Huffman.encrypt, bytesOfBits]
  set bits := (input.map (fun c =>
    (HuffmanTree.build_map (HuffmanTree.build_tree input)).getD c [])).flatten with hbits
  have hlen : ((chunksOf 8 bits).map ofBitsLSB).length =
      bits.length / 8 + (if bits.length % 8 = 0 then 0 else 1) := by
    rw [List.length_map, chunksOf_length 8 (by norm_num) bits]
  have hdm := Nat.div_add_mod bits.length 8
  by_cases hmod : bits.length % 8 = 0
  · rw [if_pos hmod] at hlen
    rw [hmod]
    refine ⟨?_, fun _ => ?_, ?_, ?_⟩
    · show (0 : Nat) ≤ 7
      omega
    · show (0 : Nat) = 0
      rfl
    · rw [hlen]
      show bits.length + 0 = 8 * (bits.length / 8 + 0)
      omega
    · rw [hlen]
      show (0 : Nat) ≤ 8 * (bits.length / 8 + 0)
      omega
  · rw [if_neg hmod] at hlen
    obtain ⟨m, hm⟩ : ∃ m, bits.length % 8 = m + 1 := ⟨bits.length % 8 - 1, by omega⟩
    rw [hm]
    refine ⟨?_, ?_, ?_, ?_⟩
    · show 8 - (m + 1) ≤ 7
      omega
    · intro hd
      exfalso
      rw [List.map_eq_nil] at hd
      have hfl := chunksOf_flatten 8 (by norm_num) bits
      rw [hd] at hfl
      rw [← hfl] at hm
      simp at hm
    · rw [hlen]
      show bits.length + (8 - (m + 1)) = 8 * (bits.length / 8 + 1)
      omega
    · rw [hlen]
      show 8 - (m + 1) ≤ 8 * (bits.length / 8 + 1)
      omega

theorem nodup_getD_ne (sa : List Nat) (hnd : sa.Nodup) (a b : Nat)
    (ha : a < sa.length) (hb : b < sa.length) (hne : a ≠ b) :
    sa.getD a 0 ≠ sa.getD b 0 := by
  rw [getD_eq_getElem _ _ _ ha, getD_eq_getElem _ _ _ hb]
  intro he
  have hinj := List.nodup_iff_injective_get.mp hnd
  have hfin : (⟨a, ha⟩ : Fin sa.length) = ⟨b, hb⟩ := hinj he
  exact hne (congrArg Fin.val hfin)

theorem getD_map_of_lt (f : Nat → Nat) (l : List Nat) (t : Nat) (h : t < l.length) (d : Nat) :
    (l.map f).getD t d = f (l.getD t d) := by
  rw [List.getD_eq_getElem?_getD, List.getElem?_map, List.getElem?_eq_getElem h]
  rw [getD_eq_getElem l t d h]
  rfl

theorem chainWalk_inv (sa : List Nat) (n i : Nat) (hsal : sa.length = n + 1)
    (hnd : sa.Nodup) (hi1 : 1 ≤ i) (hin : i < n) (hnu : n < u32max) :
    ∀ (fuel j : Nat) (psvArr nsv : List Nat),
      j < fuel → j < i →
      psvArr.getD 0 0 = u32max →
      (∀ t, 1 ≤ t → t < i →
        psvArr.getD t 0 < t ∧
        (psvArr.getD t 0 = 0 ∨ sa.getD (psvArr.getD t 0) 0 < sa.getD t 0) ∧
        (∀ u, psvArr.getD t 0 < u → u < t → ¬ sa.getD u 0 < sa.getD t 0)) →
      (j = 0 ∨ (1 ≤ j ∧ ∀ u, j < u → u < i → ¬ sa.getD u 0 < sa.getD j 0)) →
      (∀ u, j < u → u < i → ¬ sa.getD u 0 < sa.getD i 0) →
      (∀ t, j < t → t < i →
        (∀ u, t < u → u < i → ¬ sa.getD u 0 < sa.getD t 0) → nsv.getD t 0 ≠ 0) →
      nsv.length = n + 1 →
      ((LZ77.chainWalk sa i fuel j psvArr nsv).1 ≤ j ∧
       ((LZ77.chainWalk sa i fuel j psvArr nsv).1 = 0 ∨
         sa.getD (LZ77.chainWalk sa i fuel j psvArr nsv).1 0 < sa.getD i 0) ∧
       (∀ u, (LZ77.chainWalk sa i fuel j psvArr nsv).1 < u → u < i →
         ¬ sa.getD u 0 < sa.getD i 0) ∧
       (∀ t, t < n + 1 →
         (LZ77.chainWalk sa i fuel j psvArr nsv).2.getD t 0 = nsv.getD t 0 ∨
         ((LZ77.chainWalk sa i fuel j psvArr nsv).2.getD t 0 = i ∧ 1 ≤ t ∧ t < i ∧
           sa.getD i 0 < sa.getD t 0 ∧
           (∀ u, t < u → u < i → ¬ sa.getD u 0 < sa.getD t 0))) ∧
       (∀ t, 1 ≤ t → t < i →
         (∀ u, t < u → u < i → ¬ sa.getD u 0 < sa.getD t 0) →
         (LZ77.chainWalk sa i fuel j psvArr nsv).2.getD t 0 = 0 →
           ¬ sa.getD i 0 < sa.getD t 0) ∧
       (LZ77.chainWalk sa i fuel j psvArr nsv).2.length = nsv.length) := by
  intro fuel
  induction fuel with
  | zero => intro j psvArr nsv hf; omega
  | succ fuel ih =>
      intro j psvArr nsv hf hji hP0 hP1 hstack hacc hvis hnl
      simp only [LZ77.chainWalk]
      by_cases hc : psvArr.getD j 0 ≠ u32max ∧ sa.getD i 0 < sa.getD j 0
      · rw [if_pos hc]
        obtain ⟨hcM, hcLt⟩ := hc
        have hj1 : 1 ≤ j := by
          by_contra hj0
          have hj00 : j = 0 := by omega
          subst hj00
          exact hcM hP0
        have hPj := hP1 j hj1 hji
        obtain ⟨hPj1, hPj2, hPj3⟩ := hPj
        have hstk : ∀ u, j < u → u < i → ¬ sa.getD u 0 < sa.getD j 0 := by
          rcases hstack with h0 | h
          · omega
          · exact h.2
        have hrec := ih (psvArr.getD j 0) psvArr (nsv.set j i)
          (by omega) (by omega) hP0 hP1
          ?_ ?_ ?_ (by rw [List.length_set]; exact hnl)
        · refine ⟨by omega, hrec.2.1, hrec.2.2.1, ?_, hrec.2.2.2.2.1, ?_⟩
          · intro t ht
            rcases hrec.2.2.2.1 t ht with heq | hpop
            · by_cases htj : t = j
              · subst htj
                right
                rw [heq, getD_set_self nsv t i 0 (by omega)]
                exact ⟨rfl, hj1, hji, hcLt, hstk⟩
              · left
                rw [heq, getD_set_ne nsv j t i 0 (fun he => htj he.symm)]
            · right
              exact hpop
          · rw [hrec.2.2.2.2.2, List.length_set]
        · by_cases hz : psvArr.getD j 0 = 0
          · exact Or.inl hz
          · right
            have hlt : sa.getD (psvArr.getD j 0) 0 < sa.getD j 0 := by
              rcases hPj2 with h0 | hlt
              · exact absurd h0 hz
              · exact hlt
            refine ⟨by omega, ?_⟩
            intro u hu1 hu2
            by_cases huj : u < j
            · have := hPj3 u hu1 huj
              omega
            · by_cases huj2 : u = j
              · subst huj2
                omega
              · have := hstk u (by omega) hu2
                omega
        · intro u hu1 hu2
          by_cases huj : u < j
          · have := hPj3 u hu1 huj
            omega
          · by_cases huj2 : u = j
            · subst huj2
              omega
            · exact hacc u (by omega) hu2
        · intro t ht1 ht2 htstk
          by_cases htj : t = j
          · subst htj
            rw [getD_set_self nsv t i 0 (by omega)]
            omega
          · by_cases htjlt : t < j
            · exfalso
              have h1 := htstk j (by omega) hji
              have h2 := hPj3 t ht1 htjlt
              have hne := nodup_getD_ne sa hnd t j (by omega) (by omega) htj
              omega
            · rw [getD_set_ne nsv j t i 0 (fun he => htj he.symm)]
              exact hvis t (by omega) ht2 htstk
      · rw [if_neg hc]
        push_neg at hc
        have hstop : j = 0 ∨ sa.getD j 0 < sa.getD i 0 := by
          by_cases hM : psvArr.getD j 0 = u32max
          · left
            by_contra hj0
            have hj1 : 1 ≤ j := by omega
            have hlt := (hP1 j hj1 hji).1
            omega
          · right
            have hcmp := hc hM
            have hne := nodup_getD_ne sa hnd i j (by omega) (by omega) (by omega)
            omega
        refine ⟨le_rfl, ?_, hacc, fun t _ => Or.inl rfl, ?_, rfl⟩
        · rcases hstop with h0 | hlt
          · exact Or.inl h0
          · exact Or.inr hlt
        · intro t ht1 ht2 htstk hzero
          by_cases htj : t = j
          · subst htj
            rcases hstop with h0 | hlt
            · omega
            · have hne := nodup_getD_ne sa hnd i t (by omega) (by omega) (by omega)
              omega
          · by_cases htjlt : t < j
            · have h1 := htstk j (by omega) hji
              have hne := nodup_getD_ne sa hnd t j (by omega) (by omega) htj
              rcases hstop with h0 | hlt
              · omega
              · have hne2 := nodup_getD_ne sa hnd i t (by omega) (by omega) (by omega)
                omega
            · exfalso
              exact hvis t (by omega) ht2 htstk hzero

theorem sweep_inv (sa : List Nat) (n : Nat) (hsal : sa.length = n + 1) (hnd : sa.Nodup)
    (hnu : n < u32max) :
    ∀ (fuel i : Nat) (psvArr nsv : List Nat),
      i + fuel = n + 1 → 1 ≤ i → i ≤ n →
      psvArr.length = n + 1 → nsv.length = n + 1 →
      psvArr.getD 0 0 = u32max →
      (∀ t, 1 ≤ t → t < i →
        psvArr.getD t 0 < t ∧
        (psvArr.getD t 0 = 0 ∨ sa.getD (psvArr.getD t 0) 0 < sa.getD t 0) ∧
        (∀ u, psvArr.getD t 0 < u → u < t → ¬ sa.getD u 0 < sa.getD t 0)) →
      (∀ t, i ≤ t → t ≤ n → psvArr.getD t 0 = u32max) →
      (∀ t, 1 ≤ t → t < i →
        (nsv.getD t 0 = 0 ∧ ∀ u, t < u → u < i → ¬ sa.getD u 0 < sa.getD t 0) ∨
        (t < nsv.getD t 0 ∧ nsv.getD t 0 < i ∧
          sa.getD (nsv.getD t 0) 0 < sa.getD t 0)) →
      (∀ t, t < n + 1 → (i ≤ t ∨ t = 0) → nsv.getD t 0 = 0) →
      ((∀ t, 1 ≤ t → t < n →
         (LZ77.sweep sa n fuel i psvArr nsv).1.getD t 0 < t ∧
         ((LZ77.sweep sa n fuel i psvArr nsv).1.getD t 0 = 0 ∨
           sa.getD ((LZ77.sweep sa n fuel i psvArr nsv).1.getD t 0) 0 < sa.getD t 0) ∧
         (∀ u, (LZ77.sweep sa n fuel i psvArr nsv).1.getD t 0 < u → u < t →
           ¬ sa.getD u 0 < sa.getD t 0)) ∧
       (LZ77.sweep sa n fuel i psvArr nsv).1.getD 0 0 = u32max ∧
       (LZ77.sweep sa n fuel i psvArr nsv).1.getD n 0 = u32max ∧
       (∀ t, 1 ≤ t → t < n →
         ((LZ77.sweep sa n fuel i psvArr nsv).2.getD t 0 = 0 ∧
           ∀ u, t < u → u < n → ¬ sa.getD u 0 < sa.getD t 0) ∨
         (t < (LZ77.sweep sa n fuel i psvArr nsv).2.getD t 0 ∧
           (LZ77.sweep sa n fuel i psvArr nsv).2.getD t 0 < n ∧
           sa.getD ((LZ77.sweep sa n fuel i psvArr nsv).2.getD t 0) 0 < sa.getD t 0)) ∧
       (LZ77.sweep sa n fuel i psvArr nsv).2.getD 0 0 = 0 ∧
       (LZ77.sweep sa n fuel i psvArr nsv).2.getD n 0 = 0) := by
  intro fuel
  induction fuel with
  | zero => intro i psvArr nsv hif; omega
  | succ fuel ih =>
      intro i psvArr nsv hif hi1 hin hpl hnl hP0 hP1 hP2 hN1 hN2
      simp only [LZ77.sweep]
      by_cases hiln : i < n
      · rw [if_pos hiln]
        have hW := chainWalk_inv sa n i hsal hnd hi1 hiln hnu i (i - 1) psvArr nsv
          (by omega) (by omega) hP0 hP1
          (by
            by_cases h1 : i = 1
            · left; omega
            · right; exact ⟨by omega, fun u hu1 hu2 => by omega⟩)
          (fun u hu1 hu2 => by omega)
          (fun t ht1 ht2 _ => by omega)
          hnl
        obtain ⟨hW1, hW2, hW3, hW4, hW5, hW6⟩ := hW
        have hrec := ih (i + 1)
          (psvArr.set i (LZ77.chainWalk sa i i (i - 1) psvArr nsv).1)
          (LZ77.chainWalk sa i i (i - 1) psvArr nsv).2
          (by omega) (by omega) (by omega)
          (by rw [List.length_set]; exact hpl)
          (by rw [hW6]; exact hnl)
          (by rw [getD_set_ne psvArr i 0 _ 0 (by omega)]; exact hP0)
          ?_ ?_ ?_ ?_
        · exact hrec
        · intro t ht1 ht2
          by_cases hti : t = i
          · subst hti
            rw [getD_set_self psvArr t _ 0 (by omega)]
            exact ⟨by omega, hW2, hW3⟩
          · rw [getD_set_ne psvArr i t _ 0 (fun he => hti he.symm)]
            exact hP1 t ht1 (by omega)
        · intro t ht1 ht2
          rw [getD_set_ne psvArr i t _ 0 (by omega)]
          exact hP2 t (by omega) ht2
        · intro t ht1 ht2
          by_cases hti : t = i
          · subst hti
            have := hW4 t (by omega)
            rcases this with heq | hpop
            · left
              rw [heq, hN2 t (by omega) (Or.inl le_rfl)]
              exact ⟨rfl, fun u hu1 hu2 => by omega⟩
            · omega
          · have ht2i : t < i := by omega
            rcases hW4 t (by omega) with heq | hpop
            · rcases hN1 t ht1 ht2i with ⟨hz, hstk⟩ | hnz
              · left
                rw [heq, hz]
                refine ⟨rfl, ?_⟩
                intro u hu1 hu2
                by_cases hui : u = i
                · subst hui
                  exact hW5 t ht1 ht2i hstk (by rw [heq]; exact hz)
                · exact hstk u hu1 (by omega)
              · right
                rw [heq]
                exact ⟨hnz.1, by omega, hnz.2.2⟩
            · right
              rw [hpop.1]
              exact ⟨by omega, by omega, hpop.2.2.2.1⟩
        · intro t ht1 ht2
          rcases hW4 t ht1 with heq | hpop
          · rw [heq]
            exact hN2 t ht1 (by omega)
          · omega
      · rw [if_neg hiln]
        have hieq : i = n := by omega
        subst hieq
        refine ⟨fun t ht1 ht2 => hP1 t ht1 ht2, hP0, hP2 i le_rfl le_rfl, ?_,
          hN2 0 (by omega) (Or.inr rfl), hN2 i (by omega) (Or.inl le_rfl)⟩
        intro t ht1 ht2
        rcases hN1 t ht1 ht2 with ⟨hz, hstk⟩ | hnz
        · exact Or.inl ⟨hz, hstk⟩
        · exact Or.inr hnz

/-- Claim C4 as stated is false: on the chunk [0, 1] the suffix array is
[2, 0, 1] and the sweep yields psv = [0, 0, 0], nsv = [0, 0, 0] (folded);
at suffix-array position 2 the PSV clause fails (psv is 0 but position 1
holds the strictly smaller SA value 0 < 1), because the sweep loop runs
only for i in 1..n and never serves position n; and at position 0 the NSV
clause fails (nsv is 0 but position 1 holds SA value 0 < 2), because
position 0 is never popped: its psv entry is the u32::MAX guard. -/
theorem c4_counterexample :
    SuffixArray.new [0, 1] = [2, 0, 1] ∧
    (LZ77.psv_nsv (SuffixArray.new [0, 1]) 2).1 = [0, 0, 0] ∧
    (LZ77.psv_nsv (SuffixArray.new [0, 1]) 2).2 = [0, 0, 0] ∧
    ¬ ((SuffixArray.new [0, 1]).getD
          ((LZ77.psv_nsv (SuffixArray.new [0, 1]) 2).1.getD 2 0) 0 <
        (SuffixArray.new [0, 1]).getD 2 0 ∨
       ((LZ77.psv_nsv (SuffixArray.new [0, 1]) 2).1.getD 2 0 = 0 ∧
        ∀ j, j < 2 →
          ¬ (SuffixArray.new [0, 1]).getD j 0 < (SuffixArray.new [0, 1]).getD 2 0)) ∧
    ¬ ((SuffixArray.new [0, 1]).getD
          ((LZ77.psv_nsv (SuffixArray.new [0, 1]) 2).2.getD 0 0) 0 <
        (SuffixArray.new [0, 1]).getD 0 0 ∨
       ((LZ77.psv_nsv (SuffixArray.new [0, 1]) 2).2.getD 0 0 = 0 ∧
        ∀ j, j < 3 → 0 < j →
          ¬ (SuffixArray.new [0, 1]).getD j 0 < (SuffixArray.new [0, 1]).getD 0 0)) := by
  refine ⟨by decide, by decide, by decide, by decide, by decide⟩

/-- C4 amended: the invariant holds away from the positions the sweep
never serves.  For every suffix-array position i < n (so excluding the
last position n, which the loop over 1..n never assigns), SA[PSV[i]] <
SA[i] or PSV[i] = 0 with no position j < i holding a smaller SA value; and
for every position j with 1 <= j <= n (so excluding position 0, which is
never popped because its psv entry is the u32::MAX guard), SA[NSV[j]] <
SA[j] or NSV[j] = 0 with no position i, j < i < n, holding a smaller SA
value (a smaller value at the unserved position n itself does not get
recorded). -/
theorem c4_amended (x : List Nat) (hn : x.length < u32max) :
    (∀ i, i < x.length →
      ((SuffixArray.new x).getD
          ((LZ77.psv_nsv (SuffixArray.new x) x.length).1.getD i 0) 0 <
        (SuffixArray.new x).getD i 0 ∨
       ((LZ77.psv_nsv (SuffixArray.new x) x.length).1.getD i 0 = 0 ∧
        ∀ j, j < i →
          ¬ (SuffixArray.new x).getD j 0 < (SuffixArray.new x).getD i 0))) ∧
    (∀ j, 1 ≤ j → j ≤ x.length →
      ((SuffixArray.new x).getD
          ((LZ77.psv_nsv (SuffixArray.new x) x.length).2.getD j 0) 0 <
        (SuffixArray.new x).getD j 0 ∨
       ((LZ77.psv_nsv (SuffixArray.new x) x.length).2.getD j 0 = 0 ∧
        ∀ i, j < i → i < x.length →
          ¬ (SuffixArray.new x).getD i 0 < (SuffixArray.new x).getD j 0))) := by
  by_cases hn0 : x.length = 0
  · constructor
    · intro i hi
      omega
    · intro j hj1 hj2
      omega
  · have hn1 : 1 ≤ x.length := by omega
    have hsal := sa_length x
    have hnd := sa_nodup x
    have hvals : ∀ t, t < x.length + 1 →
        (SuffixArray.new x).getD t 0 < x.length + 1 := by
      intro t ht
      rw [getD_eq_getElem _ _ _ (by omega)]
      exact (sa_mem x _).mp (List.getElem_mem (by omega))
    have hhead := sa_head x
    have hR := sweep_inv (SuffixArray.new x) x.length hsal hnd hn x.length 1
      (List.replicate (x.length + 1) u32max) (List.replicate (x.length + 1) 0)
      (by omega) le_rfl hn1 (by simp) (by simp)
      (getD_replicate (x.length + 1) 0 u32max 0 (by omega))
      (fun t ht1 ht2 => by omega)
      (fun t ht1 ht2 => getD_replicate (x.length + 1) t u32max 0 (by omega))
      (fun t ht1 ht2 => by omega)
      (fun t ht1 _ => getD_replicate (x.length + 1) t 0 0 ht1)
    obtain ⟨hR1, hR2, hR3, hR4, hR5, hR6⟩ := hR
    have hlenP : (LZ77.sweep (SuffixArray.new x) x.length x.length 1
        (List.replicate (x.length + 1) u32max)
        (List.replicate (x.length + 1) 0)).1.length = x.length + 1 := by
      rw [sweep_psv_length]
      simp
    have hfold : ∀ t, t < x.length + 1 →
        (LZ77.psv_nsv (SuffixArray.new x) x.length).1.getD t 0 =
          (if (LZ77.sweep (SuffixArray.new x) x.length x.length 1
              (List.replicate (x.length + 1) u32max)
              (List.replicate (x.length + 1) 0)).1.getD t 0 = u32max then 0
           else (LZ77.sweep (SuffixArray.new x) x.length x.length 1
              (List.replicate (x.length + 1) u32max)
              (List.replicate (x.length + 1) 0)).1.getD t 0) := by
      intro t ht
      exact getD_map_of_lt _ _ t (by omega) 0
    constructor
    · intro i hi
      by_cases hi0 : i = 0
      · subst hi0
        right
        refine ⟨?_, fun j hj => by omega⟩
        rw [hfold 0 (by omega), hR2, if_pos rfl]
      · have hi1 : 1 ≤ i := by omega
        obtain ⟨hv1, hv2, hv3⟩ := hR1 i hi1 hi
        rw [hfold i (by omega)]
        rw [if_neg (by omega)]
        rcases hv2 with h0 | hlt
        · right
          refine ⟨h0, ?_⟩
          intro j hj
          by_cases hj0 : j = 0
          · subst hj0
            have hne := nodup_getD_ne (SuffixArray.new x) hnd 0 i
              (by omega) (by omega) (by omega)
            have hvi := hvals i (by omega)
            rw [hhead] at hne ⊢
            omega
          · exact hv3 j (by omega) hj
        · left
          exact hlt
    · intro j hj1 hj2
      by_cases hjn : j = x.length
      · subst hjn
        right
        show (LZ77.sweep (SuffixArray.new x) x.length x.length 1
            (List.replicate (x.length + 1) u32max)
            (List.replicate (x.length + 1) 0)).2.getD x.length 0 = 0 ∧ _
        refine ⟨hR6, ?_⟩
        intro i hi1 hi2
        omega
      · rcases hR4 j hj1 (by omega) with ⟨hz, hstk⟩ | ⟨hb1, hb2, hlt⟩
        · right
          exact ⟨hz, fun i hi1 hi2 => hstk i hi1 hi2⟩
        · left
          exact hlt

/-- Witness for c4_amended: the chunk [2, 0, 1] at PSV position 2, where
the sweep recorded psv[2] = 1 and SA[1] = 1 < SA[2] = 2. -/
theorem c4_witness :
    (SuffixArray.new [2, 0, 1]).getD
        ((LZ77.psv_nsv (SuffixArray.new [2, 0, 1]) 3).1.getD 2 0) 0 <
      (SuffixArray.new [2, 0, 1]).getD 2 0 ∨
    ((LZ77.psv_nsv (SuffixArray.new [2, 0, 1]) 3).1.getD 2 0 = 0 ∧
     ∀ j, j < 2 →
       ¬ (SuffixArray.new [2, 0, 1]).getD j 0 < (SuffixArray.new [2, 0, 1]).getD 2 0) :=
  (c4_amended [2, 0, 1] (by decide)).1 2 (by decide)

theorem popMin_none_iff (q : List (HuffmanTree × Nat)) :
    HuffmanTree.popMin q = none ↔ q = [] := by
  cases q with
  | nil => simp [HuffmanTree.popMin]
  | cons a rest =>
      simp only [HuffmanTree.popMin]
      cases h : HuffmanTree.popMin rest with
      | none => simp
      | some m =>
          obtain ⟨m1, rest2⟩ := m
          dsimp only
          by_cases hle : a.2 ≤ m1.2
          · rw [if_pos hle]; simp
          · rw [if_neg hle]; simp

theorem popMin_perm :
    ∀ (q : List (HuffmanTree × Nat)) (a : HuffmanTree × Nat)
      (rest : List (HuffmanTree × Nat)),
      HuffmanTree.popMin q = some (a, rest) → List.Perm q (a :: rest) := by
  intro q
  induction q with
  | nil => intro a rest h; simp [HuffmanTree.popMin] at h
  | cons x xs ih =>
      intro a rest h
      simp only [HuffmanTree.popMin] at h
      cases hrec : HuffmanTree.popMin xs with
      | none =>
          rw [hrec] at h
          have hxs : xs = [] := (popMin_none_iff xs).mp hrec
          subst hxs
          simp only [Option.some.injEq, Prod.mk.injEq] at h
          obtain ⟨h1, h2⟩ := h
          subst h1
          subst h2
          exact List.Perm.refl _
      | some mr =>
          obtain ⟨m, rest2⟩ := mr
          rw [hrec] at h
          dsimp only at h
          by_cases hle : x.2 ≤ m.2
          · rw [if_pos hle] at h
            simp only [Option.some.injEq, Prod.mk.injEq] at h
            obtain ⟨h1, h2⟩ := h
            subst h1
            subst h2
            exact List.Perm.refl _
          · rw [if_neg hle] at h
            simp only [Option.some.injEq, Prod.mk.injEq] at h
            obtain ⟨h1, h2⟩ := h
            subst h1
            subst h2
            have hp := ih m rest2 (by rw [hrec])
            exact List.Perm.trans (List.Perm.cons x hp) (List.Perm.swap m x rest2)

theorem mergeRounds_single (fuel : Nat) (t : HuffmanTree) (p : Nat) :
    HuffmanTree.mergeRounds fuel [(t, p)] = t := by
  cases fuel with
  | zero => rfl
  | succ f => rfl

theorem mergeRounds_keys :
    ∀ (fuel : Nat) (q : List (HuffmanTree × Nat)), 1 ≤ q.length → q.length ≤ fuel + 1 →
      List.Perm (HuffmanTree.keys (HuffmanTree.mergeRounds fuel q))
        ((q.map (fun e => HuffmanTree.keys e.1)).flatten) := by
  intro fuel
  induction fuel with
  | zero =>
      intro q h1 h2
      cases q with
      | nil => simp at h1
      | cons a rest =>
          have hr : rest = [] := by
            simp only [List.length_cons] at h2
            exact List.eq_nil_of_length_eq_zero (by omega)
          subst hr
          simp [HuffmanTree.mergeRounds]
  | succ fuel ih =>
      intro q h1 h2
      simp only [HuffmanTree.mergeRounds]
      cases hp1 : HuffmanTree.popMin q with
      | none =>
          rw [popMin_none_iff] at hp1
          subst hp1
          simp at h1
      | some ar =>
          obtain ⟨a, q1⟩ := ar
          have hq1 := popMin_perm q a q1 hp1
          dsimp only
          cases hp2 : HuffmanTree.popMin q1 with
          | none =>
              rw [popMin_none_iff] at hp2
              subst hp2
              dsimp only
              have hmap := (hq1.map (fun e => HuffmanTree.keys e.1)).flatten
              simpa using hmap.symm
          | some br =>
              obtain ⟨b, q2⟩ := br
              have hq2 := popMin_perm q1 b q2 hp2
              dsimp only
              have hlen : q.length = q2.length + 2 := by
                have e1 := hq1.length_eq
                have e2 := hq2.length_eq
                simp only [List.length_cons] at e1 e2
                omega
              have hrec := ih (q2 ++ [(HuffmanTree.node a.1 b.1, a.2 + b.2)])
                (by simp) (by simp; omega)
              refine hrec.trans ?_
              have hql : List.Perm q (a :: b :: q2) :=
                hq1.trans (List.Perm.cons a hq2)
              have hmap := (hql.map (fun e => HuffmanTree.keys e.1)).flatten
              simp only [List.map_cons, List.flatten_cons] at hmap
              simp only [List.map_append, List.flatten_append, List.map_cons,
                List.flatten_cons, List.map_nil, List.flatten_nil, List.append_nil]
              refine List.Perm.trans ?_ hmap.symm
              show List.Perm
                ((q2.map (fun e => HuffmanTree.keys e.1)).flatten ++
                  (HuffmanTree.keys a.1 ++ HuffmanTree.keys b.1))
                (HuffmanTree.keys a.1 ++
                  (HuffmanTree.keys b.1 ++ (q2.map (fun e => HuffmanTree.keys e.1)).flatten))
              refine List.Perm.trans List.perm_append_comm ?_
              rw [List.append_assoc]

theorem mergeRounds_leafLt (m : Nat) :
    ∀ (fuel : Nat) (q : List (HuffmanTree × Nat)),
      (∀ e ∈ q, HuffmanTree.leafLt m e.1) →
      1 ≤ q.length →
      HuffmanTree.leafLt m (HuffmanTree.mergeRounds fuel q) := by
  intro fuel
  induction fuel with
  | zero =>
      intro q hq h1
      cases q with
      | nil => simp at h1
      | cons a rest => exact hq a (by simp)
  | succ fuel ih =>
      intro q hq h1
      simp only [HuffmanTree.mergeRounds]
      cases hp1 : HuffmanTree.popMin q with
      | none =>
          rw [popMin_none_iff] at hp1
          subst hp1
          simp at h1
      | some ar =>
          obtain ⟨a, q1⟩ := ar
          have hq1 := popMin_perm q a q1 hp1
          dsimp only
          cases hp2 : HuffmanTree.popMin q1 with
          | none =>
              dsimp only
              exact hq a (hq1.mem_iff.mpr (by simp))
          | some br =>
              obtain ⟨b, q2⟩ := br
              have hq2 := popMin_perm q1 b q2 hp2
              dsimp only
              have hql : List.Perm q (a :: b :: q2) :=
                hq1.trans (List.Perm.cons a hq2)
              refine ih (q2 ++ [(HuffmanTree.node a.1 b.1, a.2 + b.2)]) ?_ (by simp)
              intro e he
              rw [List.mem_append] at he
              rcases he with he | he
              · exact hq e (hql.mem_iff.mpr (by simp [he]))
              · simp only [List.mem_singleton] at he
                subst he
                exact ⟨hq a (hql.mem_iff.mpr (by simp)),
                  hq b (hql.mem_iff.mpr (by simp))⟩

theorem mergeRounds_isNode :
    ∀ (fuel : Nat) (q : List (HuffmanTree × Nat)), 2 ≤ q.length → q.length ≤ fuel + 1 →
      HuffmanTree.isNode (HuffmanTree.mergeRounds fuel q) := by
  intro fuel
  induction fuel with
  | zero => intro q h1 h2; omega
  | succ fuel ih =>
      intro q h1 h2
      simp only [HuffmanTree.mergeRounds]
      cases hp1 : HuffmanTree.popMin q with
      | none =>
          rw [popMin_none_iff] at hp1
          subst hp1
          simp at h1
      | some ar =>
          obtain ⟨a, q1⟩ := ar
          have hq1 := popMin_perm q a q1 hp1
          have hl1 : q1.length + 1 = q.length := by
            have := hq1.length_eq
            simpa using this.symm
          dsimp only
          cases hp2 : HuffmanTree.popMin q1 with
          | none =>
              rw [popMin_none_iff] at hp2
              subst hp2
              simp at hl1
              omega
          | some br =>
              obtain ⟨b, q2⟩ := br
              have hq2 := popMin_perm q1 b q2 hp2
              have hl2 : q2.length + 1 = q1.length := by
                have := hq2.length_eq
                simpa using this.symm
              dsimp only
              by_cases hq2n : q2 = []
              · subst hq2n
                rw [show ([] ++ [(HuffmanTree.node a.1 b.1, a.2 + b.2)] :
                    List (HuffmanTree × Nat)) =
                  [(HuffmanTree.node a.1 b.1, a.2 + b.2)] from rfl]
                rw [mergeRounds_single]
                trivial
              · refine ih (q2 ++ [(HuffmanTree.node a.1 b.1, a.2 + b.2)]) ?_ (by simp; omega)
                have : 1 ≤ q2.length := by
                  cases q2 with
                  | nil => exact absurd rfl hq2n
                  | cons _ _ => simp
                simp
                omega

theorem flatten_map_singleton {α β : Type} (f : α → β) :
    ∀ (l : List α), ((l.map (fun x => [f x])).flatten) = l.map f := by
  intro l
  induction l with
  | nil => rfl
  | cons a l ih => simp [ih]

theorem from_counts_keys (counts : List Nat) (hc : counts.length = 256) :
    List.Perm (HuffmanTree.keys (HuffmanTree.from_counts counts)) (List.range 256) := by
  simp only [HuffmanTree.from_counts]
  have hql : (counts.enum.map
      (fun p => (HuffmanTree.leaf p.1, p.2))).length = 256 := by
    simp [hc]
  have hperm := mergeRounds_keys
    (counts.enum.map (fun p => (HuffmanTree.leaf p.1, p.2))).length
    (counts.enum.map (fun p => (HuffmanTree.leaf p.1, p.2)))
    (by rw [hql]; omega) (by omega)
  refine hperm.trans ?_
  rw [List.map_map]
  have hmap : ((counts.enum.map
      (fun p => HuffmanTree.keys (HuffmanTree.leaf p.1))).flatten) =
      counts.enum.map (fun p => p.1) := by
    show ((counts.enum.map (fun p => [p.1])).flatten) = _
    exact flatten_map_singleton (fun p => p.1) counts.enum
  rw [show ((fun e : HuffmanTree × Nat => HuffmanTree.keys e.1) ∘
      (fun p : Nat × Nat => (HuffmanTree.leaf p.1, p.2))) =
      (fun p : Nat × Nat => HuffmanTree.keys (HuffmanTree.leaf p.1)) from rfl]
  rw [hmap]
  rw [show (fun p : Nat × Nat => p.1) = (Prod.fst : Nat × Nat → Nat) from rfl]
  rw [List.enum_map_fst, hc]

theorem from_counts_leafLt (counts : List Nat) (hc : 1 ≤ counts.length)
    (hm : counts.length ≤ 256) :
    HuffmanTree.leafLt 256 (HuffmanTree.from_counts counts) := by
  simp only [HuffmanTree.from_counts]
  refine mergeRounds_leafLt 256 _ _ ?_ (by simp; omega)
  intro e he
  simp only [List.mem_map] at he
  obtain ⟨p, hp, he⟩ := he
  subst he
  show p.1 < 256
  have hp1 : p.1 ∈ counts.enum.map Prod.fst := List.mem_map_of_mem Prod.fst hp
  rw [List.enum_map_fst, List.mem_range] at hp1
  omega

theorem from_counts_isNode (counts : List Nat) (hc : counts.length = 256) :
    HuffmanTree.isNode (HuffmanTree.from_counts counts) := by
  simp only [HuffmanTree.from_counts]
  refine mergeRounds_isNode _ _ (by simp [hc]) (by simp)

theorem paths_keys : ∀ (t : HuffmanTree) (cur : List Bool),
    (HuffmanTree.paths t cur).map Prod.fst = HuffmanTree.keys t := by
  intro t
  induction t with
  | leaf c => intro cur; rfl
  | node l r ihl ihr =>
      intro cur
      simp [HuffmanTree.paths, HuffmanTree.keys, ihl, ihr]

theorem paths_prefix : ∀ (t : HuffmanTree) (cur : List Bool) (e : Nat × List Bool),
    e ∈ HuffmanTree.paths t cur → cur <+: e.2 := by
  intro t
  induction t with
  | leaf c =>
      intro cur e he
      simp only [HuffmanTree.paths, List.mem_singleton] at he
      subst he
      exact List.prefix_refl cur
  | node l r ihl ihr =>
      intro cur e he
      simp only [HuffmanTree.paths, List.mem_append] at he
      rcases he with he | he
      · exact (List.prefix_append cur [false]).trans (ihl _ e he)
      · exact (List.prefix_append cur [true]).trans (ihr _ e he)

theorem paths_pairwise : ∀ (t : HuffmanTree) (cur : List Bool),
    List.Pairwise (fun e1 e2 : Nat × List Bool => ¬ e1.2 <+: e2.2 ∧ ¬ e2.2 <+: e1.2)
      (HuffmanTree.paths t cur) := by
  intro t
  induction t with
  | leaf c => intro cur; simp [HuffmanTree.paths]
  | node l r ihl ihr =>
      intro cur
      simp only [HuffmanTree.paths]
      rw [List.pairwise_append]
      refine ⟨ihl _, ihr _, ?_⟩
      intro e1 h1 e2 h2
      have hp1 := paths_prefix l (cur ++ [false]) e1 h1
      have hp2 := paths_prefix r (cur ++ [true]) e2 h2
      obtain ⟨t1, ht1⟩ := hp1
      obtain ⟨t2, ht2⟩ := hp2
      have hg1 : e1.2[cur.length]? = some false := by
        rw [← ht1, List.getElem?_append_left (by simp)]
        exact List.getElem?_concat_length cur false
      have hg2 : e2.2[cur.length]? = some true := by
        rw [← ht2, List.getElem?_append_left (by simp)]
        exact List.getElem?_concat_length cur true
      have hl1 : cur.length < e1.2.length := by
        rw [← ht1]
        simp
      have hl2 : cur.length < e2.2.length := by
        rw [← ht2]
        simp
      constructor
      · intro hpre
        obtain ⟨t3, ht3⟩ := hpre
        rw [← ht3, List.getElem?_append_left (by omega)] at hg2
        rw [hg1] at hg2
        simp at hg2
      · intro hpre
        obtain ⟨t3, ht3⟩ := hpre
        rw [← ht3, List.getElem?_append_left (by omega)] at hg1
        rw [hg2] at hg1
        simp at hg1

theorem pathIdx_bounds : ∀ (p : List Bool) (a : Nat),
    a * 2 ^ p.length ≤ p.foldl (fun acc b => 2 * acc + (if b then 1 else 0)) a ∧
    p.foldl (fun acc b => 2 * acc + (if b then 1 else 0)) a < (a + 1) * 2 ^ p.length := by
  intro p
  induction p with
  | nil => intro a; simp
  | cons b p ih =>
      intro a
      simp only [List.foldl_cons, List.length_cons]
      have hrec := ih (2 * a + (if b then 1 else 0))
      constructor
      · calc a * 2 ^ (p.length + 1) = (2 * a) * 2 ^ p.length := by ring
          _ ≤ (2 * a + (if b then 1 else 0)) * 2 ^ p.length :=
            Nat.mul_le_mul_right _ (by omega)
          _ ≤ _ := hrec.1
      · calc _ < (2 * a + (if b then 1 else 0) + 1) * 2 ^ p.length := hrec.2
          _ ≤ (2 * a + 2) * 2 ^ p.length :=
            Nat.mul_le_mul_right _ (by by_cases hb : b <;> simp [hb])
          _ = (a + 1) * 2 ^ (p.length + 1) := by ring

theorem pathIdx_length_eq (p q : List Bool)
    (h : HuffmanTree.pathIdx p = HuffmanTree.pathIdx q) : p.length = q.length := by
  by_contra hne
  have hb1 := pathIdx_bounds p 1
  have hb2 := pathIdx_bounds q 1
  simp only [HuffmanTree.pathIdx] at h
  rcases Nat.lt_or_ge p.length q.length with hlt | hge
  · have h1 : (1 + 1) * 2 ^ p.length ≤ 2 ^ q.length := by
      have hp : 2 ^ (p.length + 1) ≤ 2 ^ q.length :=
        Nat.pow_le_pow_right (by norm_num) (by omega)
      calc (1 + 1) * 2 ^ p.length = 2 ^ (p.length + 1) := by ring
        _ ≤ _ := hp
    omega
  · have hlt2 : q.length < p.length := by omega
    have h1 : (1 + 1) * 2 ^ q.length ≤ 2 ^ p.length := by
      have hp : 2 ^ (q.length + 1) ≤ 2 ^ p.length :=
        Nat.pow_le_pow_right (by norm_num) (by omega)
      calc (1 + 1) * 2 ^ q.length = 2 ^ (q.length + 1) := by ring
        _ ≤ _ := hp
    omega

theorem pathIdx_inj_aux :
    ∀ (n : Nat) (p q : List Bool) (a b : Nat), p.length = n → q.length = n →
      p.foldl (fun acc b => 2 * acc + (if b then 1 else 0)) a =
        q.foldl (fun acc b => 2 * acc + (if b then 1 else 0)) b →
      a = b ∧ p = q := by
  intro n
  induction n with
  | zero =>
      intro p q a b hp hq h
      have hp0 : p = [] := List.eq_nil_of_length_eq_zero hp
      have hq0 : q = [] := List.eq_nil_of_length_eq_zero hq
      subst hp0
      subst hq0
      exact ⟨h, rfl⟩
  | succ n ih =>
      intro p q a b hp hq h
      cases p with
      | nil => simp at hp
      | cons x p =>
          cases q with
          | nil => simp at hq
          | cons y q =>
              simp only [List.foldl_cons] at h
              have hrec := ih p q _ _ (by simpa using hp) (by simpa using hq) h
              have hxy : (if x then 1 else 0) = (if y then 1 else 0) ∧ a = b := by
                have := hrec.1
                constructor <;> [skip; skip] <;> by_cases hx : x <;> by_cases hy : y <;>
                  simp [hx, hy] at this ⊢ <;> omega
              have hxey : x = y := by
                have := hxy.1
                by_cases hx : x <;> by_cases hy : y <;> simp [hx, hy] at this ⊢
              subst hxey
              exact ⟨hxy.2, by rw [hrec.2]⟩

theorem pathIdx_inj (p q : List Bool) (h : HuffmanTree.pathIdx p = HuffmanTree.pathIdx q) :
    p = q := by
  have hlen := pathIdx_length_eq p q h
  simp only [HuffmanTree.pathIdx] at h
  exact (pathIdx_inj_aux p.length p q 1 1 rfl hlen.symm h).2

theorem pathIdx_lt (p : List Bool) : HuffmanTree.pathIdx p < 2 ^ (p.length + 1) := by
  have hb := (pathIdx_bounds p 1).2
  have hp : (1 + 1) * 2 ^ p.length = 2 ^ (p.length + 1) := by ring
  simp only [HuffmanTree.pathIdx]
  omega

theorem foldSet_not_mem {α : Type} :
    ∀ (entries : List (Nat × α)) (init : List α) (c : Nat) (d : α),
      (∀ e ∈ entries, e.1 ≠ c) →
      (entries.foldl (fun m e => m.set e.1 e.2) init).getD c d = init.getD c d := by
  intro entries
  induction entries with
  | nil => intro init c d h; rfl
  | cons e es ih =>
      intro init c d h
      simp only [List.foldl_cons]
      rw [ih (init.set e.1 e.2) c d (fun e2 he2 => h e2 (by simp [he2]))]
      exact getD_set_ne init e.1 c e.2 d (h e (by simp))

theorem foldSet_length {α : Type} :
    ∀ (entries : List (Nat × α)) (init : List α),
      (entries.foldl (fun m e => m.set e.1 e.2) init).length = init.length := by
  intro entries
  induction entries with
  | nil => intro init; rfl
  | cons e es ih =>
      intro init
      simp only [List.foldl_cons]
      rw [ih (init.set e.1 e.2), List.length_set]

theorem foldSet_mem {α : Type} :
    ∀ (entries : List (Nat × α)) (init : List α) (c : Nat) (p d : α),
      (c, p) ∈ entries → (entries.map Prod.fst).Nodup → c < init.length →
      (entries.foldl (fun m e => m.set e.1 e.2) init).getD c d = p := by
  intro entries
  induction entries with
  | nil => intro init c p d hmem; simp at hmem
  | cons e es ih =>
      intro init c p d hmem hnd hlen
      simp only [List.map_cons, List.nodup_cons] at hnd
      simp only [List.mem_cons] at hmem
      simp only [List.foldl_cons]
      rcases hmem with he | hmem
      · have he1 : e.1 = c := by rw [← he]
        have he2 : e.2 = p := by rw [← he]
        rw [foldSet_not_mem es (init.set e.1 e.2) c d
          (fun e2 he2m => by
            intro hkey
            exact hnd.1 (by rw [he1, ← hkey]; exact List.mem_map_of_mem Prod.fst he2m))]
        rw [he1, he2]
        exact getD_set_self init c p d hlen
      · exact ih (init.set e.1 e.2) c p d hmem hnd.2 (by rw [List.length_set]; exact hlen)

theorem build_map_length (t : HuffmanTree) : (HuffmanTree.build_map t).length = 256 := by
  simp only [HuffmanTree.build_map]
  rw [foldSet_length]
  simp

theorem build_map_getD (t : HuffmanTree) (hnd : (HuffmanTree.keys t).Nodup) (c : Nat)
    (p : List Bool) (hmem : (c, p) ∈ HuffmanTree.paths t []) (hc : c < 256) :
    (HuffmanTree.build_map t).getD c [] = p := by
  simp only [HuffmanTree.build_map]
  refine foldSet_mem _ _ _ _ _ hmem ?_ (by simp [hc])
  rw [paths_keys]
  exact hnd

theorem paths_exists (t : HuffmanTree) (c : Nat) (hc : c ∈ HuffmanTree.keys t) :
    ∃ p, (c, p) ∈ HuffmanTree.paths t [] := by
  rw [← paths_keys t []] at hc
  rw [List.mem_map] at hc
  obtain ⟨e, he, hfst⟩ := hc
  exact ⟨e.2, by rw [show (c, e.2) = e from by rw [← hfst]]; exact he⟩

theorem le_max?_getD : ∀ (l : List Nat) (a : Nat), a ∈ l → a ≤ l.max?.getD 0 := by
  intro l
  induction l with
  | nil => intro a ha; simp at ha
  | cons x l ih =>
      intro a ha
      rw [List.max?_cons]
      simp only [List.mem_cons] at ha
      cases hm : l.max? with
      | none =>
          rw [List.max?_eq_none_iff] at hm
          subst hm
          simp only [List.not_mem_nil, or_false] at ha
          subst ha
          simp
      | some m =>
          simp only [hm, Option.elim, Option.getD_some]
          rcases ha with h | h
          · subst h
            exact Nat.le_max_left a m
          · have hle := ih a h
            rw [hm, Option.getD_some] at hle
            exact le_trans hle (Nat.le_max_right x m)

theorem paths_path_inj (t : HuffmanTree) :
    ∀ e1 e2 : Nat × List Bool, e1 ∈ HuffmanTree.paths t [] →
      e2 ∈ HuffmanTree.paths t [] → e1.2 = e2.2 → e1 = e2 := by
  intro e1 e2 h1 h2 hp
  by_contra hne
  have hsym : Symmetric (fun e1 e2 : Nat × List Bool =>
      ¬ e1.2 <+: e2.2 ∧ ¬ e2.2 <+: e1.2) := fun a b hab => ⟨hab.2, hab.1⟩
  have hR := List.Pairwise.forall hsym (paths_pairwise t []) h1 h2 hne
  exact hR.1 (hp ▸ List.prefix_refl e1.2)

theorem build_map_full (t : HuffmanTree)
    (hperm : List.Perm (HuffmanTree.keys t) (List.range 256)) :
    ∀ c, c < 256 → ∃ p, (c, p) ∈ HuffmanTree.paths t [] ∧
      (HuffmanTree.build_map t).getD c [] = p := by
  intro c hc
  have hck : c ∈ HuffmanTree.keys t := hperm.mem_iff.mpr (by simp [hc])
  obtain ⟨p, hp⟩ := paths_exists t c hck
  exact ⟨p, hp, build_map_getD t (hperm.nodup_iff.mpr (List.nodup_range 256)) c p hp hc⟩

theorem enum_mem_shape {α : Type} (l : List α) (e : Nat × α) (he : e ∈ l.enum) :
    e.1 < l.length ∧ ∀ d : α, e.2 = l.getD e.1 d := by
  obtain ⟨i, hi, hget⟩ := List.getElem_of_mem he
  have hlen : i < l.length := by simpa using hi
  rw [List.getElem_enum] at hget
  constructor
  · rw [← hget]
    exact hlen
  · intro d
    rw [← hget]
    dsimp only
    rw [getD_eq_getElem l i d hlen]

theorem enum_mem_self {α : Type} (l : List α) (i : Nat) (hi : i < l.length) (d : α) :
    (i, l.getD i d) ∈ l.enum := by
  have hq : l.enum[i]? = some (i, l[i]) := by
    rw [List.getElem?_eq_getElem (by simpa using hi), List.getElem_enum]
  rw [getD_eq_getElem l i d hi]
  exact List.getElem?_mem hq

theorem build_reverse_foldform (t : HuffmanTree) :
    HuffmanTree.build_reverse_map t =
      (((HuffmanTree.build_map t).enum.map
          (fun p => (HuffmanTree.pathIdx p.2, some p.1))).foldl
        (fun m e => m.set e.1 e.2)
        (List.replicate
          (2 ^ ((((HuffmanTree.build_map t).map List.length).max?.getD 0) + 1))
          none)) := by
  simp only [HuffmanTree.build_reverse_map]
  rw [List.foldl_map]

theorem build_reverse_length (t : HuffmanTree) :
    (HuffmanTree.build_reverse_map t).length =
      2 ^ ((((HuffmanTree.build_map t).map List.length).max?.getD 0) + 1) := by
  rw [build_reverse_foldform, foldSet_length]
  simp

theorem code_len_le_max (t : HuffmanTree) (c : Nat) (hc : c < 256) :
    ((HuffmanTree.build_map t).getD c []).length ≤
      (((HuffmanTree.build_map t).map List.length).max?.getD 0) := by
  apply le_max?_getD
  rw [List.mem_map]
  refine ⟨(HuffmanTree.build_map t).getD c [], ?_, rfl⟩
  rw [getD_eq_getElem _ c [] (by rw [build_map_length]; omega)]
  exact List.getElem_mem _

theorem reverse_keys_nodup (t : HuffmanTree)
    (hperm : List.Perm (HuffmanTree.keys t) (List.range 256)) :
    (((HuffmanTree.build_map t).enum.map
        (fun p => (HuffmanTree.pathIdx p.2, some p.1))).map Prod.fst).Nodup := by
  rw [List.map_map]
  have hinj : ∀ e1 ∈ (HuffmanTree.build_map t).enum,
      ∀ e2 ∈ (HuffmanTree.build_map t).enum,
      (Prod.fst ∘ fun p : Nat × List Bool => (HuffmanTree.pathIdx p.2, some p.1)) e1 =
        (Prod.fst ∘ fun p : Nat × List Bool => (HuffmanTree.pathIdx p.2, some p.1)) e2 →
      e1 = e2 := by
    intro e1 he1 e2 he2 hkey
    have hidx : HuffmanTree.pathIdx e1.2 = HuffmanTree.pathIdx e2.2 := hkey
    have hpath := pathIdx_inj _ _ hidx
    obtain ⟨hb1, hv1⟩ := enum_mem_shape _ e1 he1
    obtain ⟨hb2, hv2⟩ := enum_mem_shape _ e2 he2
    rw [build_map_length] at hb1 hb2
    obtain ⟨p1, hp1, hg1⟩ := build_map_full t hperm e1.1 hb1
    obtain ⟨p2, hp2, hg2⟩ := build_map_full t hperm e2.1 hb2
    have he1p : e1.2 = p1 := by rw [hv1 [], hg1]
    have he2p : e2.2 = p2 := by rw [hv2 [], hg2]
    have hpp : p1 = p2 := by rw [← he1p, ← he2p, hpath]
    have heq := paths_path_inj t (e1.1, p1) (e2.1, p2) hp1 hp2 hpp
    have hfst : e1.1 = e2.1 := by
      simp only [Prod.mk.injEq] at heq
      exact heq.1
    have hsnd : e1.2 = e2.2 := by rw [he1p, he2p, hpp]
    exact Prod.ext hfst hsnd
  have henum : (HuffmanTree.build_map t).enum.Nodup := by
    apply List.Nodup.of_map Prod.fst
    rw [List.enum_map_fst]
    exact List.nodup_range _
  exact henum.map_on hinj

theorem paths_key_unique (t : HuffmanTree) (hnd : (HuffmanTree.keys t).Nodup)
    (c : Nat) (p1 p2 : List Bool) (h1 : (c, p1) ∈ HuffmanTree.paths t [])
    (h2 : (c, p2) ∈ HuffmanTree.paths t []) : p1 = p2 := by
  have hnd2 : ((HuffmanTree.paths t []).map Prod.fst).Nodup := by
    rw [paths_keys]
    exact hnd
  simp only [List.Nodup] at hnd2
  rw [List.pairwise_map] at hnd2
  by_contra hne
  have hne2 : ((c, p1) : Nat × List Bool) ≠ (c, p2) := by simp [hne]
  have hsym : Symmetric (fun a b : Nat × List Bool => Prod.fst a ≠ Prod.fst b) :=
    fun a b hab => Ne.symm hab
  have hcc := List.Pairwise.forall hsym hnd2 h1 h2 hne2
  exact hcc rfl

theorem build_reverse_getD_code (t : HuffmanTree)
    (hperm : List.Perm (HuffmanTree.keys t) (List.range 256)) (c : Nat) (p : List Bool)
    (hmem : (c, p) ∈ HuffmanTree.paths t []) :
    (HuffmanTree.build_reverse_map t).getD (HuffmanTree.pathIdx p) none = some c := by
  have hc : c < 256 := by
    have hck : c ∈ HuffmanTree.keys t := by
      rw [← paths_keys t []]
      exact List.mem_map_of_mem Prod.fst hmem
    have hcr := hperm.mem_iff.mp hck
    simpa using hcr
  obtain ⟨p2, hp2, hg⟩ := build_map_full t hperm c hc
  have hpp : p2 = p :=
    paths_key_unique t (hperm.nodup_iff.mpr (List.nodup_range 256)) c p2 p hp2 hmem
  rw [build_reverse_foldform]
  refine foldSet_mem _ _ _ _ _ ?_ (reverse_keys_nodup t hperm) ?_
  · rw [List.mem_map]
    refine ⟨(c, p), ?_, rfl⟩
    have hms := enum_mem_self (HuffmanTree.build_map t) c
      (by rw [build_map_length]; omega) []
    rw [hg, hpp] at hms
    exact hms
  · rw [List.length_replicate]
    have hle := code_len_le_max t c hc
    rw [hg, hpp] at hle
    have hlt := pathIdx_lt p
    calc HuffmanTree.pathIdx p < 2 ^ (p.length + 1) := hlt
      _ ≤ 2 ^ ((((HuffmanTree.build_map t).map List.length).max?.getD 0) + 1) :=
        Nat.pow_le_pow_right (by norm_num) (by omega)

theorem build_reverse_getD_none (t : HuffmanTree)
    (hperm : List.Perm (HuffmanTree.keys t) (List.range 256)) (q : List Bool)
    (hq : ∀ c p, (c, p) ∈ HuffmanTree.paths t [] → q ≠ p)
    (hbound : HuffmanTree.pathIdx q < (HuffmanTree.build_reverse_map t).length) :
    (HuffmanTree.build_reverse_map t).getD (HuffmanTree.pathIdx q) none = none := by
  rw [build_reverse_length] at hbound
  rw [build_reverse_foldform]
  rw [foldSet_not_mem]
  · exact getD_replicate _ _ none none hbound
  · intro e he
    rw [List.mem_map] at he
    obtain ⟨pe, hpe, hee⟩ := he
    subst hee
    dsimp only
    intro hkey
    have hpath := pathIdx_inj _ _ hkey
    obtain ⟨hb, hv⟩ := enum_mem_shape _ pe hpe
    rw [build_map_length] at hb
    obtain ⟨pp, hppmem, hgg⟩ := build_map_full t hperm pe.1 hb
    have hep : pe.2 = pp := by rw [hv [], hgg]
    exact hq pe.1 pp hppmem (by rw [← hpath, hep])

theorem decLoop_code (tbl : List (Option Nat)) :
    ∀ (code cur rest : List Bool) (c : Nat),
      code ≠ [] →
      tbl.getD (HuffmanTree.pathIdx (cur ++ code)) none = some c →
      (∀ k, 1 ≤ k → k < code.length →
        tbl.getD (HuffmanTree.pathIdx (cur ++ code.take k)) none = none) →
      (∀ k, 1 ≤ k → k ≤ code.length →
        HuffmanTree.pathIdx (cur ++ code.take k) < tbl.length) →
      Huffman.decLoop tbl (code ++ rest) cur =
        (Huffman.decLoop tbl rest []).map (fun r => c :: r) := by
  intro code
  induction code with
  | nil => intro cur rest c hne; exact absurd rfl hne
  | cons b code ih =>
      intro cur rest c hne hfull hnone hbound
      show Huffman.decLoop tbl (b :: (code ++ rest)) cur = _
      simp only [Huffman.decLoop]
      cases code with
      | nil =>
          rw [if_pos (by simpa using hbound 1 le_rfl (by simp))]
          have hf : tbl.getD (HuffmanTree.pathIdx (cur ++ [b])) none = some c := by
            simpa using hfull
          rw [hf]
          rfl
      | cons b2 code2 =>
          rw [if_pos (by simpa using hbound 1 (by omega) (by simp))]
          have hn : tbl.getD (HuffmanTree.pathIdx (cur ++ [b])) none = none := by
            have hh := hnone 1 (by omega) (by simp)
            simpa using hh
          rw [hn]
          have hstep := ih (cur ++ [b]) rest c (by simp) ?_ ?_ ?_
          · exact hstep
          · rw [show (cur ++ [b]) ++ (b2 :: code2) = cur ++ (b :: b2 :: code2) from by
              simp]
            exact hfull
          · intro k hk1 hk2
            have hh := hnone (k + 1) (by omega) (by
              simp only [List.length_cons] at hk2 ⊢
              omega)
            rw [show cur ++ (b :: b2 :: code2).take (k + 1) =
              (cur ++ [b]) ++ (b2 :: code2).take k from by
              rw [List.take_succ_cons]
              simp] at hh
            exact hh
          · intro k hk1 hk2
            have hh := hbound (k + 1) (by omega) (by
              simp only [List.length_cons] at hk2 ⊢
              omega)
            rw [show cur ++ (b :: b2 :: code2).take (k + 1) =
              (cur ++ [b]) ++ (b2 :: code2).take k from by
              rw [List.take_succ_cons]
              simp] at hh
            exact hh

theorem decLoop_flatten (tbl : List (Option Nat)) :
    ∀ (X : List Nat) (code : Nat → List Bool),
      (∀ c ∈ X, code c ≠ [] ∧
        tbl.getD (HuffmanTree.pathIdx (code c)) none = some c ∧
        (∀ k, 1 ≤ k → k < (code c).length →
          tbl.getD (HuffmanTree.pathIdx ((code c).take k)) none = none) ∧
        (∀ k, 1 ≤ k → k ≤ (code c).length →
          HuffmanTree.pathIdx ((code c).take k) < tbl.length)) →
      Huffman.decLoop tbl ((X.map code).flatten) [] = some X := by
  intro X
  induction X with
  | nil => intro code h; rfl
  | cons c X ih =>
      intro code h
      simp only [List.map_cons, List.flatten_cons]
      obtain ⟨hne, hfull, hnone, hbound⟩ := h c (by simp)
      rw [decLoop_code tbl (code c) [] _ c hne (by simpa using hfull)
        (fun k hk1 hk2 => by simpa using hnone k hk1 hk2)
        (fun k hk1 hk2 => by simpa using hbound k hk1 hk2)]
      rw [ih code (fun d hd => h d (by simp [hd]))]
      rfl

theorem ofBitsLSB_lt : ∀ bs : List Bool, ofBitsLSB bs < 2 ^ bs.length := by
  intro bs
  induction bs with
  | nil => simp [ofBitsLSB]
  | cons b bs ih =>
      show 2 * ofBitsLSB bs + (if b then 1 else 0) < 2 ^ (bs.length + 1)
      have hp : 2 ^ (bs.length + 1) = 2 * 2 ^ bs.length := by ring
      by_cases hb : b <;> simp [hb] <;> omega

theorem toBits_ofBits : ∀ bs : List Bool, toBits bs.length (ofBitsLSB bs) = bs := by
  intro bs
  induction bs with
  | nil => rfl
  | cons b bs ih =>
      show toBits (bs.length + 1) (2 * ofBitsLSB bs + (if b then 1 else 0)) = b :: bs
      simp only [toBits]
      have hmod : (2 * ofBitsLSB bs + (if b then 1 else 0)) % 2 = (if b then 1 else 0) := by
        rw [Nat.mul_add_mod]
        by_cases hb : b <;> simp [hb]
      have hdiv : (2 * ofBitsLSB bs + (if b then 1 else 0)) / 2 = ofBitsLSB bs := by
        by_cases hb : b <;> simp [hb] <;> omega
      rw [hmod, hdiv, ih]
      by_cases hb : b <;> simp [hb]

theorem toBits_zero : ∀ k : Nat, toBits k 0 = List.replicate k false := by
  intro k
  induction k with
  | zero => rfl
  | succ k ih => simp [toBits, ih, List.replicate_succ]

theorem toBits_pad : ∀ (m k v : Nat), v < 2 ^ m → m ≤ k →
    toBits k v = toBits m v ++ List.replicate (k - m) false := by
  intro m
  induction m with
  | zero =>
      intro k v hv hk
      have hv0 : v = 0 := by simpa using hv
      subst hv0
      simp [toBits_zero]
  | succ m ih =>
      intro k v hv hk
      cases k with
      | zero => omega
      | succ k =>
          simp only [toBits, List.cons_append]
          rw [ih k (v / 2) (by
              have hp : 2 ^ (m + 1) = 2 * 2 ^ m := by ring
              omega)
            (by omega)]
          rw [show k + 1 - (m + 1) = k - m from by omega]

theorem bytesOfBits_take :
    ∀ (n : Nat) (bs : List Bool), bs.length ≤ n →
      (bitsOfBytes (bytesOfBits bs)).take bs.length = bs := by
  intro n
  induction n with
  | zero =>
      intro bs h
      have hb : bs = [] := List.eq_nil_of_length_eq_zero (by omega)
      subst hb
      rfl
  | succ n ih =>
      intro bs h
      cases hbs : bs with
      | nil => rfl
      | cons b t =>
          subst hbs
          have hstep : chunksOf 8 (b :: t) =
              (b :: t).take 8 :: chunksOf 8 ((b :: t).drop 8) := by
            show chunksOfAux 8 (b :: t).length (b :: t) = _
            simp only [List.length_cons]
            simp only [chunksOfAux]
            congr 1
            exact chunksOfAux_fuel 8 (by norm_num) t.length ((b :: t).drop 8).length _
              (by simp) le_rfl
          have hexp : bitsOfBytes (bytesOfBits (b :: t)) =
              toBits 8 (ofBitsLSB ((b :: t).take 8)) ++
                bitsOfBytes (bytesOfBits ((b :: t).drop 8)) := by
            simp only [bytesOfBits, bitsOfBytes, hstep, List.map_cons, List.flatten_cons]
          rw [hexp]
          by_cases hlen : (b :: t).length ≤ 8
          · have hdrop : (b :: t).drop 8 = [] := List.drop_eq_nil_of_le hlen
            have htake : (b :: t).take 8 = b :: t := List.take_of_length_le hlen
            rw [hdrop, htake]
            have hpad := toBits_pad (b :: t).length 8 (ofBitsLSB (b :: t))
              (ofBitsLSB_lt (b :: t)) hlen
            rw [hpad, toBits_ofBits]
            rw [List.append_assoc]
            exact List.take_left _ _
          · push_neg at hlen
            have htl : ((b :: t).take 8).length = 8 :=
              List.length_take_of_le (by omega)
            have hrt : toBits 8 (ofBitsLSB ((b :: t).take 8)) = (b :: t).take 8 := by
              have := toBits_ofBits ((b :: t).take 8)
              rw [htl] at this
              exact this
            rw [hrt]
            rw [List.take_append_eq_append_take]
            rw [List.take_of_length_le (by rw [htl]; omega)]
            rw [htl]
            have hdl : ((b :: t).drop 8).length = (b :: t).length - 8 := by simp
            have hrec := ih ((b :: t).drop 8) (by simp at h ⊢; omega)
            rw [hdl] at hrec
            rw [hrec]
            exact List.take_append_drop 8 (b :: t)

theorem deserBits_ser : ∀ (t : HuffmanTree), HuffmanTree.leafLt 256 t →
    ∀ (fuel : Nat) (rest : List Bool), (HuffmanTree.serBits t).length ≤ fuel →
      HuffmanTree.deserBits fuel (HuffmanTree.serBits t ++ rest) = some (t, rest) := by
  intro t
  induction t with
  | leaf c =>
      intro hlt fuel rest hf
      cases fuel with
      | zero => simp [HuffmanTree.serBits] at hf
      | succ f =>
          show HuffmanTree.deserBits (f + 1) (true :: (toBits 8 c ++ rest)) = _
          simp only [HuffmanTree.deserBits]
          first
          | rw [if_true]
          | rw [if_pos rfl]
          have hc : c < 256 := hlt
          rw [readBits_toBits_lt 8 c rest (lt_of_lt_of_le hc (by norm_num))]
  | node l r ihl ihr =>
      intro hlt fuel rest hf
      obtain ⟨hll, hlr⟩ := hlt
      cases fuel with
      | zero => simp [HuffmanTree.serBits] at hf
      | succ f =>
          simp only [HuffmanTree.serBits, List.length_cons, List.length_append] at hf
          show HuffmanTree.deserBits (f + 1)
            (false :: ((HuffmanTree.serBits l ++ HuffmanTree.serBits r) ++ rest)) = _
          simp only [HuffmanTree.deserBits]
          first
          | rw [if_false]
          | rw [if_neg (by simp)]
          rw [List.append_assoc]
          rw [ihl hll f _ (by omega)]
          dsimp only
          rw [ihr hlr f rest (by omega)]

theorem paths_nonnil_of_node (t : HuffmanTree) (hn : HuffmanTree.isNode t) :
    ∀ e ∈ HuffmanTree.paths t [], e.2 ≠ [] := by
  cases t with
  | leaf c => intro e he; exact (hn : False).elim
  | node l r =>
      intro e he
      simp only [HuffmanTree.paths, List.mem_append] at he
      intro hnil
      rcases he with he | he
      · have hpre := paths_prefix l ([] ++ [false]) e he
        have hle := hpre.length_le
        rw [hnil] at hle
        simp at hle
      · have hpre := paths_prefix r ([] ++ [true]) e he
        have hle := hpre.length_le
        rw [hnil] at hle
        simp at hle

theorem decrypt_fields (t0 : HuffmanTree) (hlt : HuffmanTree.leafLt 256 t0) (u : Nat)
    (data : List Nat) (hguard : ¬ (data.length * 8 < u)) :
    Huffman.decrypt
        { tree := bbSerialize (HuffmanTree.serBits t0), unused_bits := u, data := data } =
      Huffman.decLoop (HuffmanTree.build_reverse_map t0)
        ((bitsOfBytes data).take (data.length * 8 - u)) [] := by
  simp only [Huffman.decrypt]
  have htb : bbDeserialize (bbSerialize (HuffmanTree.serBits t0)) =
      HuffmanTree.serBits t0 := by
    simp only [bbSerialize, bbDeserialize]
    exact bytesOfBits_take (HuffmanTree.serBits t0).length _ le_rfl
  rw [htb]
  have hdeser := deserBits_ser t0 hlt ((HuffmanTree.serBits t0).length + 1) [] (by omega)
  rw [List.append_nil] at hdeser
  rw [hdeser]
  dsimp only
  rw [if_neg hguard]

/-- C2: the per-chunk Huffman coder round-trips: decrypt of encrypt returns
exactly the input byte sequence (code assignment over the 256-leaf tree,
LSB-first bit packing, the unused_bits accounting and the 1-prefixed table
decode all agree). -/
theorem c2_roundtrip (X : List Nat) (hne : X ≠ []) (hb : ∀ b ∈ X, b < 256) :
    Huffman.decrypt (Huffman.encrypt X) = some X := by
  have hcl : ((List.range 256).map (fun b => X.count b)).length = 256 := by simp
  have hperm : List.Perm (HuffmanTree.keys (HuffmanTree.build_tree X))
      (List.range 256) := from_counts_keys _ hcl
  have hlt : HuffmanTree.leafLt 256 (HuffmanTree.build_tree X) :=
    from_counts_leafLt _ (by simp) (by simp)
  have hnode : HuffmanTree.isNode (HuffmanTree.build_tree X) :=
    from_counts_isNode _ hcl
  set T := HuffmanTree.build_tree X with hT
  set bits := (X.map (fun c => (HuffmanTree.build_map T).getD c [])).flatten with hbits
  have henc : Huffman.encrypt X =
      { tree := bbSerialize (HuffmanTree.serBits T),
        unused_bits := match bits.length % 8 with
          | 0 => 0
          | n => 8 - n,
        data := bytesOfBits bits } := rfl
  have hlen8 : (bytesOfBits bits).length =
      bits.length / 8 + (if bits.length % 8 = 0 then 0 else 1) := by
    simp only [bytesOfBits]
    rw [List.length_map, chunksOf_length 8 (by norm_num) bits]
  have hUle : (match bits.length % 8 with | 0 => 0 | n => 8 - n) ≤ 8 ∧
      bits.length + (match bits.length % 8 with | 0 => 0 | n => 8 - n) =
        8 * (bytesOfBits bits).length := by
    by_cases hmod : bits.length % 8 = 0
    · rw [hmod, hlen8, if_pos hmod]
      constructor
      · show (0 : Nat) ≤ 8
        omega
      · show bits.length + 0 = 8 * (bits.length / 8 + 0)
        omega
    · obtain ⟨m, hm⟩ : ∃ m, bits.length % 8 = m + 1 := ⟨bits.length % 8 - 1, by omega⟩
      rw [hm, hlen8, if_neg hmod]
      constructor
      · show 8 - (m + 1) ≤ 8
        omega
      · show bits.length + (8 - (m + 1)) = 8 * (bits.length / 8 + 1)
        omega
  obtain ⟨hU8, hUeq⟩ := hUle
  have hguard : ¬ ((bytesOfBits bits).length * 8 <
      (match bits.length % 8 with | 0 => 0 | n => 8 - n)) := by omega
  have htake : (bytesOfBits bits).length * 8 -
      (match bits.length % 8 with | 0 => 0 | n => 8 - n) = bits.length := by omega
  rw [henc, decrypt_fields T hlt _ (bytesOfBits bits) hguard, htake,
    bytesOfBits_take bits.length bits le_rfl]
  refine decLoop_flatten _ X (fun c => (HuffmanTree.build_map T).getD c []) ?_
  intro c hc
  have hc256 := hb c hc
  obtain ⟨p, hpmem, hg⟩ := build_map_full T hperm c hc256
  have hple : p.length ≤ ((((HuffmanTree.build_map T).map List.length).max?).getD 0) := by
    have hcl2 := code_len_le_max T c hc256
    rw [hg] at hcl2
    exact hcl2
  have hbnd : ∀ k, k ≤ p.length →
      HuffmanTree.pathIdx (p.take k) < (HuffmanTree.build_reverse_map T).length := by
    intro k hk
    rw [build_reverse_length]
    have hlt2 := pathIdx_lt (p.take k)
    have hlen : (p.take k).length = k := List.length_take_of_le hk
    rw [hlen] at hlt2
    calc HuffmanTree.pathIdx (p.take k) < 2 ^ (k + 1) := hlt2
      _ ≤ 2 ^ ((((HuffmanTree.build_map T).map List.length).max?).getD 0 + 1) :=
        Nat.pow_le_pow_right (by norm_num) (by
          have hkm : k ≤ ((((HuffmanTree.build_map T).map List.length).max?).getD 0) :=
            le_trans hk hple
          omega)
  simp only [hg]
  refine ⟨paths_nonnil_of_node T hnode (c, p) hpmem, ?_, ?_, ?_⟩
  · exact build_reverse_getD_code T hperm c p hpmem
  · intro k hk1 hk2
    refine build_reverse_getD_none T hperm (p.take k) ?_ (hbnd k (by omega))
    intro c2 p2 hp2mem heq
    have hpre : p2 <+: p := heq ▸ List.take_prefix k p
    have hlen2 : p2.length = k := by
      rw [← heq]
      exact List.length_take_of_le (by omega)
    have hne2 : ((c2, p2) : Nat × List Bool) ≠ (c, p) := by
      intro hcon
      have hps : p2 = p := congrArg Prod.snd hcon
      rw [hps] at hlen2
      omega
    have hsym : Symmetric (fun e1 e2 : Nat × List Bool =>
        ¬ e1.2 <+: e2.2 ∧ ¬ e2.2 <+: e1.2) := fun a b hab => ⟨hab.2, hab.1⟩
    have hR := List.Pairwise.forall hsym (paths_pairwise T []) hp2mem hpmem hne2
    exact hR.1 hpre
  · intro k hk1 hk2
    exact hbnd k hk2

/-- Witness for c2_roundtrip at the two-byte input [5, 7]. -/
theorem c2_witness : Huffman.decrypt (Huffman.encrypt [5, 7]) = some [5, 7] :=
  c2_roundtrip [5, 7] (by decide) (fun b hb => by
    simp only [List.mem_cons, List.not_mem_nil, or_false] at hb
    rcases hb with h | h <;> omega)

/-! ## Suffix order lemmas for the suffix array correctness proof -/

theorem sentChar_of_ge (x : List Nat) (t : Nat) (h : x.length ≤ t) : sentChar x t = -1 := by
  unfold sentChar
  rw [if_neg (by omega)]

theorem sentChar_of_lt (x : List Nat) (t : Nat) (h : t < x.length) :
    sentChar x t = (x.getD t 0 : Int) := by
  unfold sentChar
  rw [if_pos h]

theorem prefEq_refl (k : Nat) (x : List Nat) (i : Nat) : prefEq k x i i :=
  fun _ _ => rfl

theorem prefEq_symm (k : Nat) (x : List Nat) (i j : Nat) (h : prefEq k x i j) :
    prefEq k x j i :=
  fun t ht => (h t ht).symm

theorem prefEq_trans (k : Nat) (x : List Nat) (i j l : Nat)
    (h1 : prefEq k x i j) (h2 : prefEq k x j l) : prefEq k x i l :=
  fun t ht => (h1 t ht).trans (h2 t ht)

theorem prefLt_irrefl (k : Nat) (x : List Nat) (i : Nat) : ¬ prefLt k x i i := by
  rintro ⟨m, _, _, hlt⟩
  exact lt_irrefl _ hlt

theorem prefLt_not_eq (k : Nat) (x : List Nat) (i j : Nat) (h : prefLt k x i j) :
    ¬ prefEq k x i j := by
  intro he
  obtain ⟨m, hm, _, hlt⟩ := h
  rw [he m hm] at hlt
  exact lt_irrefl _ hlt

theorem prefLt_of_lt_of_eq (k : Nat) (x : List Nat) (a b c : Nat)
    (h1 : prefLt k x a b) (h2 : prefEq k x b c) : prefLt k x a c := by
  obtain ⟨m, hm, heb, hlt⟩ := h1
  refine ⟨m, hm, ?_, ?_⟩
  · intro t ht
    exact (heb t ht).trans (h2 t (by omega))
  · rw [← h2 m hm]
    exact hlt

theorem prefLt_of_eq_of_lt (k : Nat) (x : List Nat) (a b c : Nat)
    (h1 : prefEq k x a b) (h2 : prefLt k x b c) : prefLt k x a c := by
  obtain ⟨m, hm, heb, hlt⟩ := h2
  refine ⟨m, hm, ?_, ?_⟩
  · intro t ht
    exact (h1 t (by omega)).trans (heb t ht)
  · rw [h1 m hm]
    exact hlt

theorem prefLt_trans (k : Nat) (x : List Nat) (a b c : Nat)
    (h1 : prefLt k x a b) (h2 : prefLt k x b c) : prefLt k x a c := by
  obtain ⟨m1, hm1, he1, hl1⟩ := h1
  obtain ⟨m2, hm2, he2, hl2⟩ := h2
  rcases Nat.lt_trichotomy m1 m2 with hc | hc | hc
  · refine ⟨m1, hm1, ?_, ?_⟩
    · intro t ht
      exact (he1 t ht).trans (he2 t (by omega))
    · calc sentChar x (a + m1) < sentChar x (b + m1) := hl1
        _ = sentChar x (c + m1) := he2 m1 hc
  · subst hc
    exact ⟨m1, hm1, fun t ht => (he1 t ht).trans (he2 t ht), lt_trans hl1 hl2⟩
  · refine ⟨m2, by omega, ?_, ?_⟩
    · intro t ht
      exact (he1 t (by omega)).trans (he2 t ht)
    · rw [he1 m2 hc]
      exact hl2

theorem prefLt_asymm (k : Nat) (x : List Nat) (a b : Nat)
    (h1 : prefLt k x a b) (h2 : prefLt k x b a) : False :=
  prefLt_irrefl k x a (prefLt_trans k x a b a h1 h2)

theorem prefLt_le_asymm (k : Nat) (x : List Nat) (a b : Nat)
    (h1 : prefLt k x a b) (h2 : prefLe k x b a) : False := by
  rcases h2 with h2 | h2
  · exact prefLt_asymm k x a b h1 h2
  · exact prefLt_irrefl k x a (prefLt_of_lt_of_eq k x a b a h1 h2)

theorem prefLe_trans (k : Nat) (x : List Nat) (a b c : Nat)
    (h1 : prefLe k x a b) (h2 : prefLe k x b c) : prefLe k x a c := by
  rcases h1 with h1 | h1 <;> rcases h2 with h2 | h2
  · exact Or.inl (prefLt_trans k x a b c h1 h2)
  · exact Or.inl (prefLt_of_lt_of_eq k x a b c h1 h2)
  · exact Or.inl (prefLt_of_eq_of_lt k x a b c h1 h2)
  · exact Or.inr (prefEq_trans k x a b c h1 h2)

theorem prefLt_of_le_of_lt (k : Nat) (x : List Nat) (a b c : Nat)
    (h1 : prefLe k x a b) (h2 : prefLt k x b c) : prefLt k x a c := by
  rcases h1 with h1 | h1
  · exact prefLt_trans k x a b c h1 h2
  · exact prefLt_of_eq_of_lt k x a b c h1 h2

theorem pref_trichotomy (k : Nat) (x : List Nat) (i j : Nat) :
    prefLt k x i j ∨ prefEq k x i j ∨ prefLt k x j i := by
  by_cases he : prefEq k x i j
  · exact Or.inr (Or.inl he)
  · unfold prefEq at he
    push_neg at he
    obtain ⟨t0, ht0, hne⟩ := he
    have hex : ∃ t, sentChar x (i + t) ≠ sentChar x (j + t) := ⟨t0, hne⟩
    have hmlt : Nat.find hex < k := lt_of_le_of_lt (Nat.find_min' hex hne) ht0
    have heqb : ∀ t, t < Nat.find hex → sentChar x (i + t) = sentChar x (j + t) := by
      intro t ht
      exact not_not.mp (Nat.find_min hex ht)
    have hP := Nat.find_spec hex
    rcases lt_trichotomy (sentChar x (i + Nat.find hex)) (sentChar x (j + Nat.find hex)) with
      hlt | hee | hgt
    · exact Or.inl ⟨Nat.find hex, hmlt, heqb, hlt⟩
    · exact absurd hee hP
    · refine Or.inr (Or.inr ⟨Nat.find hex, hmlt, ?_, hgt⟩)
      intro t ht
      exact (heqb t ht).symm

theorem prefLt_mono (k k2 : Nat) (hkk : k ≤ k2) (x : List Nat) (i j : Nat)
    (h : prefLt k x i j) : prefLt k2 x i j := by
  obtain ⟨m, hm, he, hlt⟩ := h
  exact ⟨m, by omega, he, hlt⟩

theorem prefEq_mono (k k2 : Nat) (hkk : k2 ≤ k) (x : List Nat) (i j : Nat)
    (h : prefEq k x i j) : prefEq k2 x i j :=
  fun t ht => h t (by omega)

theorem prefEq_append (k k2 : Nat) (x : List Nat) (i j : Nat) :
    prefEq (k + k2) x i j ↔ prefEq k x i j ∧ prefEq k2 x (i + k) (j + k) := by
  constructor
  · intro h
    refine ⟨fun t ht => h t (by omega), fun t ht => ?_⟩
    have h2 := h (k + t) (by omega)
    have e1 : i + (k + t) = i + k + t := by omega
    have e2 : j + (k + t) = j + k + t := by omega
    rw [e1, e2] at h2
    exact h2
  · rintro ⟨h1, h2⟩ t ht
    by_cases htk : t < k
    · exact h1 t htk
    · have h3 := h2 (t - k) (by omega)
      have e1 : i + k + (t - k) = i + t := by omega
      have e2 : j + k + (t - k) = j + t := by omega
      rw [e1, e2] at h3
      exact h3

theorem prefLt_append (k k2 : Nat) (x : List Nat) (i j : Nat)
    (he : prefEq k x i j) :
    prefLt (k + k2) x i j ↔ prefLt k2 x (i + k) (j + k) := by
  constructor
  · rintro ⟨m, hm, heb, hlt⟩
    have hkm : k ≤ m := by
      by_contra hko
      rw [he m (by omega)] at hlt
      exact lt_irrefl _ hlt
    refine ⟨m - k, by omega, ?_, ?_⟩
    · intro t ht
      have h3 := heb (k + t) (by omega)
      have e1 : i + (k + t) = i + k + t := by omega
      have e2 : j + (k + t) = j + k + t := by omega
      rw [e1, e2] at h3
      exact h3
    · have e1 : i + k + (m - k) = i + m := by omega
      have e2 : j + k + (m - k) = j + m := by omega
      rw [e1, e2]
      exact hlt
  · rintro ⟨m, hm, heb, hlt⟩
    refine ⟨k + m, by omega, ?_, ?_⟩
    · intro t ht
      by_cases htk : t < k
      · exact he t htk
      · have h3 := heb (t - k) (by omega)
        have e1 : i + k + (t - k) = i + t := by omega
        have e2 : j + k + (t - k) = j + t := by omega
        rw [e1, e2] at h3
        exact h3
    · have e1 : i + (k + m) = i + k + m := by omega
      have e2 : j + (k + m) = j + k + m := by omega
      rw [e1, e2]
      exact hlt

theorem prefEq_allSent (k : Nat) (x : List Nat) (i j : Nat)
    (hi : x.length ≤ i) (hj : x.length ≤ j) : prefEq k x i j := by
  intro t _
  rw [sentChar_of_ge x (i + t) (by omega), sentChar_of_ge x (j + t) (by omega)]

theorem prefEq_oob (k : Nat) (x : List Nat) (i j : Nat) (hk : 1 ≤ k)
    (he : prefEq k x i j) (hik : x.length < i + k) : x.length < j + k := by
  by_contra hjk
  push_neg at hjk
  have ht : x.length - i < k := by omega
  have h1 := he (x.length - i) ht
  rw [sentChar_of_ge x (i + (x.length - i)) (by omega)] at h1
  have hjt : j + (x.length - i) < x.length := by omega
  rw [sentChar_of_lt x (j + (x.length - i)) hjt] at h1
  omega

theorem prefEq_big (k : Nat) (x : List Nat) (i j : Nat)
    (hk : x.length < k) (hi : i ≤ x.length) (hj : j ≤ x.length)
    (he : prefEq k x i j) : i = j := by
  rcases lt_trichotomy i j with hij | hij | hij
  · exfalso
    have h1 := he (x.length - j) (by omega)
    rw [sentChar_of_ge x (j + (x.length - j)) (by omega)] at h1
    rw [sentChar_of_lt x (i + (x.length - j)) (by omega)] at h1
    omega
  · exact hij
  · exfalso
    have h1 := he (x.length - i) (by omega)
    rw [sentChar_of_ge x (i + (x.length - i)) (by omega)] at h1
    rw [sentChar_of_lt x (j + (x.length - i)) (by omega)] at h1
    omega

theorem prefLt_suffixLt (k : Nat) (x : List Nat) (i j : Nat) (h : prefLt k x i j) :
    suffixLt x i j := by
  obtain ⟨m, _, he, hlt⟩ := h
  exact ⟨m, he, hlt⟩

theorem rankIso_iff (x : List Nat) (K : Nat) (r : List Int) (i j : Nat) :
    rankIso x K r i j ↔
      ((r.getD i 0 < r.getD j 0 ↔ prefLt K x i j) ∧
       (r.getD i 0 = r.getD j 0 ↔ prefEq K x i j)) := Iff.rfl

theorem cmpInt_eq_iff (a b : Int) : cmpInt a b = .eq ↔ a = b := by
  unfold cmpInt
  split_ifs with h1 h2 <;> simp_all <;> omega

/-! ## The doubling-round rank invariant -/

theorem rank0_ok (x : List Nat) :
    RankOK x 1 ((List.range (x.length + 1)).map
      (fun i => if i < x.length then (x.getD i 0 : Int) else -1)) := by
  constructor
  · simp
  · intro i j hi hj
    have hv : ∀ t, t ≤ x.length →
        ((List.range (x.length + 1)).map
          (fun i => if i < x.length then (x.getD i 0 : Int) else -1)).getD t 0 =
        sentChar x t := by
      intro t ht
      rw [getD_map_range (x.length + 1) t _ 0 (by omega)]
      rfl
    rw [rankIso_iff, hv i hi, hv j hj]
    constructor
    · constructor
      · intro h
        refine ⟨0, by omega, ?_, ?_⟩
        · intro t ht
          exact absurd ht (Nat.not_lt_zero t)
        · simpa using h
      · rintro ⟨m, hm, _, hlt⟩
        have hm0 : m = 0 := by omega
        subst hm0
        simpa using hlt
    · constructor
      · intro h t ht
        have ht0 : t = 0 := by omega
        subst ht0
        simpa using h
      · intro h
        have h0 := h 0 (by omega)
        simpa using h0

theorem compare_node_pref (x : List Nat) (k : Nat) (rank : List Int)
    (hR : RankOK x k rank) (hk : 1 ≤ k) (i j : Nat)
    (hi : i ≤ x.length) (hj : j ≤ x.length) :
    (SuffixArray.compare_node i j k rank = Ordering.lt ↔ prefLt (k + k) x i j) ∧
    (SuffixArray.compare_node i j k rank = Ordering.eq ↔ prefEq (k + k) x i j) := by
  obtain ⟨hlen, hord⟩ := hR
  rw [compare_node_unfold]
  by_cases hreq : rank.getD i 0 = rank.getD j 0
  · rw [if_neg (not_not.mpr hreq)]
    have heq : prefEq k x i j := ((hord i j hi hj).2).mp hreq
    by_cases hik : x.length < i + k
    · have hjk : x.length < j + k := prefEq_oob k x i j hk heq hik
      have hri : SuffixArray.extRank k rank i = -1 := by
        unfold SuffixArray.extRank
        rw [if_neg (by omega)]
      have hrj : SuffixArray.extRank k rank j = -1 := by
        unfold SuffixArray.extRank
        rw [if_neg (by omega)]
      rw [hri, hrj]
      have hval : cmpInt (-1 : Int) (-1) = Ordering.eq := by decide
      rw [hval]
      have h2k : prefEq (k + k) x i j :=
        (prefEq_append k k x i j).mpr
          ⟨heq, prefEq_allSent k x (i + k) (j + k) (by omega) (by omega)⟩
      constructor
      · constructor
        · intro h
          exact absurd h (by decide)
        · intro h
          exact absurd h2k (prefLt_not_eq (k + k) x i j h)
      · constructor
        · intro _
          exact h2k
        · intro _
          rfl
    · by_cases hjk : x.length < j + k
      · exact absurd (prefEq_oob k x j i hk (prefEq_symm k x i j heq) hjk) hik
      · have hri : SuffixArray.extRank k rank i = rank.getD (i + k) 0 := by
          unfold SuffixArray.extRank
          rw [if_pos (by omega)]
        have hrj : SuffixArray.extRank k rank j = rank.getD (j + k) 0 := by
          unfold SuffixArray.extRank
          rw [if_pos (by omega)]
        rw [hri, hrj]
        have hiso := hord (i + k) (j + k) (by omega) (by omega)
        rw [rankIso_iff] at hiso
        constructor
        · rw [cmpInt_lt_iff, hiso.1]
          exact (prefLt_append k k x i j heq).symm
        · rw [cmpInt_eq_iff, hiso.2]
          constructor
          · intro h
            exact (prefEq_append k k x i j).mpr ⟨heq, h⟩
          · intro h
            exact ((prefEq_append k k x i j).mp h).2
  · rw [if_pos hreq]
    have hiso := hord i j hi hj
    rw [rankIso_iff] at hiso
    have hne : ¬ prefEq k x i j := fun h => hreq (hiso.2.mpr h)
    constructor
    · rw [cmpInt_lt_iff, hiso.1]
      constructor
      · exact prefLt_mono k (k + k) (by omega) x i j
      · intro h
        rcases pref_trichotomy k x i j with h1 | h1 | h1
        · exact h1
        · exact absurd h1 hne
        · exact absurd (prefLt_mono k (k + k) (by omega) x j i h1)
            (fun h2 => prefLt_asymm (k + k) x i j h h2)
    · rw [cmpInt_eq_iff]
      constructor
      · intro h
        exact absurd h hreq
      · intro h
        exact absurd (prefEq_mono (k + k) k (by omega) x i j h) hne

theorem nodeLe_pref (x : List Nat) (k : Nat) (rank : List Int)
    (hR : RankOK x k rank) (hk : 1 ≤ k) (a b : Nat)
    (ha : a ≤ x.length) (hb : b ≤ x.length) :
    SuffixArray.nodeLe k rank a b ↔ prefLe (k + k) x a b := by
  obtain ⟨hlt, heqi⟩ := compare_node_pref x k rank hR hk a b ha hb
  unfold SuffixArray.nodeLe prefLe
  cases hcc : SuffixArray.compare_node a b k rank with
  | lt =>
      constructor
      · intro _
        exact Or.inl (hlt.mp hcc)
      · intro _
        decide
  | eq =>
      constructor
      · intro _
        exact Or.inr (heqi.mp hcc)
      · intro _
        decide
  | gt =>
      rw [hcc] at hlt heqi
      constructor
      · intro h
        exact absurd rfl h
      · rintro (h | h)
        · exact absurd (hlt.mpr h) (by decide)
        · exact absurd (heqi.mpr h) (by decide)

theorem pairwise_prefLe_suffixLt (x : List Nat) (k : Nat) (arr : List Nat)
    (hk : x.length < k) (hmem : ∀ a ∈ arr, a ≤ x.length)
    (hp : List.Pairwise (fun a b => prefLe k x a b) arr) :
    List.Pairwise (fun a b => a ≠ b → suffixLt x a b) arr := by
  refine List.Pairwise.imp_of_mem ?_ hp
  intro a b ha hb hle hne
  rcases hle with hlt | heq
  · exact prefLt_suffixLt k x a b hlt
  · exact absurd (prefEq_big k x a b hk (hmem a ha) (hmem b hb) heq) hne

theorem rankIso_extend (x : List Nat) (K : Nat) (tmp : List Int) (done : List Nat)
    (prev a0 : Nat) (pv v : Int)
    (hprev : prev ∈ done)
    (hnotin : a0 ∉ done)
    (ha0len : a0 < tmp.length)
    (htprev : tmp.getD prev 0 = pv)
    (htle : ∀ c ∈ done, tmp.getD c 0 ≤ pv)
    (hlepr : ∀ c ∈ done, prefLe K x c prev)
    (hdone : ∀ c ∈ done, ∀ d ∈ done, rankIso x K tmp c d)
    (hsem : (pv < v ∧ prefLt K x prev a0) ∨ (pv = v ∧ prefEq K x prev a0)) :
    ∀ c ∈ done ++ [a0], ∀ d ∈ done ++ [a0], rankIso x K (tmp.set a0 v) c d := by
  intro c hcm d hdm
  rcases List.mem_append.mp hcm with hcd | hca
  · rcases List.mem_append.mp hdm with hdd | hda
    · have hnec : a0 ≠ c := fun he => hnotin (he ▸ hcd)
      have hned : a0 ≠ d := fun he => hnotin (he ▸ hdd)
      rw [rankIso_iff, getD_set_ne tmp a0 c v 0 hnec, getD_set_ne tmp a0 d v 0 hned]
      have h := hdone c hcd d hdd
      rw [rankIso_iff] at h
      exact h
    · rw [List.mem_singleton] at hda
      have hsy := hda.symm
      subst hsy
      have hnec : a0 ≠ c := fun he => hnotin (he ▸ hcd)
      rw [rankIso_iff, getD_set_ne tmp a0 c v 0 hnec, getD_set_self tmp a0 v 0 ha0len]
      have hcp := hdone c hcd prev hprev
      rw [rankIso_iff, htprev] at hcp
      rcases hsem with ⟨hv, hltp⟩ | ⟨hv, heqp⟩
      · constructor
        · constructor
          · intro _
            exact prefLt_of_le_of_lt K x c prev a0 (hlepr c hcd) hltp
          · intro _
            have := htle c hcd
            omega
        · constructor
          · intro h
            have := htle c hcd
            omega
          · intro h
            exact absurd h
              (prefLt_not_eq K x c a0 (prefLt_of_le_of_lt K x c prev a0 (hlepr c hcd) hltp))
      · subst hv
        constructor
        · rw [hcp.1]
          constructor
          · intro h
            exact prefLt_of_lt_of_eq K x c prev a0 h heqp
          · intro h
            exact prefLt_of_lt_of_eq K x c a0 prev h (prefEq_symm K x prev a0 heqp)
        · rw [hcp.2]
          constructor
          · intro h
            exact prefEq_trans K x c prev a0 h heqp
          · intro h
            exact prefEq_trans K x c a0 prev h (prefEq_symm K x prev a0 heqp)
  · rw [List.mem_singleton] at hca
    have hsy := hca.symm
    subst hsy
    rcases List.mem_append.mp hdm with hdd | hda
    · have hned : a0 ≠ d := fun he => hnotin (he ▸ hdd)
      rw [rankIso_iff, getD_set_self tmp a0 v 0 ha0len, getD_set_ne tmp a0 d v 0 hned]
      have hpd := hdone prev hprev d hdd
      rw [rankIso_iff, htprev] at hpd
      rcases hsem with ⟨hv, hltp⟩ | ⟨hv, heqp⟩
      · constructor
        · constructor
          · intro h
            exact absurd h (by have := htle d hdd; omega)
          · intro h
            exact absurd (hlepr d hdd)
              (fun h2 => prefLt_le_asymm K x prev d (prefLt_trans K x prev a0 d hltp h) h2)
        · constructor
          · intro h
            exact absurd h (by have := htle d hdd; omega)
          · intro h
            exact absurd (hlepr d hdd)
              (fun h2 => prefLt_le_asymm K x prev d (prefLt_of_lt_of_eq K x prev a0 d hltp h) h2)
      · subst hv
        constructor
        · rw [hpd.1]
          constructor
          · intro h
            exact prefLt_of_eq_of_lt K x a0 prev d (prefEq_symm K x prev a0 heqp) h
          · intro h
            exact prefLt_of_eq_of_lt K x prev a0 d heqp h
        · rw [hpd.2]
          constructor
          · intro h
            exact prefEq_trans K x a0 prev d (prefEq_symm K x prev a0 heqp) h
          · intro h
            exact prefEq_trans K x prev a0 d heqp h
    · rw [List.mem_singleton] at hda
      have hsy := hda.symm
      subst hsy
      rw [rankIso_iff, getD_set_self tmp a0 v 0 ha0len]
      constructor
      · constructor
        · intro h
          exact absurd h (lt_irrefl v)
        · intro h
          exact absurd h (prefLt_irrefl K x a0)
      · constructor
        · intro _
          exact prefEq_refl K x a0
        · intro _
          rfl

theorem rerankAux_ok (x : List Nat) (k : Nat) (rank : List Int)
    (hR : RankOK x k rank) (hk : 1 ≤ k) :
    ∀ (rest done : List Nat) (prev : Nat) (pv : Int) (tmp : List Int),
      tmp.length = x.length + 1 →
      prev ∈ done →
      (∀ a ∈ done, a ≤ x.length) →
      (∀ a ∈ rest, a ≤ x.length) →
      (∀ a ∈ done, ∀ b ∈ rest, a ≠ b) →
      rest.Nodup →
      List.Chain' (fun a b => prefLe (k + k) x a b) (prev :: rest) →
      (∀ a ∈ done, prefLe (k + k) x a prev) →
      tmp.getD prev 0 = pv →
      (∀ a ∈ done, tmp.getD a 0 ≤ pv) →
      (∀ a ∈ done, ∀ b ∈ done, rankIso x (k + k) tmp a b) →
      ∀ a b, a ∈ done ++ rest → b ∈ done ++ rest →
        rankIso x (k + k) (SuffixArray.rerankAux k rank rest prev pv tmp) a b := by
  intro rest
  induction rest with
  | nil =>
      intro done prev pv tmp _ _ _ _ _ _ _ _ _ _ hdone a b ha hb
      simp only [List.append_nil] at ha hb
      simp only [SuffixArray.rerankAux]
      exact hdone a ha b hb
  | cons a0 rest' ih =>
      intro done prev pv tmp hlen hprev hbdone hbrest hdisj hnd hchain hlepr htprev htle
        hdone a b ha hb
      simp only [SuffixArray.rerankAux]
      obtain ⟨hstep, hchain'⟩ := List.chain'_cons.mp hchain
      have ha0n : a0 ≤ x.length := hbrest a0 (List.mem_cons_self a0 rest')
      have hprevn : prev ≤ x.length := hbdone prev hprev
      have hcmp := compare_node_pref x k rank hR hk prev a0 hprevn ha0n
      have ha0len : a0 < tmp.length := by omega
      have ha0nr : a0 ∉ rest' := (List.nodup_cons.mp hnd).1
      have hnd' : rest'.Nodup := (List.nodup_cons.mp hnd).2
      have hnotin : a0 ∉ done := fun hmem =>
        (hdisj a0 hmem a0 (List.mem_cons_self a0 rest')) rfl
      have hmema : a ∈ (done ++ [a0]) ++ rest' := by
        simp only [List.mem_append, List.mem_cons, List.mem_singleton] at ha ⊢
        tauto
      have hmemb : b ∈ (done ++ [a0]) ++ rest' := by
        simp only [List.mem_append, List.mem_cons, List.mem_singleton] at hb ⊢
        tauto
      have hbdone' : ∀ c ∈ done ++ [a0], c ≤ x.length := by
        intro c hc2
        rcases List.mem_append.mp hc2 with h | h
        · exact hbdone c h
        · rw [List.mem_singleton] at h
          have hsy := h.symm
          subst hsy
          exact ha0n
      have hbrest' : ∀ c ∈ rest', c ≤ x.length :=
        fun c hc2 => hbrest c (List.mem_cons_of_mem a0 hc2)
      have hdisj' : ∀ c ∈ done ++ [a0], ∀ b2 ∈ rest', c ≠ b2 := by
        intro c hc2 b2 hb2
        rcases List.mem_append.mp hc2 with h | h
        · exact hdisj c h b2 (List.mem_cons_of_mem a0 hb2)
        · rw [List.mem_singleton] at h
          have hsy := h.symm
          subst hsy
          exact fun he => ha0nr (he ▸ hb2)
      have hmem_a0 : a0 ∈ done ++ [a0] :=
        List.mem_append_right done (List.mem_singleton.mpr rfl)
      by_cases hc : SuffixArray.compare_node prev a0 k rank = Ordering.lt
      · rw [if_pos hc]
        have hstrict : prefLt (k + k) x prev a0 := hcmp.1.mp hc
        have hlepr' : ∀ c ∈ done ++ [a0], prefLe (k + k) x c a0 := by
          intro c hcm2
          rcases List.mem_append.mp hcm2 with h | h
          · exact prefLe_trans (k + k) x c prev a0 (hlepr c h) (Or.inl hstrict)
          · rw [List.mem_singleton] at h
            have hsy := h.symm
            subst hsy
            exact Or.inr (prefEq_refl (k + k) x a0)
        refine ih (done ++ [a0]) a0 (pv + 1) (tmp.set a0 (pv + 1)) ?_ hmem_a0 hbdone' hbrest'
          hdisj' hnd' hchain' hlepr' ?_ ?_ ?_ a b hmema hmemb
        · rw [List.length_set]
          exact hlen
        · exact getD_set_self tmp a0 (pv + 1) 0 ha0len
        · intro c hcm2
          rcases List.mem_append.mp hcm2 with h | h
          · have hnec : a0 ≠ c := fun he => hnotin (he ▸ h)
            rw [getD_set_ne tmp a0 c (pv + 1) 0 hnec]
            have := htle c h
            omega
          · rw [List.mem_singleton] at h
            have hsy := h.symm
            subst hsy
            rw [getD_set_self tmp a0 (pv + 1) 0 ha0len]
        · exact rankIso_extend x (k + k) tmp done prev a0 pv (pv + 1) hprev hnotin ha0len
            htprev htle hlepr hdone (Or.inl ⟨by omega, hstrict⟩)
      · rw [if_neg hc]
        simp only [add_zero]
        have heqpa : prefEq (k + k) x prev a0 := by
          rcases hstep with h | h
          · exact absurd (hcmp.1.mpr h) hc
          · exact h
        have hlepr' : ∀ c ∈ done ++ [a0], prefLe (k + k) x c a0 := by
          intro c hcm2
          rcases List.mem_append.mp hcm2 with h | h
          · exact prefLe_trans (k + k) x c prev a0 (hlepr c h) (Or.inr heqpa)
          · rw [List.mem_singleton] at h
            have hsy := h.symm
            subst hsy
            exact Or.inr (prefEq_refl (k + k) x a0)
        refine ih (done ++ [a0]) a0 pv (tmp.set a0 pv) ?_ hmem_a0 hbdone' hbrest'
          hdisj' hnd' hchain' hlepr' ?_ ?_ ?_ a b hmema hmemb
        · rw [List.length_set]
          exact hlen
        · exact getD_set_self tmp a0 pv 0 ha0len
        · intro c hcm2
          rcases List.mem_append.mp hcm2 with h | h
          · have hnec : a0 ≠ c := fun he => hnotin (he ▸ h)
            rw [getD_set_ne tmp a0 c pv 0 hnec]
            exact htle c h
          · rw [List.mem_singleton] at h
            have hsy := h.symm
            subst hsy
            rw [getD_set_self tmp a0 pv 0 ha0len]
        · exact rankIso_extend x (k + k) tmp done prev a0 pv pv hprev hnotin ha0len
            htprev htle hlepr hdone (Or.inr ⟨rfl, heqpa⟩)

theorem rerank_ok (x : List Nat) (k : Nat) (rank : List Int) (arr : List Nat)
    (hR : RankOK x k rank) (hk : 1 ≤ k)
    (hperm : List.Perm arr (List.range (x.length + 1)))
    (hsorted : List.Pairwise (fun a b => prefLe (k + k) x a b) arr) :
    RankOK x (k + k) (SuffixArray.rerank arr k rank x.length) := by
  cases arr with
  | nil =>
      have h := hperm.length_eq
      rw [List.length_nil, List.length_range] at h
      exact absurd h (by omega)
  | cons a0 rest =>
      have hmem : ∀ v ∈ a0 :: rest, v ≤ x.length := by
        intro v hv
        have h2 := List.mem_range.mp (hperm.mem_iff.mp hv)
        omega
      have hnd : (a0 :: rest).Nodup := hperm.nodup_iff.mpr (List.nodup_range _)
      have ha0n : a0 ≤ x.length := hmem a0 (List.mem_cons_self a0 rest)
      have ha0len : a0 < (List.replicate (x.length + 1) (0 : Int)).length := by
        rw [List.length_replicate]
        omega
      have htmplen : ((List.replicate (x.length + 1) (0 : Int)).set a0 0).length =
          x.length + 1 := by
        rw [List.length_set, List.length_replicate]
      have hmain := rerankAux_ok x k rank hR hk rest [a0] a0 0
        ((List.replicate (x.length + 1) (0 : Int)).set a0 0)
        htmplen
        (List.mem_singleton.mpr rfl)
        (by
          intro c hc
          rw [List.mem_singleton] at hc
          have hsy := hc.symm
          subst hsy
          exact ha0n)
        (fun c hc => hmem c (List.mem_cons_of_mem a0 hc))
        (by
          intro c hc b hb
          rw [List.mem_singleton] at hc
          have hsy := hc.symm
          subst hsy
          exact fun he => (List.nodup_cons.mp hnd).1 (he ▸ hb))
        ((List.nodup_cons.mp hnd).2)
        (List.Pairwise.chain' hsorted)
        (by
          intro c hc
          rw [List.mem_singleton] at hc
          have hsy := hc.symm
          subst hsy
          exact Or.inr (prefEq_refl (k + k) x a0))
        (getD_set_self (List.replicate (x.length + 1) (0 : Int)) a0 0 0 ha0len)
        (by
          intro c hc
          rw [List.mem_singleton] at hc
          have hsy := hc.symm
          subst hsy
          rw [getD_set_self (List.replicate (x.length + 1) (0 : Int)) a0 0 0 ha0len])
        (by
          intro c hc d hd
          rw [List.mem_singleton] at hc hd
          have hsy := hc.symm
          subst hsy
          have hsy := hd.symm
          subst hsy
          rw [rankIso_iff,
            getD_set_self (List.replicate (x.length + 1) (0 : Int)) a0 0 0 ha0len]
          constructor
          · constructor
            · intro h
              exact absurd h (lt_irrefl 0)
            · intro h
              exact absurd h (prefLt_irrefl (k + k) x a0)
          · constructor
            · intro _
              exact prefEq_refl (k + k) x a0
            · intro _
              rfl)
      constructor
      · simp only [SuffixArray.rerank]
        rw [rerankAux_length]
        exact htmplen
      · intro i j hi hj
        have hi' : i ∈ a0 :: rest := hperm.mem_iff.mpr (List.mem_range.mpr (by omega))
        have hj' : j ∈ a0 :: rest := hperm.mem_iff.mpr (List.mem_range.mpr (by omega))
        simp only [SuffixArray.rerank]
        exact hmain i j hi' hj'

theorem rounds_sorted (x : List Nat) :
    ∀ (fuel k : Nat) (arr : List Nat) (rank : List Int),
      1 ≤ k → x.length < k * 2 ^ fuel →
      List.Perm arr (List.range (x.length + 1)) →
      RankOK x k rank →
      (x.length < k → List.Pairwise (fun a b => prefLe k x a b) arr) →
      List.Pairwise (fun a b => a ≠ b → suffixLt x a b)
        (SuffixArray.rounds x.length fuel k arr rank) := by
  intro fuel
  induction fuel with
  | zero =>
      intro k arr rank hk hbound hperm _ hsorted
      have hkn : x.length < k := by simpa using hbound
      have hmem : ∀ a ∈ arr, a ≤ x.length := by
        intro a ha
        have h2 := List.mem_range.mp (hperm.mem_iff.mp ha)
        omega
      exact pairwise_prefLe_suffixLt x k arr hkn hmem (hsorted hkn)
  | succ fuel ih =>
      intro k arr rank hk hbound hperm hR hsorted
      simp only [SuffixArray.rounds]
      by_cases hkn : k ≤ x.length
      · rw [if_pos hkn]
        haveI : IsTotal Nat (SuffixArray.nodeLe k rank) := ⟨nodeLe_total k rank⟩
        haveI : IsTrans Nat (SuffixArray.nodeLe k rank) := ⟨nodeLe_trans k rank⟩
        have hsort : List.Pairwise (SuffixArray.nodeLe k rank)
            (List.insertionSort (SuffixArray.nodeLe k rank) arr) :=
          List.sorted_insertionSort (SuffixArray.nodeLe k rank) arr
        have hperm2 : List.Perm (List.insertionSort (SuffixArray.nodeLe k rank) arr)
            (List.range (x.length + 1)) :=
          (List.perm_insertionSort (SuffixArray.nodeLe k rank) arr).trans hperm
        have hmem2 : ∀ a ∈ List.insertionSort (SuffixArray.nodeLe k rank) arr,
            a ≤ x.length := by
          intro a ha
          have h2 := List.mem_range.mp (hperm2.mem_iff.mp ha)
          omega
        have hple : List.Pairwise (fun a b => prefLe (k + k) x a b)
            (List.insertionSort (SuffixArray.nodeLe k rank) arr) := by
          refine List.Pairwise.imp_of_mem ?_ hsort
          intro a b ha hb hr
          exact (nodeLe_pref x k rank hR hk a b (hmem2 a ha) (hmem2 b hb)).mp hr
        have hR2 : RankOK x (k + k)
            (SuffixArray.rerank (List.insertionSort (SuffixArray.nodeLe k rank) arr)
              k rank x.length) :=
          rerank_ok x k rank (List.insertionSort (SuffixArray.nodeLe k rank) arr)
            hR hk hperm2 hple
        have hkk : k * 2 = k + k := by ring
        refine ih (k * 2) (List.insertionSort (SuffixArray.nodeLe k rank) arr)
          (SuffixArray.rerank (List.insertionSort (SuffixArray.nodeLe k rank) arr)
            k rank x.length)
          (by omega) ?_ hperm2 ?_ ?_
        · have he2 : k * 2 * 2 ^ fuel = k * 2 ^ (fuel + 1) := by ring
          rw [he2]
          exact hbound
        · rw [hkk]
          exact hR2
        · intro _
          rw [hkk]
          exact hple
      · rw [if_neg hkn]
        have hkn' : x.length < k := by omega
        have hmem : ∀ a ∈ arr, a ≤ x.length := by
          intro a ha
          have h2 := List.mem_range.mp (hperm.mem_iff.mp ha)
          omega
        exact pairwise_prefLe_suffixLt x k arr hkn' hmem (hsorted hkn')

/-- C3: SuffixArray::new returns an array of n+1 entries that is a
permutation of 0..n, and adjacent entries index suffixes in strictly
increasing lexicographic order under the virtual-sentinel rule (the
sentinel at position n compares below every byte). -/
theorem c3_suffix_array (x : List Nat) :
    List.Perm (SuffixArray.new x) (List.range (x.length + 1)) ∧
    ∀ i, i + 1 ≤ x.length →
      suffixLt x ((SuffixArray.new x).getD i 0) ((SuffixArray.new x).getD (i + 1) 0) := by
  refine ⟨sa_perm x, ?_⟩
  have hbound : x.length < 1 * 2 ^ (x.length + 1) := by
    have h1 := Nat.lt_two_pow x.length
    have h2 : (2 : Nat) ^ x.length ≤ 2 ^ (x.length + 1) :=
      Nat.pow_le_pow_right (by omega) (by omega)
    omega
  have hbase : x.length < 1 →
      List.Pairwise (fun a b => prefLe 1 x a b) (List.range (x.length + 1)) := by
    intro h
    have hx : x.length = 0 := by omega
    rw [hx]
    have hr : List.range (0 + 1) = [0] := by decide
    rw [hr]
    exact List.pairwise_singleton _ 0
  have hpw0 : List.Pairwise (fun a b => a ≠ b → suffixLt x a b)
      (SuffixArray.rounds x.length (x.length + 1) 1 (List.range (x.length + 1))
        ((List.range (x.length + 1)).map
          (fun i => if i < x.length then (x.getD i 0 : Int) else -1))) :=
    rounds_sorted x (x.length + 1) 1 (List.range (x.length + 1))
      ((List.range (x.length + 1)).map
        (fun i => if i < x.length then (x.getD i 0 : Int) else -1))
      (le_refl 1) hbound (List.Perm.refl _) (rank0_ok x) hbase
  have hnew : SuffixArray.new x =
      SuffixArray.rounds x.length (x.length + 1) 1 (List.range (x.length + 1))
        ((List.range (x.length + 1)).map
          (fun i => if i < x.length then (x.getD i 0 : Int) else -1)) := rfl
  rw [← hnew] at hpw0
  intro i hi
  have hlen := sa_length x
  have h1 : i < (SuffixArray.new x).length := by omega
  have h2 : i + 1 < (SuffixArray.new x).length := by omega
  have hR := List.pairwise_iff_getElem.mp hpw0 i (i + 1) h1 h2 (by omega)
  rw [getD_eq_getElem (SuffixArray.new x) i 0 h1,
    getD_eq_getElem (SuffixArray.new x) (i + 1) 0 h2]
  apply hR
  intro he
  have hne := nodup_getD_ne (SuffixArray.new x) (sa_nodup x) i (i + 1) h1 h2 (by omega)
  rw [getD_eq_getElem (SuffixArray.new x) i 0 h1,
    getD_eq_getElem (SuffixArray.new x) (i + 1) 0 h2] at hne
  exact hne he

theorem c3_witness :
    suffixLt [1, 0] ((SuffixArray.new [1, 0]).getD 0 0) ((SuffixArray.new [1, 0]).getD 1 0) :=
  (c3_suffix_array [1, 0]).2 0 (by decide)

end Archiver
